import Mathlib

/-!
Verification development for a source-rewriting tool that partitions a
source file into typed regions (leading comments/docstrings,
top-level imports, whitespace, other code), de-duplicates and splits import
statements, re-sorts them into blocks and reassembles the file.

The embedding is shallow: Python text strings become `List Char`,
Python's fallible functions return `Except PyErr`.  The external
collaborators (the CPython `tokenize`/`ast` modules and the
`aspy.refactor_imports` classifier/sorter) are modelled by executable
Lean functions on a restricted class of sources; the core functions
(`partition_source`, `separate_comma_imports`,
`remove_duplicated_imports`, `apply_import_sorting`,
`fix_file_contents`, `mainLoop`) are direct transcriptions of the
program.
-/

namespace RPI

set_option autoImplicit false

/-- Python text strings, modelled as lists of characters (Python indexing
and slicing is by code point, which matches list positions). -/
abbrev PyStr := List Char

/-- Python slicing `s[a:b]` for `0 ≤ a ≤ b` (out-of-range indices clamp,
and `b < a` yields the empty string, as in Python). -/
def pySlice (s : PyStr) (a b : Nat) : PyStr := (s.take b).drop a

/-- The characters Python's `str.splitlines` treats as line boundaries
besides `\n`: carriage return, vertical tab, form feed, the file, group
and record separators, NEL, and the Unicode line and paragraph
separators. -/
def isOddBreak (c : Char) : Bool :=
  decide (c ∈ (['\r', '\x0b', '\x0c', '\x1c', '\x1d', '\x1e',
    '\x85', '\u2028', '\u2029'] : List Char))

/-- Any `str.splitlines` boundary character. -/
def isLineBdry (c : Char) : Bool := c = '\n' || isOddBreak c

/-- Python's `str.splitlines`: a line ends at every boundary character,
with `\r\n` counting as a single terminator.  A trailing fragment without
terminator is returned as a final line; the terminators themselves are
not part of the returned lines. -/
def splitlinesAux : PyStr → PyStr → List PyStr
  | [], acc => if acc = [] then [] else [acc.reverse]
  | '\r' :: '\n' :: rest, acc => acc.reverse :: splitlinesAux rest []
  | c :: rest, acc =>
    if isLineBdry c then acc.reverse :: splitlinesAux rest []
    else splitlinesAux rest (c :: acc)

/-- Python `src.splitlines()`. -/
def splitlinesPy (s : PyStr) : List PyStr := splitlinesAux s []

/-- Region kinds produced by the partitioner (class `CodeType` in the
source). -/
inductive CodeType where
  | PRE_IMPORT_CODE
  | IMPORT
  | NON_CODE
  | CODE
deriving DecidableEq, Repr

/-- A typed region: a kind together with the exact slice of source text
(`CodePartition` namedtuple in the source). -/
structure CodePartition where
  code_type : CodeType
  src : PyStr
deriving DecidableEq, Repr

/-- Concatenation of the text slices of a region sequence
(`''.join(partition.src for partition in ...)`). -/
def joinSrc (ps : List CodePartition) : PyStr := (ps.map CodePartition.src).flatten

/-- Token categories as far as the partitioner observes them.  All token
types other than COMMENT, STRING, NL, NEWLINE and ENDMARKER (NAME, OP,
NUMBER, INDENT, ...) are only ever tested against those five and behave
identically, so they are collapsed into `OTHER`. -/
inductive TokType where
  | COMMENT
  | STRING
  | NL
  | NEWLINE
  | ENDMARKER
  | OTHER
deriving DecidableEq, Repr

/-- A token as consumed by the partitioner: its type and its start/end
coordinates `(srow, scol)`, `(erow, ecol)` (1-based rows).  The token's
text and source line, which the partitioner ignores, are omitted. -/
structure Tok where
  typ : TokType
  srow : Nat
  scol : Nat
  erow : Nat
  ecol : Nat
deriving DecidableEq, Repr

/-- Errors raised by the modelled program. -/
inductive PyErr where
  | typeError
  | syntaxError
  | tokenizeError
  | assertionError
  | importParseError
  | keyError
deriving DecidableEq, Repr

/-- Decidable equality of `Except` results (needed to evaluate the model
on concrete inputs). -/
instance exceptDecEq {ε α : Type} [DecidableEq ε] [DecidableEq α] :
    DecidableEq (Except ε α) := fun a b =>
  match a, b with
  | .ok x, .ok y => decidable_of_iff (x = y) (by simp)
  | .error x, .error y => decidable_of_iff (x = y) (by simp)
  | .ok _, .error _ => isFalse (by simp)
  | .error _, .ok _ => isFalse (by simp)

def TERMINATES_COMMENT : List TokType := [.NL, .ENDMARKER]
def TERMINATES_DOCSTRING : List TokType := [.NEWLINE, .ENDMARKER]
def TERMINATES_IMPORT : List TokType := [.NEWLINE, .ENDMARKER]
def TERMINATES_CODE : List TokType := [.ENDMARKER]

/-- The offsets table of `get_line_offsets_by_line_no`: Python builds
`[None, 0]` and appends `offsets[-1] + len(line) + 1` per line of
`src.splitlines()`.  The leading `None` padding (never indexed) is
modelled as a `0` placeholder at index 0. -/
def offsetsFrom (start : Nat) : List PyStr → List Nat
  | [] => []
  | l :: rest => (start + l.length + 1) :: offsetsFrom (start + l.length + 1) rest

/-- Transcription of `get_line_offsets_by_line_no` in the source. -/
def get_line_offsets_by_line_no (src : PyStr) : List Nat :=
  0 :: 0 :: offsetsFrom 0 (splitlinesPy src)

/-- List indexing `offsets[r]` (rows stay in range for every token stream
the program consumes, so the default is never returned there). -/
def offAt (offsets : List Nat) (r : Nat) : Nat := offsets.getD r 0

/-- State of the scanning loop in `partition_source`: the chunks emitted
so far, the current cut position, the pending chunk type with its set of
terminating token types, and the `seen_import` flag. -/
structure ScanState where
  chunks : List CodePartition
  startpos : Nat
  pending_chunk_type : Option CodeType
  possible_ending_tokens : List TokType
  seen_import : Bool
deriving DecidableEq, Repr

/-- One iteration of the token loop of `partition_source`, transcribed
branch by branch (the `elif` chain order is preserved). -/
def scanTok (offsets : List Nat) (ilines : List Nat) (src : PyStr)
    (st : ScanState) (t : Tok) : ScanState :=
  match st.pending_chunk_type with
  | none =>
    if ¬ st.seen_import ∧ t.typ = .COMMENT then
      { st with pending_chunk_type := some .PRE_IMPORT_CODE,
                possible_ending_tokens := TERMINATES_COMMENT }
    else if ¬ st.seen_import ∧ t.typ = .STRING then
      { st with pending_chunk_type := some .PRE_IMPORT_CODE,
                possible_ending_tokens := TERMINATES_DOCSTRING }
    else if t.scol = 0 ∧ t.srow ∈ ilines then
      { st with seen_import := true,
                pending_chunk_type := some .IMPORT,
                possible_ending_tokens := TERMINATES_IMPORT }
    else if t.typ = .NL then
      let endpos := offAt offsets t.erow + t.ecol
      { st with chunks := st.chunks ++ [⟨.NON_CODE, pySlice src st.startpos endpos⟩],
                startpos := endpos }
    else if t.typ = .COMMENT then
      { st with pending_chunk_type := some .CODE,
                possible_ending_tokens := TERMINATES_COMMENT }
    else if t.typ = .ENDMARKER then
      st
    else
      { st with pending_chunk_type := some .CODE,
                possible_ending_tokens := TERMINATES_CODE }
  | some pct =>
    if t.typ ∈ st.possible_ending_tokens then
      let endpos := offAt offsets t.erow + t.ecol
      { chunks := st.chunks ++ [⟨pct, pySlice src st.startpos endpos⟩],
        startpos := endpos,
        pending_chunk_type := none,
        possible_ending_tokens := [],
        seen_import := st.seen_import }
    else
      st

/-- Initial state of the scan. -/
def initScan : ScanState := ⟨[], 0, none, [], false⟩

/-- Transcription of `partition_source`, parameterised over the two
external collaborators it calls: `astF src` returns the line numbers of
top-level (column-0) import statements, or `none` on a syntax error
(`ast.parse` raising), and `tokF src` returns the token stream or `none`
when tokenization fails.  The final reconstruction `assert` is modelled
by the `assertionError` branch. -/
def partition_source (astF : PyStr → Option (List Nat))
    (tokF : PyStr → Option (List Tok)) (src : PyStr) :
    Except PyErr (List CodePartition) :=
  match astF src with
  | none => .error .syntaxError
  | some ilines =>
    match tokF src with
    | none => .error .tokenizeError
    | some toks =>
      let offsets := get_line_offsets_by_line_no src
      let st := toks.foldl (scanTok offsets ilines src) initScan
      if joinSrc st.chunks = src then .ok st.chunks else .error .assertionError

/-- A dynamically typed Python value handed to `partition_source`: a text
(unicode) string, a byte string, or any other object.  Only the text case
carries data that the program goes on to use. -/
inductive PyValue where
  | text (s : PyStr)
  | bytes (bs : List Nat)
  | other
deriving DecidableEq, Repr

/-- Whether a `PyValue` is a text string (`type(src) is six.text_type`). -/
def PyValue.isText : PyValue → Bool
  | .text _ => true
  | _ => false

/-- Entry of `partition_source` including its dynamic type check: any
non-text value raises `TypeError` before `ast.parse` or `tokenize` is
consulted (note the result does not depend on `astF`/`tokF` in that
branch). -/
def partition_source_checked (astF : PyStr → Option (List Nat))
    (tokF : PyStr → Option (List Tok)) (v : PyValue) :
    Except PyErr (List CodePartition) :=
  match v with
  | .text s => partition_source astF tokF s
  | _ => .error .typeError

/-- The interface of the external import classifier and block sorter
(`aspy.refactor_imports`), as consumed by the pipeline: parsing an import
statement's text into an identity object (fallible), testing for
multiple imported names, splitting, canonical rendering, and block sorting. -/
structure AspyApi (I : Type) where
  import_obj_from_str : PyStr → Option I
  has_multiple_imports : I → Bool
  split_imports : I → List I
  to_text : I → PyStr
  sortBlocks : List I → List (List I)

variable {I : Type} [DecidableEq I]

/-- Transcription of `separate_comma_imports`: an import region denoting
several names is replaced by one region per name, rendered through the
classifier; everything else passes through.  A region text the classifier
cannot parse raises (modelled as `importParseError`). -/
def separate_comma_imports (api : AspyApi I) :
    List CodePartition → Except PyErr (List CodePartition)
  | [] => .ok []
  | p :: rest =>
    if p.code_type = .IMPORT then
      match api.import_obj_from_str p.src with
      | none => .error .importParseError
      | some obj =>
        (separate_comma_imports api rest).map (fun tail =>
          (if api.has_multiple_imports obj then
            (api.split_imports obj).map (fun o => ⟨.IMPORT, api.to_text o⟩)
          else [p]) ++ tail)
    else
      (separate_comma_imports api rest).map (p :: ·)

/-- Worker of `remove_duplicated_imports` with the running `seen` set
(modelled as the list of identities recorded so far). -/
def removeDupAux (api : AspyApi I) (seen : List I) :
    List CodePartition → Except PyErr (List CodePartition)
  | [] => .ok []
  | p :: rest =>
    if p.code_type = .IMPORT then
      match api.import_obj_from_str p.src with
      | none => .error .importParseError
      | some obj =>
        if obj ∈ seen then removeDupAux api seen rest
        else (removeDupAux api (obj :: seen) rest).map (p :: ·)
    else
      (removeDupAux api seen rest).map (p :: ·)

/-- Transcription of `remove_duplicated_imports`. -/
def remove_duplicated_imports (api : AspyApi I)
    (ps : List CodePartition) : Except PyErr (List CodePartition) :=
  removeDupAux api [] ps

/-- Insertion into the `import_obj_to_partition` dict: replacing an
existing key keeps its position (and overwrites the value); a new key is
appended. -/
def dictInsert (d : List (I × CodePartition)) (k : I) (v : CodePartition) :
    List (I × CodePartition) :=
  if d.any (fun kv => kv.1 = k) then
    d.map (fun kv => if kv.1 = k then (k, v) else kv)
  else d ++ [(k, v)]

/-- The dict built by `apply_import_sorting` from identity/partition
pairs, in insertion order. -/
def dictOfPairs (pairs : List (I × CodePartition)) : List (I × CodePartition) :=
  pairs.foldl (fun d kv => dictInsert d kv.1 kv.2) []

/-- Dict lookup; `none` corresponds to a `KeyError`. -/
def dictGet (d : List (I × CodePartition)) (k : I) : Option CodePartition :=
  (d.find? (fun kv => kv.1 = k)).map Prod.snd

/-- The dict-comprehension input of `apply_import_sorting`: parse
each import region left to right into an identity/region pair; the first
parse failure raises. -/
def collectPairs (api : AspyApi I) :
    List CodePartition → Except PyErr (List (I × CodePartition))
  | [] => .ok []
  | p :: rest =>
    match api.import_obj_from_str p.src with
    | none => .error .importParseError
    | some o =>
      match collectPairs api rest with
      | .error e => .error e
      | .ok pairs => .ok ((o, p) :: pairs)

/-- Look up each identity of one block in the dict (`KeyError` if
absent). -/
def resolveBlock (d : List (I × CodePartition)) :
    List I → Except PyErr (List CodePartition)
  | [] => .ok []
  | o :: rest =>
    match dictGet d o with
    | none => .error .keyError
    | some p =>
      match resolveBlock d rest with
      | .error e => .error e
      | .ok ps => .ok (p :: ps)

/-- Resolve every sorted block to its region lists. -/
def resolveBlocks (d : List (I × CodePartition)) :
    List (List I) → Except PyErr (List (List CodePartition))
  | [] => .ok []
  | bl :: rest =>
    match resolveBlock d bl with
    | .error e => .error e
    | .ok ps =>
      match resolveBlocks d rest with
      | .error e => .error e
      | .ok pss => .ok (ps :: pss)

/-- The whitespace characters stripped by Python's `str.rstrip()` (the
characters satisfying `Py_UNICODE_ISSPACE`). -/
def pyWsChars : PyStr :=
  [' ', '\t', '\n', '\r', '\x0b', '\x0c', '\x1c', '\x1d', '\x1e', '\x1f',
   '\x85', '\xa0', '\u1680', '\u2000', '\u2001', '\u2002', '\u2003',
   '\u2004', '\u2005', '\u2006', '\u2007', '\u2008', '\u2009', '\u200a',
   '\u2028', '\u2029', '\u202f', '\u205f', '\u3000']

/-- Whitespace test for Python's `str.rstrip()`. -/
def isPyWs (c : Char) : Bool := decide (c ∈ pyWsChars)

/-- Python `s.rstrip()`. -/
def pyRstrip (s : PyStr) : PyStr := (s.reverse.dropWhile isPyWs).reverse

/-- Python `s.lstrip('\n')`. -/
def lstripNl (s : PyStr) : PyStr := s.dropWhile (· = '\n')

/-- Transcription of `apply_import_sorting`: bucket the regions by kind
(dropping `NON_CODE`), build the identity-to-region dict, emit the
sorter's blocks each followed by a one-newline separator and pop the
trailing separator, then re-attach the remaining code prefixed by a
two-newline separator after stripping leading newlines and trailing
whitespace. -/
def apply_import_sorting (api : AspyApi I) (ps : List CodePartition) :
    Except PyErr (List CodePartition) :=
  let pre_import_code := ps.filter (fun p => p.code_type = .PRE_IMPORT_CODE)
  let imports := ps.filter (fun p => p.code_type = .IMPORT)
  let rest := ps.filter (fun p => p.code_type = .CODE)
  match collectPairs api imports with
  | .error e => .error e
  | .ok pairs =>
    let d := dictOfPairs pairs
    let sorted_blocks := api.sortBlocks (d.map Prod.fst)
    match resolveBlocks d sorted_blocks with
    | .error e => .error e
    | .ok blockParts =>
      let new_imports :=
        (blockParts.map (fun bl => bl ++ [(⟨.NON_CODE, ['\n']⟩ : CodePartition)])).flatten
      let new_imports := if new_imports ≠ [] then new_imports.dropLast else new_imports
      let restsrc := pyRstrip (lstripNl (joinSrc rest))
      let restParts : List CodePartition :=
        if restsrc ≠ [] then
          [⟨.NON_CODE, ['\n', '\n']⟩, ⟨.CODE, restsrc ++ ['\n']⟩]
        else []
      .ok (pre_import_code ++ new_imports ++ restParts)

/-- Transcription of `fix_file_contents`: partition, run the three
pipeline steps in the order of `STEPS`, and concatenate (a step's
exception propagates, aborting the transformation). -/
def fix_file_contents (astF : PyStr → Option (List Nat))
    (tokF : PyStr → Option (List Tok)) (api : AspyApi I)
    (contents : PyStr) : Except PyErr PyStr :=
  match partition_source astF tokF contents with
  | .error e => .error e
  | .ok p0 =>
    match separate_comma_imports api p0 with
    | .error e => .error e
    | .ok p1 =>
      match remove_duplicated_imports api p1 with
      | .error e => .error e
      | .ok p2 =>
        match apply_import_sorting api p2 with
        | .error e => .error e
        | .ok p3 => .ok (joinSrc p3)

/-- Observable side effects of `main`'s per-file loop: an in-place write
of the rewritten contents, or a printed diff (indexed by file position). -/
inductive MainAction where
  | wrote (idx : Nat) (newContents : PyStr)
  | showedDiff (idx : Nat)
deriving DecidableEq, Repr

/-- The per-file loop of `main`, parameterised over the transformation
applied to each file's contents.  Files are given by their contents in
command-line order; `retv` is the running exit code; an exception while
fixing a file aborts the batch.  When a file's content changes, the exit
code becomes 1 and the file is rewritten (or a diff shown under
`--show-diff`). -/
def mainLoop (fixF : PyStr → Except PyErr PyStr) (show_diff : Bool) :
    List PyStr → Nat → Nat → Except PyErr (Nat × List MainAction)
  | [], _, retv => .ok (retv, [])
  | contents :: rest, idx, retv =>
    match fixF contents with
    | .error e => .error e
    | .ok new_contents =>
      if contents ≠ new_contents then
        let act := if show_diff then MainAction.showedDiff idx
                   else MainAction.wrote idx new_contents
        match mainLoop fixF show_diff rest (idx + 1) 1 with
        | .error e => .error e
        | .ok (r, acts) => .ok (r, act :: acts)
      else
        mainLoop fixF show_diff rest (idx + 1) retv

/-- Transcription of `main` restricted to its observable behaviour: the
exit code and the per-file actions (`retv` starts at 0). -/
def mainModel (fixF : PyStr → Except PyErr PyStr) (show_diff : Bool)
    (files : List PyStr) : Except PyErr (Nat × List MainAction) :=
  mainLoop fixF show_diff files 0 0

/-! ## Concrete model of the import classifier and block sorter

Modelled from the spec: the Import Classifier and Block Sorter are
external collaborators (`aspy.refactor_imports`, not part of this
repository's sources).  They are modelled for plain `import name, ...`
statements: an identity is the list of dotted-module names it denotes,
two differently spaced spellings of the same statement are equal,
rendering produces the canonical single-space spelling with a trailing
newline, and the sorter returns a single block sorted by rendered text
(nonempty blocks only, as the spec's "partitions into ordered blocks"
requires). -/

/-- Characters allowed in a dotted module name. -/
def isNameChar (c : Char) : Bool := c.isAlpha || c.isDigit || c = '_' || c = '.'

/-- Characters that may continue an identifier (no dot). -/
def isIdentChar (c : Char) : Bool := c.isAlpha || c.isDigit || c = '_'

/-- Strip leading and trailing spaces. -/
def trimSpaces (s : PyStr) : PyStr :=
  ((s.dropWhile (· = ' ')).reverse.dropWhile (· = ' ')).reverse

/-- Split a string at commas (the commas are dropped). -/
def splitCommaAux : PyStr → PyStr → List PyStr
  | [], acc => [acc.reverse]
  | c :: rest, acc =>
    if c = ',' then acc.reverse :: splitCommaAux rest []
    else splitCommaAux rest (c :: acc)

def splitComma (s : PyStr) : List PyStr := splitCommaAux s []

/-- A nonempty dotted-module name. -/
def validName (n : PyStr) : Bool := decide (n ≠ []) && n.all isNameChar

/-- The import identity object: the imported names, in written order.
Two spellings with different spacing parse to equal objects. -/
structure ImportObj where
  names : List PyStr
deriving DecidableEq, Repr

/-- Parse the text of a plain `import` statement (the exact text of
an import region, ending in a newline).  Fails on anything that is not a
valid single-line statement of that form. -/
def parseImport (s : PyStr) : Option ImportObj :=
  if List.isPrefixOf ("import ".toList) s then
    let core := s.drop 7
    match core.getLast? with
    | some '\n' =>
      let body := core.dropLast
      if '\n' ∈ body ∨ '\r' ∈ body then none
      else
        let names := (splitComma body).map trimSpaces
        if names.all validName then some ⟨names⟩ else none
    | _ => none
  else none

/-- Canonical rendering of an import statement from its names. -/
def renderImport (names : List PyStr) : PyStr :=
  "import ".toList ++ List.intercalate (", ".toList) names ++ ['\n']

/-- Lexicographic comparison of strings by character code. -/
def strLeB : PyStr → PyStr → Bool
  | [], _ => true
  | _ :: _, [] => false
  | a :: as, b :: bs =>
    if a.toNat < b.toNat then true
    else if b.toNat < a.toNat then false
    else strLeB as bs

/-- Sorting order on import identities: by canonical rendered text. -/
def impLe (a b : ImportObj) : Prop := strLeB (renderImport a.names) (renderImport b.names) = true

instance : DecidableRel impLe := fun a b => by unfold impLe; infer_instance

/-- The modelled block sorter: one block, sorted by rendered text; no
blocks at all for an empty input. -/
def miniSort (l : List ImportObj) : List (List ImportObj) :=
  if l = [] then [] else [l.insertionSort impLe]

/-- The concrete classifier/sorter instance used by the whole-program
model. -/
def miniApi : AspyApi ImportObj where
  import_obj_from_str := parseImport
  has_multiple_imports o := decide (1 < o.names.length)
  split_imports o := o.names.map (fun n => ⟨[n]⟩)
  to_text o := renderImport o.names
  sortBlocks := miniSort

/-! ## Model of CPython `tokenize` and `ast` on a line-based source class

Modelled from the spec and the observable behaviour of the external
CPython modules: the partitioner "drives a token stream" and a set of
top-level import line numbers.  The model covers sources that are a
sequence of newline-terminated lines, each of which is a blank line, a
(possibly indented) comment, a single-line string literal at column 0, a
plain `import` statement at column 0 (LF- or CRLF-terminated), or some
other statement starting at column 0 with an identifier character (LF- or
CRLF-terminated).  Token coordinates reproduce CPython's
`tokenize.generate_tokens` on this class (verified against CPython 3.11):
a blank line yields `NL (r,len)-(r,len+1)`; a comment line yields
`COMMENT (r,indent)-(r,len)` then `NL (r,len)-(r,len+1)`; a string line
yields `STRING` then `NEWLINE (r,len)-(r,len+1)`; statement lines yield
their leading name token and `NEWLINE` ending at column len+1 (the
newline char, or the two-character `\r\n` terminator, so a CRLF line's
NEWLINE spans `(r,len-1)-(r,len+1)` where `len` counts the `\r`);
tokenization ends with `ENDMARKER (n+1,0)-(n+1,0)`.  Interior tokens of a
statement line (names, operators, numbers, trailing comments) are omitted:
the scan only ever tests them against terminator sets containing NL,
NEWLINE and ENDMARKER, so they are unobservable. -/

/-- Classification of one source line (without its newline terminator). -/
inductive LineKind where
  | blank
  | comment
  | strLit
  | imp (o : ImportObj)
  | stmt
  | impC (o : ImportObj)
  | stmtC
deriving DecidableEq, Repr

/-- Does a line consist of spaces only? -/
def isBlankLine (l : PyStr) : Bool := l.all (· = ' ')

/-- Leading-space indentation of a line. -/
def indentOf (l : PyStr) : Nat := (l.takeWhile (· = ' ')).length

/-- Is `l` a single-line string literal statement: a quote, a body free
of quotes and backslashes, the closing quote, then only spaces? -/
def isSingleLineStr (l : PyStr) : Bool :=
  match l with
  | q :: rest =>
    (q.toNat = 39 || q.toNat = 34) &&
    (let body := rest.takeWhile (fun c => ¬(c = q ∨ c = '\\'))
     match rest.drop body.length with
     | c :: after => c = q && after.all (· = ' ')
     | [] => false)
  | [] => false

/-- Classify a column-0 line starting with an identifier character:
a plain `import` statement (must parse, else the whole source fails to
parse), an `import`-prefixed identifier (ordinary statement), a
`from` import (outside the modelled class), or any other statement. -/
def classifyWordLine (l : PyStr) : Option LineKind :=
  if List.isPrefixOf ("import".toList) l then
    match l.drop 6 with
    | [] => none
    | c :: _ =>
      if c = ' ' then (parseImport (l ++ ['\n'])).map LineKind.imp
      else if isIdentChar c then some .stmt
      else none
  else if List.isPrefixOf ("from".toList) l then
    match l.drop 4 with
    | [] => none
    | c :: _ =>
      if isIdentChar c then some .stmt else none
  else some .stmt

/-- Classify an LF-terminated line (no carriage return allowed). -/
def classifyLF (l : PyStr) : Option LineKind :=
  if isBlankLine l then some .blank
  else
    match l.drop (indentOf l) with
    | [] => none
    | c :: _ =>
      if c = '#' then some .comment
      else if indentOf l ≠ 0 then none
      else if c.toNat = 39 ∨ c.toNat = 34 then
        if isSingleLineStr l then some .strLit else none
      else if c.isAlpha ∨ c = '_' then classifyWordLine l
      else none

/-- Classify one line: lines containing a carriage return must be
CRLF-terminated statement or import lines; others are LF lines. -/
def classifyLine (l : PyStr) : Option LineKind :=
  if '\r' ∈ l then
    if l.getLast? = some '\r' ∧ ¬ '\r' ∈ l.dropLast then
      match classifyLF l.dropLast with
      | some (.imp o) => some (.impC o)
      | some .stmt => some .stmtC
      | _ => none
    else none
  else classifyLF l

/-- Split a source into its newline-terminated lines; fails when the last
line is unterminated (the modelled class requires a trailing newline). -/
def toLinesAux : PyStr → PyStr → Option (List PyStr)
  | [], acc => if acc = [] then some [] else none
  | c :: rest, acc =>
    if c = '\n' then (toLinesAux rest []).map (acc.reverse :: ·)
    else toLinesAux rest (c :: acc)

def toLines (s : PyStr) : Option (List PyStr) := toLinesAux s []

/-- Reassemble newline-terminated lines. -/
def joinLines (ls : List PyStr) : PyStr := (ls.map (· ++ ['\n'])).flatten

/-- Classify one line of an LF-only source: lines containing a carriage
return or any other non-`\n` `splitlines` boundary character are outside
this class (the whole-program model uses this classifier; the
CRLF-capable `classifyLine` drives the separate tokenizer instance used
to exhibit the CRLF offsets bug). -/
def classifyLineLF (l : PyStr) : Option LineKind :=
  if l.any isOddBreak then none else classifyLF l

/-- Classify a list of lines with the given line classifier; fails if
any line is outside its class. -/
def classifyLines (cf : PyStr → Option LineKind) :
    List PyStr → Option (List (PyStr × LineKind))
  | [] => some []
  | l :: rest =>
    match cf l with
    | none => none
    | some k => (classifyLines cf rest).map ((l, k) :: ·)

/-- Split and classify every line of an LF source. -/
def classAll (s : PyStr) : Option (List (PyStr × LineKind)) :=
  (toLines s).bind (classifyLines classifyLineLF)

/-- Split and classify every line, admitting CRLF statement and import
lines. -/
def classAllC (s : PyStr) : Option (List (PyStr × LineKind)) :=
  (toLines s).bind (classifyLines classifyLine)

/-- Is this line kind a top-level import statement? -/
def isImpKind : LineKind → Bool
  | .imp _ => true
  | .impC _ => true
  | _ => false

/-- The 1-based line numbers of top-level import statements, starting at
row `r` (the Top-Level-Import Locator over the parsed tree). -/
def importRowsAux (r : Nat) : List (PyStr × LineKind) → List Nat
  | [] => []
  | (_, k) :: rest =>
    if isImpKind k then r :: importRowsAux (r + 1) rest
    else importRowsAux (r + 1) rest

/-- Tokens of one classified line at row `r` (see the module comment for
the coordinate conventions). -/
def tokensOfLine (r : Nat) (l : PyStr) : LineKind → List Tok
  | .blank => [⟨.NL, r, l.length, r, l.length + 1⟩]
  | .comment => [⟨.COMMENT, r, indentOf l, r, l.length⟩,
                 ⟨.NL, r, l.length, r, l.length + 1⟩]
  | .strLit => [⟨.STRING, r, 0, r, ((l.reverse.dropWhile (· = ' ')).reverse).length⟩,
                ⟨.NEWLINE, r, l.length, r, l.length + 1⟩]
  | .imp _ => [⟨.OTHER, r, 0, r, 6⟩,
               ⟨.NEWLINE, r, l.length, r, l.length + 1⟩]
  | .stmt => [⟨.OTHER, r, 0, r, (l.takeWhile isIdentChar).length⟩,
              ⟨.NEWLINE, r, l.length, r, l.length + 1⟩]
  | .impC _ => [⟨.OTHER, r, 0, r, 6⟩,
                ⟨.NEWLINE, r, l.length - 1, r, l.length + 1⟩]
  | .stmtC => [⟨.OTHER, r, 0, r, (l.takeWhile isIdentChar).length⟩,
               ⟨.NEWLINE, r, l.length - 1, r, l.length + 1⟩]

/-- Token stream of a classified line list starting at row `r` (without
the final ENDMARKER). -/
def tokensOf (r : Nat) : List (PyStr × LineKind) → List Tok
  | [] => []
  | (l, k) :: rest => tokensOfLine r l k ++ tokensOf (r + 1) rest

/-- The modelled `ast` collaborator: top-level import line numbers, or
`none` when the source is outside the parsed class. -/
def miniAstF (s : PyStr) : Option (List Nat) :=
  (classAll s).map (importRowsAux 1)

/-- The modelled `tokenize` collaborator. -/
def miniTokF (s : PyStr) : Option (List Tok) :=
  (classAll s).map (fun lks =>
    tokensOf 1 lks ++ [⟨.ENDMARKER, lks.length + 1, 0, lks.length + 1, 0⟩])

/-- The CRLF-admitting `ast` collaborator (used to exhibit the CRLF
behaviour of the partitioner). -/
def miniAstC (s : PyStr) : Option (List Nat) :=
  (classAllC s).map (importRowsAux 1)

/-- The CRLF-admitting `tokenize` collaborator. -/
def miniTokC (s : PyStr) : Option (List Tok) :=
  (classAllC s).map (fun lks =>
    tokensOf 1 lks ++ [⟨.ENDMARKER, lks.length + 1, 0, lks.length + 1, 0⟩])

/-- The whole-program transformation with all collaborators instantiated:
`fix_file_contents` over the modelled tokenizer, locator and classifier. -/
def fixModel (s : PyStr) : Except PyErr PyStr :=
  fix_file_contents miniAstF miniTokF miniApi s

/-- The partitioner with the modelled collaborators. -/
def partitionModel (s : PyStr) : Except PyErr (List CodePartition) :=
  partition_source miniAstF miniTokF s

/-- The partitioner with the CRLF-admitting collaborators. -/
def partitionModelC (s : PyStr) : Except PyErr (List CodePartition) :=
  partition_source miniAstC miniTokC s

/-! ## Spec-side pass descriptions (for the refinement claims C6, C7) -/

/-- The comma-splitting pass as the spec words it: an `Import` region
denoting multiple imported names is replaced by one region per name,
rendered through the classifier's canonical renderer, in written order;
single-name imports and non-import regions pass through unchanged. -/
def sepSpec (api : AspyApi I) (p : CodePartition) : List CodePartition :=
  if p.code_type = .IMPORT then
    match api.import_obj_from_str p.src with
    | some o =>
      if api.has_multiple_imports o then
        (api.split_imports o).map (fun o' => ⟨.IMPORT, api.to_text o'⟩)
      else [p]
    | none => [p]
  else [p]

/-- The de-duplication pass as the spec words it: scan once keeping the
identities already emitted; an `Import` region whose identity was seen is
dropped, the first occurrence is kept and recorded; non-import regions
always pass through, in order.  (The `none` branch cannot arise under the
parseability hypothesis of the theorem.) -/
def dedupSpec (api : AspyApi I) (seen : List I) :
    List CodePartition → List CodePartition
  | [] => []
  | p :: rest =>
    if p.code_type = .IMPORT then
      match api.import_obj_from_str p.src with
      | some o =>
        if o ∈ seen then dedupSpec api seen rest
        else p :: dedupSpec api (o :: seen) rest
      | none => dedupSpec api seen rest
    else p :: dedupSpec api seen rest

/-! ## Helper descriptions used by theorem statements -/

/-- The identity/region pairs of the import bucket, as a total function
(equal to the dict-comprehension input whenever every import parses). -/
def pairsOf (api : AspyApi I) (ps : List CodePartition) : List (I × CodePartition) :=
  (ps.filter (fun p => p.code_type = .IMPORT)).filterMap
    (fun p => (api.import_obj_from_str p.src).map (fun o => (o, p)))

/-- Total length of newline-terminated lines. -/
def sumLens (ls : List PyStr) : Nat := (ls.map (fun l => l.length + 1)).sum

/-- Blocks of regions joined with a single one-newline `NON_CODE`
separator between adjacent blocks and none after the last. -/
def blocksWithSeps : List (List CodePartition) → List CodePartition
  | [] => []
  | [b] => b
  | b :: bs => b ++ [⟨.NON_CODE, ['\n']⟩] ++ blocksWithSeps bs

/-- Line-level reference semantics of the partitioner on the modelled
source class: blank lines become their own `NON_CODE` regions; comments
are `PRE_IMPORT_CODE` before any import and one-line `CODE` regions
after; a string line is `PRE_IMPORT_CODE` before any import but starts a
region that runs to the end of file after one; an import line is an
`IMPORT` region; any other statement starts a `CODE` region that runs to
the end of file.  (The CRLF kinds are given the statement behaviour; the
token-level equivalence below is only claimed for LF sources.) -/
def partitionLines (seen : Bool) : List (PyStr × LineKind) → List CodePartition
  | [] => []
  | (l, .blank) :: rest => ⟨.NON_CODE, l ++ ['\n']⟩ :: partitionLines seen rest
  | (l, .comment) :: rest =>
    ⟨if seen then .CODE else .PRE_IMPORT_CODE, l ++ ['\n']⟩ :: partitionLines seen rest
  | (l, .strLit) :: rest =>
    if seen then [⟨.CODE, joinLines (l :: rest.map Prod.fst)⟩]
    else ⟨.PRE_IMPORT_CODE, l ++ ['\n']⟩ :: partitionLines false rest
  | (l, .imp _) :: rest => ⟨.IMPORT, l ++ ['\n']⟩ :: partitionLines true rest
  | (l, .stmt) :: rest => [⟨.CODE, joinLines (l :: rest.map Prod.fst)⟩]
  | (l, .impC _) :: rest => ⟨.IMPORT, l ++ ['\n']⟩ :: partitionLines true rest
  | (l, .stmtC) :: rest => [⟨.CODE, joinLines (l :: rest.map Prod.fst)⟩]

/-! ## The code's canonical form (for the no-op claim C2) -/

/-- Boolean form of the sorting order. -/
def impLeB (a b : ImportObj) : Bool := strLeB (renderImport a.names) (renderImport b.names)

/-- Strictly ascending adjacent chain in the sorting order. -/
def strictChain : List ImportObj → Bool
  | [] => true
  | [_] => true
  | a :: b :: rest => impLeB a b && decide (a ≠ b) && strictChain (b :: rest)

/-- Kinds the partitioner keeps as leading `PRE_IMPORT_CODE`. -/
def isPreKind : LineKind → Bool
  | .comment => true
  | .strLit => true
  | _ => false

/-- An LF import line denoting exactly one name. -/
def isSingleImp : LineKind → Bool
  | .imp o => o.names.length = 1
  | _ => false

/-- Kinds that open a region running to the end of the file once an import
has been seen. -/
def isSwallowKind : LineKind → Bool
  | .stmt => true
  | .strLit => true
  | _ => false

/-- Is this kind an LF (not CRLF) line kind? -/
def isLFKind : LineKind → Bool
  | .impC _ => false
  | .stmtC => false
  | _ => true

/-- The identity of an import line (junk elsewhere; only applied to import
kinds). -/
def objOf : LineKind → ImportObj
  | .imp o => o
  | .impC o => o
  | _ => ⟨[]⟩

/-- Canonical shape of the code-section lines, with `seen` telling
whether any import precedes: the section is nonempty, starts with a
non-blank line, consists of one-line comment regions followed by an
optional region running to the end of file (with no blank line before
its opening statement), and its last line ends in a non-whitespace
character (so trailing-whitespace stripping is the identity).  Without a
preceding import the section must open with a plain statement (a comment
or string there would be classified as pre-import code, and a blank line
would be dropped). -/
def codeCanon (seen : Bool) (code : List (PyStr × LineKind)) : Bool :=
  match code with
  | [] => false
  | (l0, k0) :: _ =>
    (match code.getLast? with
     | some (ll, _) => decide (ll ≠ []) && !(isPyWs (ll.getLast!))
     | none => false) &&
    (if seen then
      (k0 = .comment || isSwallowKind k0) &&
      (let cmts := code.takeWhile (fun lk => lk.2 = .comment)
       match code.drop cmts.length with
       | [] => true
       | (_, k) :: _ => isSwallowKind k)
    else k0 = .stmt) &&
    decide (l0 ≠ []) && !(decide (l0.head! = '\n'))

/-- The code's canonical form: a header of comment/string lines, then a
strictly sorted run of single-name import lines, then either nothing or
exactly two empty lines followed by a canonical code section.  Sources of
this shape are exactly reproduced by the pipeline. -/
def canonLines (lks : List (PyStr × LineKind)) : Bool :=
  let pre := lks.takeWhile (fun lk => isPreKind lk.2)
  let rest1 := lks.drop pre.length
  let imps := rest1.takeWhile (fun lk => isSingleImp lk.2)
  let rest2 := rest1.drop imps.length
  strictChain (imps.map (fun lk => objOf lk.2)) &&
  (match rest2 with
   | [] => true
   | ([], .blank) :: ([], .blank) :: code => codeCanon (!imps.isEmpty) code
   | _ => false)

/-- Decidable canonical-form test on source text. -/
def canonicalSrc (s : PyStr) : Bool :=
  match classAll s with
  | none => false
  | some lks => canonLines lks

/-! ## Line-level selectors mirroring the pipeline's buckets (for C2, C5) -/

/-- The leading lines the partitioner keeps as `PRE_IMPORT_CODE` regions:
comment and string lines, skipping blanks, up to the first import or
statement line. -/
def preLK : List (PyStr × LineKind) → List (PyStr × LineKind)
  | [] => []
  | (_, .blank) :: r => preLK r
  | (l, .comment) :: r => (l, .comment) :: preLK r
  | (l, .strLit) :: r => (l, .strLit) :: preLK r
  | _ => []

/-- The import lines (with their identities) that become `IMPORT`
regions, given whether an import has been seen already. -/
def impLK (seen : Bool) : List (PyStr × LineKind) → List (PyStr × ImportObj)
  | [] => []
  | (_, .blank) :: r => impLK seen r
  | (_, .comment) :: r => impLK seen r
  | (_, .strLit) :: r => if seen then [] else impLK false r
  | (l, .imp o) :: r => (l, o) :: impLK true r
  | (_, .stmt) :: _ => []
  | (l, .impC o) :: r => (l, o) :: impLK true r
  | (_, .stmtC) :: _ => []

/-- The lines swallowed into `CODE` regions: comment lines after an import,
and everything from the first region-opening statement on. -/
def codeLK (seen : Bool) : List (PyStr × LineKind) → List (PyStr × LineKind)
  | [] => []
  | (_, .blank) :: r => codeLK seen r
  | (l, .comment) :: r => if seen then (l, .comment) :: codeLK seen r else codeLK false r
  | (l, .strLit) :: r => if seen then (l, .strLit) :: r else codeLK false r
  | (_, .imp _) :: r => codeLK true r
  | (l, .stmt) :: r => (l, .stmt) :: r
  | (_, .impC _) :: r => codeLK true r
  | (l, .stmtC) :: r => (l, .stmtC) :: r

/-- Worker for stripping trailing whitespace from a line list given in
reverse order: whitespace-only trailing lines are dropped and the last
surviving line loses its trailing whitespace. -/
def stripTrailAux : List PyStr → List PyStr
  | [] => []
  | l :: rest => if pyRstrip l = [] then stripTrailAux rest else pyRstrip l :: rest

/-- The lines of the code section after Python's `rstrip()` of their
join: trailing whitespace-only lines disappear and the last surviving
line is right-stripped. -/
def stripTrail (ls : List PyStr) : List PyStr := (stripTrailAux ls.reverse).reverse

/-- `stripTrailAux` lifted to classified lines (kinds ride along). -/
def stripTrailPAux : List (PyStr × LineKind) → List (PyStr × LineKind)
  | [] => []
  | (l, k) :: rest =>
    if pyRstrip l = [] then stripTrailPAux rest else (pyRstrip l, k) :: rest

/-- `stripTrail` lifted to classified lines. -/
def stripTrailP (ls : List (PyStr × LineKind)) : List (PyStr × LineKind) :=
  (stripTrailPAux ls.reverse).reverse

/-- The kind a line classifies to (junk `blank` when outside the class). -/
def kindOf (l : PyStr) : LineKind := (classifyLineLF l).getD LineKind.blank

/-- The import regions after the comma-splitting and de-duplication
passes, computed from the import lines of the classified source. -/
def impPartsOf (lks : List (PyStr × LineKind)) : List CodePartition :=
  dedupSpec miniApi []
    ((((impLK false lks).map
        (fun lo => (⟨CodeType.IMPORT, lo.1 ++ ['\n']⟩ : CodePartition))).map
      (sepSpec miniApi)).flatten)

/-- The import regions the sorting pass emits: the dict's keys in sorted
order, each resolved back to its region. -/
def sortedImports (ps : List CodePartition) : List CodePartition :=
  List.filterMap (dictGet (dictOfPairs (pairsOf miniApi ps)))
    (((dictOfPairs (pairsOf miniApi ps)).map Prod.fst).insertionSort impLe)

/-- The lines of the whole transformation's output, computed from the
classified input lines: the pre-import lines, then the sorted import
lines, then (when stripped code remains) two empty lines and the
trailing-whitespace-stripped code lines. -/
def outLinesOf (lks : List (PyStr × LineKind)) : List PyStr :=
  (preLK lks).map Prod.fst
  ++ (sortedImports (impPartsOf lks)).map (fun p => p.src.dropLast)
  ++ (if stripTrail ((codeLK false lks).map Prod.fst) = [] then []
      else [] :: [] :: stripTrail ((codeLK false lks).map Prod.fst))

end RPI

namespace RPI

/-! ## Claim theorems -/

/-- C1: the reconstruction invariant does NOT hold for every parseable
input.  For the CRLF-terminated source `"import a\r\nimport b\r\n"` (two
plain top-level imports, perfectly parseable), `get_line_offsets_by_line_no`
counts each `\r\n` terminator as a single character, the final import
region is cut one character early, and the reconstruction assert fails
with an `AssertionError` — while the same program text with LF line
endings partitions fine.  This contradicts the program's own `assert`
(and the spec's reconstruction property), exhibiting the code bug the
claim rules out. -/
theorem claim1_partition_crlf_assertion_fails :
    partitionModelC ("import a\r\nimport b\r\n").toList = .error .assertionError ∧
    partitionModel ("import a\nimport b\n").toList =
      .ok [⟨.IMPORT, ("import a\n").toList⟩, ⟨.IMPORT, ("import b\n").toList⟩] := by
  decide

/-- C3 (counterexample): on the input of the spec's concrete scenario the
transformation does not return the claimed string
`"import a\nimport b\n\nprint('hi')\n"` (the model's block sorter returns
the single block `[import a, import b]`, exactly the sorter the claim
assumes). -/
theorem claim3_cex_expected_output_differs :
    fixModel ("import b\nimport a\n\nprint('hi')\n").toList ≠
      .ok ("import a\nimport b\n\nprint('hi')\n").toList := by
  decide

/-- C3 (amended): the scenario input is rewritten to
`"import a\nimport b\n\n\nprint('hi')\n"` — the sorted imports, then
THREE newline characters (the last import's own newline plus the
two-newline separator the reassembly inserts), then the code. -/
theorem claim3_concrete_output :
    fixModel ("import b\nimport a\n\nprint('hi')\n").toList =
      .ok ("import a\nimport b\n\n\nprint('hi')\n").toList := by
  decide

/-- C10: the empty source is transformed to the empty source without
raising; partitioning yields the empty region sequence (the end-of-stream
token with nothing pending is skipped), and each pipeline pass maps the
empty sequence to the empty sequence. -/
theorem claim10_empty_source :
    fixModel [] = .ok [] ∧
    partitionModel [] = .ok [] ∧
    separate_comma_imports miniApi [] = .ok [] ∧
    remove_duplicated_imports miniApi [] = .ok [] ∧
    apply_import_sorting miniApi [] = .ok [] := by
  decide

/-- C8: called on any non-text value, `partition_source` raises
`TypeError` before consulting the parser or tokenizer (the result is the
same for every `astF`/`tokF`); on a text value the `TypeError` branch is
never taken (whatever else may happen, the result is never a
`TypeError`). -/
theorem claim8_type_check :
    (∀ (astF : PyStr → Option (List Nat)) (tokF : PyStr → Option (List Tok))
       (v : PyValue), v.isText = false →
       partition_source_checked astF tokF v = .error .typeError) ∧
    (∀ (astF : PyStr → Option (List Nat)) (tokF : PyStr → Option (List Tok))
       (s : PyStr),
       partition_source_checked astF tokF (.text s) ≠ .error .typeError) := by
  constructor
  · intro astF tokF v hv
    cases v with
    | text s => simp [PyValue.isText] at hv
    | bytes bs => rfl
    | other => rfl
  · intro astF tokF s h
    have h' : partition_source astF tokF s = .error .typeError := h
    unfold partition_source at h'
    cases hast : astF s with
    | none => rw [hast] at h'; simp at h'
    | some ilines =>
      rw [hast] at h'
      cases htok : tokF s with
      | none => rw [htok] at h'; simp at h'
      | some toks =>
        rw [htok] at h'
        by_cases hc : joinSrc ((toks.foldl (scanTok (get_line_offsets_by_line_no s) ilines s) initScan)).chunks = s
        · simp only [hc, if_true] at h'
          exact absurd h' (by simp)
        · simp only [hc, if_false] at h'
          exact absurd h' (by simp)

/-- C8 witness: the type check at concrete values — a non-text value is
rejected with `TypeError`, a text value is not. -/
theorem claim8_witness :
    partition_source_checked miniAstF miniTokF .other = .error .typeError ∧
    partition_source_checked miniAstF miniTokF (.text ("x = 1\n").toList) ≠
      .error .typeError :=
  ⟨claim8_type_check.1 miniAstF miniTokF .other (by decide),
   claim8_type_check.2 miniAstF miniTokF (("x = 1\n").toList)⟩

end RPI

namespace RPI

/-- Helper for C9: the loop of `main` with arbitrary starting index and
running exit code.  When every file transforms without raising, the loop
succeeds and the resulting exit code is 1 exactly when some file's
content changed (otherwise the running code is returned), for either
value of `--show-diff`. -/
theorem mainLoop_exit (fixF : PyStr → Except PyErr PyStr) (sd : Bool) :
    ∀ (files : List PyStr) (idx retv : Nat),
      (∀ f ∈ files, (fixF f).isOk = true) →
      ∃ acts, mainLoop fixF sd files idx retv =
        .ok ((if ∃ f ∈ files, fixF f ≠ .ok f then 1 else retv), acts) := by
  intro files
  induction files with
  | nil => intro idx retv _; exact ⟨[], by simp [mainLoop]⟩
  | cons f rest ih =>
    intro idx retv h
    have hf : (fixF f).isOk = true := h f (List.mem_cons_self f rest)
    obtain ⟨r, hr⟩ : ∃ r, fixF f = .ok r := by
      cases hfx : fixF f with
      | error e => rw [hfx] at hf; simp [Except.isOk, Except.toBool] at hf
      | ok r => exact ⟨r, rfl⟩
    have hrest : ∀ g ∈ rest, (fixF g).isOk = true :=
      fun g hg => h g (List.mem_cons_of_mem f hg)
    by_cases hch : f = r
    · subst hch
      obtain ⟨acts, ha⟩ := ih (idx + 1) retv hrest
      refine ⟨acts, ?_⟩
      have heq : mainLoop fixF sd (f :: rest) idx retv
          = mainLoop fixF sd rest (idx + 1) retv := by
        simp [mainLoop, hr]
      have hiff : (∃ g ∈ f :: rest, fixF g ≠ .ok g) ↔ (∃ g ∈ rest, fixF g ≠ .ok g) := by
        constructor
        · rintro ⟨g, hg, hne⟩
          rcases List.mem_cons.1 hg with hgf | hgr
          · subst hgf; exact absurd hr hne
          · exact ⟨g, hgr, hne⟩
        · rintro ⟨g, hg, hne⟩; exact ⟨g, List.mem_cons_of_mem f hg, hne⟩
      rw [heq, ha]
      simp only [hiff]
    · obtain ⟨acts, ha⟩ := ih (idx + 1) 1 hrest
      have h1 : (if ∃ g ∈ rest, fixF g ≠ .ok g then 1 else 1) = 1 := by
        split <;> rfl
      rw [h1] at ha
      refine ⟨(if sd then MainAction.showedDiff idx else MainAction.wrote idx r) :: acts, ?_⟩
      have hex : (∃ g ∈ f :: rest, fixF g ≠ .ok g) := by
        refine ⟨f, List.mem_cons_self f rest, ?_⟩
        rw [hr]; simp; exact fun he => hch he.symm
      rw [if_pos hex]
      simp [mainLoop, hr, hch, ha]

/-- C9: `main` exits with code 0 when no processed file's rewritten
content differs from its original content and with code 1 when at least
one file's content changed, for both values of `--show-diff` (which only
selects between diff printing and the in-place write), provided every
file transforms without raising. -/
theorem claim9_exit_code (fixF : PyStr → Except PyErr PyStr) (sd : Bool)
    (files : List PyStr) (h : ∀ f ∈ files, (fixF f).isOk = true) :
    ∃ acts, mainModel fixF sd files =
      .ok ((if ∃ f ∈ files, fixF f ≠ .ok f then 1 else 0), acts) :=
  mainLoop_exit fixF sd files 0 0 h

/-- C9 witness: a changed file and an unchanged (empty) file under the
full model transformation, with `--show-diff` set, exit with code 1. -/
theorem claim9_witness :
    ∃ acts, mainModel fixModel true [("x = 1\n").toList, []] =
      .ok ((if ∃ f ∈ [("x = 1\n").toList, ([] : PyStr)], fixModel f ≠ .ok f
            then 1 else 0), acts) :=
  claim9_exit_code fixModel true [("x = 1\n").toList, []] (by decide)

end RPI

namespace RPI

/-- Helper: the comma-splitting pass agrees with the spec-side per-region
description when every import region's text parses. -/
theorem separate_comma_ok {J : Type} [DecidableEq J] (api : AspyApi J)
    (ps : List CodePartition)
    (h : ∀ p ∈ ps, p.code_type = .IMPORT → (api.import_obj_from_str p.src).isSome = true) :
    separate_comma_imports api ps = .ok ((ps.map (sepSpec api)).flatten) := by
  induction ps with
  | nil => rfl
  | cons p rest ih =>
    have hrest := fun q hq => h q (List.mem_cons_of_mem p hq)
    by_cases hp : p.code_type = .IMPORT
    · have hps := h p (List.mem_cons_self p rest) hp
      cases hobj : api.import_obj_from_str p.src with
      | none => rw [hobj] at hps; simp at hps
      | some o =>
        by_cases hm : api.has_multiple_imports o = true
        · simp [separate_comma_imports, hp, hobj, ih hrest, Except.map, sepSpec, hm]
        · simp [separate_comma_imports, hp, hobj, ih hrest, Except.map, sepSpec, hm]
    · simp [separate_comma_imports, hp, ih hrest, Except.map, sepSpec]

/-- C7: when every import region's text parses, the comma-splitting pass
succeeds and maps each region through `sepSpec`: an `Import` region
denoting multiple names becomes one `Import` region per name, rendered
through the classifier's canonical renderer in the originally written
order (the order `split_imports` preserves); single-name imports and all
non-import regions pass through unchanged, preserving the overall
sequence order. -/
theorem claim7_separate_comma_spec {J : Type} [DecidableEq J] (api : AspyApi J)
    (ps : List CodePartition)
    (h : ∀ p ∈ ps, p.code_type = .IMPORT → (api.import_obj_from_str p.src).isSome = true) :
    separate_comma_imports api ps = .ok ((ps.map (sepSpec api)).flatten) :=
  separate_comma_ok api ps h

/-- C7 witness: `import a, b` becomes the two adjacent regions rendering
`import a` and `import b`, in that order, with the following code region
untouched. -/
theorem claim7_witness :
    separate_comma_imports miniApi
      [⟨.IMPORT, ("import a, b\n").toList⟩, ⟨.CODE, ("x = 1\n").toList⟩] =
    .ok (([⟨.IMPORT, ("import a, b\n").toList⟩,
           (⟨.CODE, ("x = 1\n").toList⟩ : CodePartition)].map (sepSpec miniApi)).flatten) :=
  claim7_separate_comma_spec miniApi _ (by decide)

/-- Helper for C6: the de-duplication worker agrees with the spec-side
description for every starting `seen` set, when every import region's
text parses. -/
theorem removeDupAux_spec {J : Type} [DecidableEq J] (api : AspyApi J) :
    ∀ (ps : List CodePartition) (seen : List J),
      (∀ p ∈ ps, p.code_type = .IMPORT → (api.import_obj_from_str p.src).isSome = true) →
      removeDupAux api seen ps = .ok (dedupSpec api seen ps) := by
  intro ps
  induction ps with
  | nil => intro seen _; rfl
  | cons p rest ih =>
    intro seen h
    have hrest := fun q hq => h q (List.mem_cons_of_mem p hq)
    by_cases hp : p.code_type = .IMPORT
    · have hps := h p (List.mem_cons_self p rest) hp
      cases hobj : api.import_obj_from_str p.src with
      | none => rw [hobj] at hps; simp at hps
      | some o =>
        by_cases hs : o ∈ seen
        · simp [removeDupAux, dedupSpec, hp, hobj, hs, ih _ hrest]
        · simp [removeDupAux, dedupSpec, hp, hobj, hs, Except.map, ih _ hrest]
    · simp [removeDupAux, dedupSpec, hp, Except.map, ih _ hrest]

/-- C6: when every import region's text parses, the de-duplication pass
succeeds and equals the spec-side single scan with an initially empty
`seen` set: each `Import` region whose identity equals that of an earlier
`Import` region is dropped, the first occurrence of each identity is
kept, non-import regions always pass through, and the relative order of
the retained regions is preserved. -/
theorem claim6_remove_duplicates_spec {J : Type} [DecidableEq J] (api : AspyApi J)
    (ps : List CodePartition)
    (h : ∀ p ∈ ps, p.code_type = .IMPORT → (api.import_obj_from_str p.src).isSome = true) :
    remove_duplicated_imports api ps = .ok (dedupSpec api [] ps) :=
  removeDupAux_spec api ps [] h

/-- C6 witness: two syntactically different spellings of the same import
(an extra space) are recognised as duplicates — the first is kept, the
second dropped, the interleaved code region passes through. -/
theorem claim6_witness :
    remove_duplicated_imports miniApi
      [⟨.IMPORT, ("import a\n").toList⟩, ⟨.CODE, ("x = 1\n").toList⟩,
       ⟨.IMPORT, ("import  a\n").toList⟩] =
    .ok (dedupSpec miniApi []
      [⟨.IMPORT, ("import a\n").toList⟩, ⟨.CODE, ("x = 1\n").toList⟩,
       ⟨.IMPORT, ("import  a\n").toList⟩]) :=
  claim6_remove_duplicates_spec miniApi _ (by decide)

end RPI

namespace RPI

/-- Helper: building the identity/region pairs succeeds and produces the
`pairsOf`-style pairs when every region's text parses. -/
theorem collectPairs_ok {J : Type} [DecidableEq J] (api : AspyApi J) :
    ∀ l : List CodePartition,
      (∀ p ∈ l, (api.import_obj_from_str p.src).isSome = true) →
      collectPairs api l
      = .ok (l.filterMap (fun p => (api.import_obj_from_str p.src).map (fun o => (o, p)))) := by
  intro l
  induction l with
  | nil => intro _; rfl
  | cons p rest ih =>
    intro h
    have hp := h p (List.mem_cons_self p rest)
    cases hobj : api.import_obj_from_str p.src with
    | none => rw [hobj] at hp; simp at hp
    | some o =>
      have := ih (fun q hq => h q (List.mem_cons_of_mem p hq))
      simp [collectPairs, hobj, this, List.filterMap_cons]

/-- Helper: looking up one block's regions succeeds and produces the
`filterMap` of the lookups when every lookup succeeds. -/
theorem resolveBlock_ok {J : Type} [DecidableEq J] (d : List (J × CodePartition)) :
    ∀ bl : List J,
      (∀ o ∈ bl, (dictGet d o).isSome = true) →
      resolveBlock d bl = .ok (bl.filterMap (dictGet d)) := by
  intro bl
  induction bl with
  | nil => intro _; rfl
  | cons o rest ih =>
    intro h
    have hp := h o (List.mem_cons_self o rest)
    cases hobj : dictGet d o with
    | none => rw [hobj] at hp; simp at hp
    | some p =>
      have := ih (fun q hq => h q (List.mem_cons_of_mem o hq))
      simp [resolveBlock, hobj, this, List.filterMap_cons]

/-- Helper: resolving all blocks succeeds under the same condition. -/
theorem resolveBlocks_ok {J : Type} [DecidableEq J] (d : List (J × CodePartition)) :
    ∀ blocks : List (List J),
      (∀ bl ∈ blocks, ∀ o ∈ bl, (dictGet d o).isSome = true) →
      resolveBlocks d blocks
      = .ok (blocks.map (fun bl => bl.filterMap (dictGet d))) := by
  intro blocks
  induction blocks with
  | nil => intro _; rfl
  | cons bl rest ih =>
    intro h
    have h1 := resolveBlock_ok d bl (h bl (List.mem_cons_self bl rest))
    have h2 := ih (fun b hb => h b (List.mem_cons_of_mem bl hb))
    simp [resolveBlocks, h1, h2]

/-- Helper: emitting one separator after every block and popping the last
one is the same as placing a single separator between adjacent blocks. -/
theorem flatten_sep_dropLast :
    ∀ bs : List (List CodePartition), bs ≠ [] →
      ((bs.map (fun b => b ++ [(⟨.NON_CODE, ['\n']⟩ : CodePartition)])).flatten).dropLast
        = blocksWithSeps bs := by
  intro bs
  induction bs with
  | nil => intro h; exact absurd rfl h
  | cons b rest ih =>
    intro _
    cases rest with
    | nil => simp [blocksWithSeps]
    | cons b' rest' =>
      have hne : ((b' :: rest').map
          (fun x => x ++ [(⟨.NON_CODE, ['\n']⟩ : CodePartition)])).flatten ≠ [] := by
        simp
      rw [List.map_cons, List.flatten_cons, List.dropLast_append_of_ne_nil _ hne,
        ih (by simp)]
      rfl

end RPI

namespace RPI

/-- Helper: the `new_imports` computation (append a separator per block,
pop the trailing one if nonempty) equals the separator-interleaved form. -/
theorem newImports_eq (bs : List (List CodePartition)) :
    (if ((bs.map (fun b => b ++ [(⟨.NON_CODE, ['\n']⟩ : CodePartition)])).flatten) ≠ [] then
      ((bs.map (fun b => b ++ [(⟨.NON_CODE, ['\n']⟩ : CodePartition)])).flatten).dropLast
     else ((bs.map (fun b => b ++ [(⟨.NON_CODE, ['\n']⟩ : CodePartition)])).flatten))
    = blocksWithSeps bs := by
  cases bs with
  | nil => simp [blocksWithSeps]
  | cons b rest =>
    have hne : (((b :: rest).map
        (fun x => x ++ [(⟨.NON_CODE, ['\n']⟩ : CodePartition)])).flatten) ≠ [] := by simp
    simp only [ne_eq, hne, not_false_iff, if_true]
    exact flatten_sep_dropLast _ (by simp)

/-- C4 (amended): the structure of the reassembled output.  When
every import region parses and the sorter's blocks mention only known
identities, `apply_import_sorting` succeeds and returns: the pre-import
regions, then the sorted blocks' regions with exactly one one-newline
`NON_CODE` separator between adjacent blocks and no separator after the
last block, then — only when stripped code remains — a `NON_CODE` region
of exactly two newline characters followed by the code with exactly one
trailing newline.  Since every import region's text itself ends in a
newline, adjacent blocks are separated by exactly one blank line, and
THREE newline characters (not two, as claimed) stand between the import
section and the remaining code; the claimed single trailing newline holds
whenever imports or code are present, but an output with neither (e.g.
for empty input) ends with no newline at all. -/
theorem apply_import_sorting_struct {J : Type} [DecidableEq J] (api : AspyApi J)
    (ps : List CodePartition)
    (h1 : ∀ p ∈ ps.filter (fun p => p.code_type = .IMPORT),
          (api.import_obj_from_str p.src).isSome = true)
    (h2 : ∀ bl ∈ api.sortBlocks ((dictOfPairs (pairsOf api ps)).map Prod.fst),
          ∀ o ∈ bl, (dictGet (dictOfPairs (pairsOf api ps)) o).isSome = true) :
    apply_import_sorting api ps = .ok (
      ps.filter (fun p => p.code_type = .PRE_IMPORT_CODE)
      ++ blocksWithSeps ((api.sortBlocks ((dictOfPairs (pairsOf api ps)).map Prod.fst)).map
            (fun bl => bl.filterMap (dictGet (dictOfPairs (pairsOf api ps)))))
      ++ (if pyRstrip (lstripNl (joinSrc (ps.filter (fun p => p.code_type = .CODE)))) ≠ [] then
            [⟨.NON_CODE, ['\n', '\n']⟩,
             ⟨.CODE, pyRstrip (lstripNl (joinSrc (ps.filter
                (fun p => p.code_type = .CODE)))) ++ ['\n']⟩]
          else [])) := by
  have hpairs : collectPairs api (ps.filter (fun p => p.code_type = .IMPORT))
      = .ok (pairsOf api ps) :=
    collectPairs_ok api _ h1
  have hblocks := resolveBlocks_ok (dictOfPairs (pairsOf api ps))
    (api.sortBlocks ((dictOfPairs (pairsOf api ps)).map Prod.fst)) h2
  unfold apply_import_sorting
  simp only [hpairs, hblocks, newImports_eq]

/-- C4 (amended): the structure of the reassembled output of
`apply_import_sorting` — pre-import regions first, then the sorted blocks
with exactly one one-newline `NON_CODE` separator between adjacent blocks
and none after the last, then (when stripped code remains) a two-newline
`NON_CODE` region followed by the code with exactly one trailing newline;
so one blank line stands between adjacent blocks and three newline
characters (not two) between the import section and the code. -/
theorem claim4_blank_line_policy {J : Type} [DecidableEq J] (api : AspyApi J)
    (ps : List CodePartition)
    (h1 : ∀ p ∈ ps.filter (fun p => p.code_type = .IMPORT),
          (api.import_obj_from_str p.src).isSome = true)
    (h2 : ∀ bl ∈ api.sortBlocks ((dictOfPairs (pairsOf api ps)).map Prod.fst),
          ∀ o ∈ bl, (dictGet (dictOfPairs (pairsOf api ps)) o).isSome = true) :
    apply_import_sorting api ps = .ok (
      ps.filter (fun p => p.code_type = .PRE_IMPORT_CODE)
      ++ blocksWithSeps ((api.sortBlocks ((dictOfPairs (pairsOf api ps)).map Prod.fst)).map
            (fun bl => bl.filterMap (dictGet (dictOfPairs (pairsOf api ps)))))
      ++ (if pyRstrip (lstripNl (joinSrc (ps.filter (fun p => p.code_type = .CODE)))) ≠ [] then
            [⟨.NON_CODE, ['\n', '\n']⟩,
             ⟨.CODE, pyRstrip (lstripNl (joinSrc (ps.filter
                (fun p => p.code_type = .CODE)))) ++ ['\n']⟩]
          else [])) :=
  apply_import_sorting_struct api ps h1 h2

/-- C4 (counterexample): for the parseable input `"import a\nx = 1\n"`
the transformed output separates the import section from the code by
three newline characters, so it differs from the unique output with the
claimed exactly-two-newline separation. -/
theorem claim4_cex_two_newline_separation_fails :
    fixModel ("import a\nx = 1\n").toList = .ok ("import a\n\n\nx = 1\n").toList ∧
    ("import a\n\n\nx = 1\n").toList ≠ ("import a\n\nx = 1\n").toList := by
  decide

/-- C4 witness: the amended structure theorem applied to the concrete
partition of `"import b\nimport a\n\nx = 1\n"` under the model
classifier and sorter. -/
theorem claim4_witness :
    apply_import_sorting miniApi
      [⟨.IMPORT, ("import b\n").toList⟩, ⟨.IMPORT, ("import a\n").toList⟩,
       ⟨.NON_CODE, ['\n']⟩, ⟨.CODE, ("x = 1\n").toList⟩] = .ok (
      ([⟨.IMPORT, ("import b\n").toList⟩, ⟨.IMPORT, ("import a\n").toList⟩,
        ⟨.NON_CODE, ['\n']⟩,
        (⟨.CODE, ("x = 1\n").toList⟩ : CodePartition)].filter
          (fun p => p.code_type = .PRE_IMPORT_CODE))
      ++ blocksWithSeps ((miniApi.sortBlocks ((dictOfPairs (pairsOf miniApi
            [⟨.IMPORT, ("import b\n").toList⟩, ⟨.IMPORT, ("import a\n").toList⟩,
             ⟨.NON_CODE, ['\n']⟩, ⟨.CODE, ("x = 1\n").toList⟩])).map Prod.fst)).map
            (fun bl => bl.filterMap (dictGet (dictOfPairs (pairsOf miniApi
              [⟨.IMPORT, ("import b\n").toList⟩, ⟨.IMPORT, ("import a\n").toList⟩,
               ⟨.NON_CODE, ['\n']⟩, ⟨.CODE, ("x = 1\n").toList⟩])))))
      ++ (if pyRstrip (lstripNl (joinSrc ([⟨.IMPORT, ("import b\n").toList⟩,
              ⟨.IMPORT, ("import a\n").toList⟩, ⟨.NON_CODE, ['\n']⟩,
              (⟨.CODE, ("x = 1\n").toList⟩ : CodePartition)].filter
                (fun p => p.code_type = .CODE)))) ≠ [] then
            [⟨.NON_CODE, ['\n', '\n']⟩,
             ⟨.CODE, pyRstrip (lstripNl (joinSrc ([⟨.IMPORT, ("import b\n").toList⟩,
                ⟨.IMPORT, ("import a\n").toList⟩, ⟨.NON_CODE, ['\n']⟩,
                (⟨.CODE, ("x = 1\n").toList⟩ : CodePartition)].filter
                  (fun p => p.code_type = .CODE)))) ++ ['\n']⟩]
          else [])) :=
  claim4_blank_line_policy miniApi _ (by decide) (by decide)

end RPI


namespace RPI

/-! ## Line/string infrastructure lemmas for the partitioner bridge -/

theorem joinLines_cons (l : PyStr) (ls : List PyStr) :
    joinLines (l :: ls) = l ++ '\n' :: joinLines ls := by
  simp [joinLines]

theorem length_joinLines (ls : List PyStr) : (joinLines ls).length = sumLens ls := by
  induction ls with
  | nil => rfl
  | cons l rest ih =>
    rw [joinLines_cons]
    simp [sumLens] at *
    omega

theorem toLinesAux_nil (acc : PyStr) :
    toLinesAux [] acc = if acc = [] then some [] else none := rfl

theorem toLinesAux_cons (c : Char) (rest acc : PyStr) :
    toLinesAux (c :: rest) acc =
      if c = '\n' then (toLinesAux rest []).map (acc.reverse :: ·)
      else toLinesAux rest (c :: acc) := rfl

theorem toLinesAux_eq_some (s : PyStr) : ∀ (acc : PyStr) (ls : List PyStr),
    toLinesAux s acc = some ls → joinLines ls = acc.reverse ++ s := by
  induction s with
  | nil =>
    intro acc ls h
    rw [toLinesAux_nil] at h
    split at h
    · rename_i ha
      simp at h
      subst h
      simp [ha, joinLines]
    · simp at h
  | cons c rest ih =>
    intro acc ls h
    rw [toLinesAux_cons] at h
    split at h
    · rename_i hc
      cases hrec : toLinesAux rest [] with
      | none => rw [hrec] at h; simp at h
      | some ls' =>
        rw [hrec] at h
        simp at h
        have hj := ih [] ls' hrec
        simp at hj
        rw [← h, joinLines_cons, hj, hc]
    · have hj := ih (c :: acc) ls h
      rw [hj]
      simp

theorem toLinesAux_no_nl (s : PyStr) : ∀ (acc : PyStr) (ls : List PyStr),
    toLinesAux s acc = some ls → ¬ '\n' ∈ acc → ∀ l ∈ ls, ¬ '\n' ∈ l := by
  induction s with
  | nil =>
    intro acc ls h _
    rw [toLinesAux_nil] at h
    split at h
    · simp at h; subst h; intro l hl; simp at hl
    · simp at h
  | cons c rest ih =>
    intro acc ls h hacc
    rw [toLinesAux_cons] at h
    split at h
    · rename_i hc
      cases hrec : toLinesAux rest [] with
      | none => rw [hrec] at h; simp at h
      | some ls' =>
        rw [hrec] at h
        simp at h
        intro l hl
        rw [← h] at hl
        rcases List.mem_cons.1 hl with h1 | h2
        · subst h1; simp; exact fun hmem => hacc hmem
        · exact ih [] ls' hrec (by simp) l h2
    · rename_i hc
      refine ih (c :: acc) ls h ?_
      intro hmem
      rcases List.mem_cons.1 hmem with h1 | h2
      · exact hc h1.symm
      · exact hacc h2

/-- Splitting a newline-terminated source recovers its lines. -/
theorem toLines_of_joinLines (ls : List PyStr) (h : ∀ l ∈ ls, ¬ '\n' ∈ l) :
    toLines (joinLines ls) = some ls := by
  have line : ∀ (l : PyStr), ¬ '\n' ∈ l → ∀ (acc : PyStr) (t : PyStr),
      toLinesAux (l ++ '\n' :: t) acc
        = (toLinesAux t []).map ((acc.reverse ++ l) :: ·) := by
    intro l
    induction l with
    | nil =>
      intro _ acc t
      show toLinesAux ('\n' :: t) acc = _
      rw [toLinesAux_cons, if_pos rfl]
      simp
    | cons c l' ihl =>
      intro hmem acc t
      have hc : ¬ (c = '\n') := fun hc => hmem (hc ▸ List.mem_cons_self c l')
      have hl' : ¬ '\n' ∈ l' := fun hm => hmem (List.mem_cons_of_mem c hm)
      show toLinesAux (c :: (l' ++ '\n' :: t)) acc = _
      rw [toLinesAux_cons, if_neg hc, ihl hl' (c :: acc) t]
      simp
  induction ls with
  | nil => rfl
  | cons l rest ih =>
    have hl := h l (List.mem_cons_self l rest)
    have hrest := fun x hx => h x (List.mem_cons_of_mem l hx)
    unfold toLines
    rw [joinLines_cons, line l hl [] (joinLines rest)]
    rw [show toLinesAux (joinLines rest) [] = toLines (joinLines rest) from rfl, ih hrest]
    simp

theorem splitlinesAux_cons_other (c : Char) (rest acc : PyStr)
    (hcb : isLineBdry c = false) :
    splitlinesAux (c :: rest) acc = splitlinesAux rest (c :: acc) := by
  have hcr : ¬ (c = '\r') := by
    intro h
    subst h
    exact absurd hcb (by decide)
  rw [splitlinesAux.eq_def]
  split <;> simp_all

theorem splitlinesAux_cons_nl (rest acc : PyStr) :
    splitlinesAux ('\n' :: rest) acc = acc.reverse :: splitlinesAux rest [] := rfl

/-- Splitlines on a newline-terminated source whose lines are free of
boundary characters recovers the lines. -/
theorem splitlinesPy_joinLines (ls : List PyStr)
    (h : ∀ l ∈ ls, ∀ c ∈ l, isLineBdry c = false) :
    splitlinesPy (joinLines ls) = ls := by
  have line : ∀ (l : PyStr), (∀ c ∈ l, isLineBdry c = false) →
      ∀ (acc : PyStr) (t : PyStr),
      splitlinesAux (l ++ '\n' :: t) acc = (acc.reverse ++ l) :: splitlinesAux t [] := by
    intro l
    induction l with
    | nil =>
      intro _ acc t
      show splitlinesAux ('\n' :: t) acc = _
      rw [splitlinesAux_cons_nl]
      simp
    | cons c l' ihl =>
      intro hb acc t
      have hcb : isLineBdry c = false := hb c (List.mem_cons_self c l')
      have hb' : ∀ d ∈ l', isLineBdry d = false :=
        fun d hd => hb d (List.mem_cons_of_mem c hd)
      show splitlinesAux (c :: (l' ++ '\n' :: t)) acc = _
      rw [splitlinesAux_cons_other c _ acc hcb, ihl hb' (c :: acc) t]
      simp
  induction ls with
  | nil => rfl
  | cons l rest ih =>
    have hl := h l (List.mem_cons_self l rest)
    have hrest := fun x hx => h x (List.mem_cons_of_mem l hx)
    unfold splitlinesPy
    rw [joinLines_cons, line l hl [] (joinLines rest)]
    rw [show splitlinesAux (joinLines rest) [] = splitlinesPy (joinLines rest) from rfl,
      ih hrest]
    simp

end RPI

namespace RPI

theorem offsetsFrom_getD : ∀ (ls : List PyStr) (start i : Nat), i < ls.length →
    (offsetsFrom start ls).getD i 0 = start + sumLens (ls.take (i + 1)) := by
  intro ls
  induction ls with
  | nil => intro start i h; simp at h
  | cons l rest ih =>
    intro start i h
    cases i with
    | zero => simp [offsetsFrom, sumLens]; omega
    | succ i' =>
      simp only [offsetsFrom, List.getD_cons_succ]
      rw [ih _ i' (by simpa using h)]
      simp [sumLens]
      omega

/-- The offsets table lookup at a row `1 ≤ r ≤ n + 1` gives the start
position of line `r` (the end of the source for `r = n + 1`). -/
theorem offAt_rows (ls : List PyStr) (r : Nat) (h1 : 1 ≤ r) (h2 : r ≤ ls.length + 1) :
    offAt (0 :: 0 :: offsetsFrom 0 ls) r = sumLens (ls.take (r - 1)) := by
  match r, h1 with
  | 1, _ => simp [offAt, sumLens]
  | (i+2), _ =>
    show (0 :: 0 :: offsetsFrom 0 ls).getD (i+2) 0 = _
    simp only [List.getD_cons_succ]
    rw [offsetsFrom_getD ls 0 i (by omega)]
    simp

theorem pySlice_middle (a b c : PyStr) :
    pySlice (a ++ b ++ c) a.length (a.length + b.length) = b := by
  unfold pySlice
  rw [List.append_assoc, List.take_append, List.take_left, List.drop_left]

theorem pySlice_from (a b : PyStr) (k : Nat) (hk : (a ++ b).length ≤ k) :
    pySlice (a ++ b) a.length k = b := by
  unfold pySlice
  rw [List.take_of_length_le hk, List.drop_left]

theorem joinSrc_cons (p : CodePartition) (ps : List CodePartition) :
    joinSrc (p :: ps) = p.src ++ joinSrc ps := by
  simp [joinSrc]

theorem joinSrc_append (ps qs : List CodePartition) :
    joinSrc (ps ++ qs) = joinSrc ps ++ joinSrc qs := by
  simp [joinSrc]

/-- The line-level partition reconstructs the source (invariant I1 at the
line level). -/
theorem joinSrc_partitionLines (lks : List (PyStr × LineKind)) : ∀ (seen : Bool),
    joinSrc (partitionLines seen lks) = joinLines (lks.map Prod.fst) := by
  induction lks with
  | nil => intro seen; rfl
  | cons lk rest ih =>
    intro seen
    obtain ⟨l, k⟩ := lk
    have ih' : ∀ b, (List.map CodePartition.src (partitionLines b rest)).flatten
        = joinLines (rest.map Prod.fst) := by
      intro b
      have := ih b
      simpa [joinSrc] using this
    cases k <;> cases seen <;>
      simp [partitionLines, joinSrc_cons, joinLines_cons, ih', joinSrc]

theorem classifyLines_of_forall (cf : PyStr → Option LineKind) :
    ∀ (lks : List (PyStr × LineKind)),
    (∀ lk ∈ lks, cf lk.1 = some lk.2) →
    classifyLines cf (lks.map Prod.fst) = some lks := by
  intro lks
  induction lks with
  | nil => intro _; rfl
  | cons lk rest ih =>
    intro h
    have hlk := h lk (List.mem_cons_self lk rest)
    have hrest := fun x hx => h x (List.mem_cons_of_mem lk hx)
    simp only [List.map_cons, classifyLines, hlk, ih hrest]
    rfl

theorem classifyLines_inv (cf : PyStr → Option LineKind) :
    ∀ (ls : List PyStr) (lks : List (PyStr × LineKind)),
    classifyLines cf ls = some lks →
    lks.map Prod.fst = ls ∧ ∀ lk ∈ lks, cf lk.1 = some lk.2 := by
  intro ls
  induction ls with
  | nil =>
    intro lks h
    simp [classifyLines] at h
    subst h
    simp
  | cons l rest ih =>
    intro lks h
    simp only [classifyLines] at h
    cases hcl : cf l with
    | none => rw [hcl] at h; simp at h
    | some k =>
      rw [hcl] at h
      cases hrec : classifyLines cf rest with
      | none => rw [hrec] at h; simp at h
      | some lks' =>
        rw [hrec] at h
        simp at h
        obtain ⟨hmap, hall⟩ := ih lks' hrec
        subst h
        constructor
        · simp [hmap]
        · intro lk hlk
          rcases List.mem_cons.1 hlk with h1 | h2
          · subst h1; exact hcl
          · exact hall lk h2

/-- A source in the modelled class decomposes into its classified lines. -/
theorem classAll_inv (s : PyStr) (lks : List (PyStr × LineKind))
    (h : classAll s = some lks) :
    s = joinLines (lks.map Prod.fst) ∧
    (∀ lk ∈ lks, classifyLineLF lk.1 = some lk.2) ∧
    (∀ lk ∈ lks, ¬ '\n' ∈ lk.1) := by
  unfold classAll at h
  cases htl : toLines s with
  | none => rw [htl] at h; simp at h
  | some ls =>
    rw [htl] at h
    simp at h
    obtain ⟨hmap, hall⟩ := classifyLines_inv classifyLineLF ls lks h
    have hjoin := toLinesAux_eq_some s [] ls htl
    simp at hjoin
    have hnl := toLinesAux_no_nl s [] ls htl (by simp)
    refine ⟨by rw [hmap, hjoin], hall, ?_⟩
    intro lk hlk
    refine hnl lk.1 ?_
    rw [← hmap]
    exact List.mem_map_of_mem Prod.fst hlk

/-- Conversely, classified lines assemble to a source in the class. -/
theorem classAll_of_lines (lks : List (PyStr × LineKind))
    (hcl : ∀ lk ∈ lks, classifyLineLF lk.1 = some lk.2)
    (hnl : ∀ lk ∈ lks, ¬ '\n' ∈ lk.1) :
    classAll (joinLines (lks.map Prod.fst)) = some lks := by
  unfold classAll
  rw [toLines_of_joinLines (lks.map Prod.fst) ?hn]
  · simp [classifyLines_of_forall classifyLineLF lks hcl]
  · intro l hl
    obtain ⟨lk, hlk, rfl⟩ := List.mem_map.1 hl
    exact hnl lk hlk

end RPI

namespace RPI

theorem joinLines_append (a b : List PyStr) :
    joinLines (a ++ b) = joinLines a ++ joinLines b := by
  simp [joinLines]

theorem sumLens_append (a b : List PyStr) :
    sumLens (a ++ b) = sumLens a + sumLens b := by
  simp [sumLens]

theorem importRowsAux_bounds : ∀ (lks : List (PyStr × LineKind)) (r0 r : Nat),
    r ∈ importRowsAux r0 lks → r0 ≤ r ∧ r < r0 + lks.length := by
  intro lks
  induction lks with
  | nil => intro r0 r h; simp [importRowsAux] at h
  | cons lk rest ih =>
    intro r0 r h
    obtain ⟨l, k⟩ := lk
    unfold importRowsAux at h
    by_cases hk : isImpKind k = true
    · rw [if_pos hk] at h
      rcases List.mem_cons.1 h with h1 | h2
      · subst h1; simp only [List.length_cons]; omega
      · have := ih (r0 + 1) r h2; simp only [List.length_cons]; omega
    · rw [if_neg hk] at h
      have := ih (r0 + 1) r h
      simp only [List.length_cons]
      omega

theorem importRowsAux_at_head : ∀ (pre : List (PyStr × LineKind)) (r0 : Nat)
    (l : PyStr) (k : LineKind) (rest : List (PyStr × LineKind)),
    ((r0 + pre.length) ∈ importRowsAux r0 (pre ++ (l, k) :: rest)) ↔ isImpKind k = true := by
  intro pre
  induction pre with
  | nil =>
    intro r0 l k rest
    simp only [List.nil_append, List.length_nil, Nat.add_zero]
    unfold importRowsAux
    by_cases hk : isImpKind k = true
    · simp [hk]
    · rw [if_neg hk]
      simp [hk]
      intro hmem
      have := importRowsAux_bounds rest (r0 + 1) r0 hmem
      omega
  | cons lk0 pre' ih =>
    intro r0 l k rest
    obtain ⟨l0, k0⟩ := lk0
    show ((r0 + (pre'.length + 1)) ∈ importRowsAux r0 ((l0, k0) :: (pre' ++ (l, k) :: rest)))
      ↔ _
    unfold importRowsAux
    have hne : r0 + (pre'.length + 1) ≠ r0 := by omega
    have hrec := ih (r0 + 1) l k rest
    have harith : (r0 + 1) + pre'.length = r0 + (pre'.length + 1) := by omega
    rw [harith] at hrec
    by_cases hk0 : isImpKind k0 = true
    · rw [if_pos hk0]
      rw [List.mem_cons]
      simp [hne]
      exact hrec
    · rw [if_neg hk0]
      exact hrec

/-- The tokens of a line never include the end-of-stream marker. -/
theorem tokensOfLine_no_end (r : Nat) (l : PyStr) (k : LineKind) :
    ∀ t ∈ tokensOfLine r l k, t.typ ≠ .ENDMARKER := by
  intro t ht
  cases k <;> simp [tokensOfLine] at ht <;>
    rcases ht with rfl | rfl <;> simp

theorem tokensOf_no_end : ∀ (lks : List (PyStr × LineKind)) (r : Nat),
    ∀ t ∈ tokensOf r lks, t.typ ≠ .ENDMARKER := by
  intro lks
  induction lks with
  | nil => intro r t ht; simp [tokensOf] at ht
  | cons lk rest ih =>
    intro r t ht
    obtain ⟨l, k⟩ := lk
    unfold tokensOf at ht
    rcases List.mem_append.1 ht with h | h
    · exact tokensOfLine_no_end r l k t h
    · exact ih (r + 1) t h

/-- A pending region that only the end-of-stream can close is unaffected
by any non-end token. -/
theorem scanTok_stuck (offsets ilines : List Nat) (src : PyStr)
    (chunks : List CodePartition) (pos : Nat) (seen : Bool) (t : Tok)
    (ht : t.typ ≠ .ENDMARKER) :
    scanTok offsets ilines src ⟨chunks, pos, some .CODE, TERMINATES_CODE, seen⟩ t
      = ⟨chunks, pos, some .CODE, TERMINATES_CODE, seen⟩ := by
  unfold scanTok
  simp [TERMINATES_CODE, ht]

theorem scan_absorb (offsets ilines : List Nat) (src : PyStr) :
    ∀ (lks : List (PyStr × LineKind)) (r : Nat)
      (chunks : List CodePartition) (pos : Nat) (seen : Bool),
      (tokensOf r lks).foldl (scanTok offsets ilines src)
        ⟨chunks, pos, some .CODE, TERMINATES_CODE, seen⟩
      = ⟨chunks, pos, some .CODE, TERMINATES_CODE, seen⟩ := by
  have absorbTok : ∀ (ts : List Tok), (∀ t ∈ ts, t.typ ≠ .ENDMARKER) →
      ∀ (chunks : List CodePartition) (pos : Nat) (seen : Bool),
      ts.foldl (scanTok offsets ilines src)
        ⟨chunks, pos, some .CODE, TERMINATES_CODE, seen⟩
      = ⟨chunks, pos, some .CODE, TERMINATES_CODE, seen⟩ := by
    intro ts
    induction ts with
    | nil => intro _ chunks pos seen; rfl
    | cons t rest ih =>
      intro h chunks pos seen
      rw [List.foldl_cons,
        scanTok_stuck offsets ilines src chunks pos seen t (h t (List.mem_cons_self t rest))]
      exact ih (fun x hx => h x (List.mem_cons_of_mem t hx)) chunks pos seen
  intro lks r chunks pos seen
  exact absorbTok (tokensOf r lks) (tokensOf_no_end lks r) chunks pos seen

end RPI

namespace RPI

/-- An LF-classified line contains no carriage return. -/
theorem no_oddBreak_mem (l : PyStr) (h : l.any isOddBreak = false) :
    ∀ c ∈ l, isOddBreak c = false := by
  intro c hc
  rcases hb : isOddBreak c with _ | _
  · rfl
  · exact absurd h (by rw [List.any_eq_true.2 ⟨c, hc, hb⟩]; decide)

theorem no_cr_of_no_oddBreak (l : PyStr) (h : l.any isOddBreak = false) :
    ¬ '\r' ∈ l :=
  fun hc => absurd (no_oddBreak_mem l h '\r' hc) (by decide)

theorem classifyLineLF_elim (l : PyStr) (k : LineKind)
    (h : classifyLineLF l = some k) :
    l.any isOddBreak = false ∧ classifyLF l = some k := by
  unfold classifyLineLF at h
  cases hb : l.any isOddBreak with
  | true => rw [hb, if_pos rfl] at h; cases h
  | false =>
    rw [hb, if_neg (by decide : ¬ (false = true))] at h
    exact ⟨rfl, h⟩

theorem classifyLineLF_eq_classifyLF (l : PyStr)
    (hnb : l.any isOddBreak = false) : classifyLineLF l = classifyLF l := by
  unfold classifyLineLF
  rw [hnb, if_neg (by decide : ¬ (false = true))]

theorem classifyLine_no_cr (l : PyStr) (k : LineKind)
    (h : classifyLine l = some k) (hk : isLFKind k = true) : ¬ '\r' ∈ l := by
  intro hr
  unfold classifyLine at h
  rw [if_pos hr] at h
  split at h
  · split at h
    · simp only [Option.some.injEq] at h
      subst h
      exact Bool.noConfusion hk
    · simp only [Option.some.injEq] at h
      subst h
      exact Bool.noConfusion hk
    · simp at h
  · simp at h

end RPI

namespace RPI

set_option maxHeartbeats 1000000

/-- The token-level scan of `partition_source` computes the line-level
reference partition, for every split of the classified line list.  The
scan starts at the line following `pre` in the idle state with the cut
position at that line's start offset and runs to the end of the token
stream including the final end marker. -/
theorem scan_bridge (lks : List (PyStr × LineKind))
    (_hWF : ∀ lk ∈ lks, classifyLine lk.1 = some lk.2)
    (hnl : ∀ lk ∈ lks, ¬ '\n' ∈ lk.1)
    (hLF : ∀ lk ∈ lks, isLFKind lk.2 = true)
    (hnb : ∀ lk ∈ lks, lk.1.any isOddBreak = false) :
    ∀ (suf pre : List (PyStr × LineKind)), lks = pre ++ suf →
    ∀ (chunks : List CodePartition) (seen : Bool),
      ((tokensOf (pre.length + 1) suf
          ++ [(⟨.ENDMARKER, lks.length + 1, 0, lks.length + 1, 0⟩ : Tok)]).foldl
        (scanTok (get_line_offsets_by_line_no (joinLines (lks.map Prod.fst)))
          (importRowsAux 1 lks) (joinLines (lks.map Prod.fst)))
        ⟨chunks, sumLens (pre.map Prod.fst), none, [], seen⟩).chunks
      = chunks ++ partitionLines seen suf := by
  have hnocr : ∀ l ∈ lks.map Prod.fst, ∀ c ∈ l, isLineBdry c = false := by
    intro l hl c hcl
    obtain ⟨lk, hlk, rfl⟩ := List.mem_map.1 hl
    have h1 : ¬ (c = '\n') := fun hcn => hnl lk hlk (hcn ▸ hcl)
    have h2 : isOddBreak c = false := no_oddBreak_mem _ (hnb lk hlk) c hcl
    show (decide (c = '\n') || isOddBreak c) = false
    rw [h2, decide_eq_false h1]
    rfl
  have hoff : get_line_offsets_by_line_no (joinLines (lks.map Prod.fst))
      = 0 :: 0 :: offsetsFrom 0 (lks.map Prod.fst) := by
    unfold get_line_offsets_by_line_no
    rw [splitlinesPy_joinLines _ hnocr]
  have hoffAt : ∀ r, 1 ≤ r → r ≤ lks.length + 1 →
      offAt (get_line_offsets_by_line_no (joinLines (lks.map Prod.fst))) r
        = sumLens ((lks.map Prod.fst).take (r - 1)) := by
    intro r h1 h2
    rw [hoff]
    exact offAt_rows _ r h1 (by simpa using h2)
  intro suf
  induction suf with
  | nil =>
    intro pre hsplit chunks seen
    have hnotimp : ¬ ((lks.length + 1) ∈ importRowsAux 1 lks) := by
      intro hmem
      have := importRowsAux_bounds lks 1 _ hmem
      omega
    simp only [tokensOf, List.nil_append, List.foldl_cons, List.foldl_nil]
    unfold scanTok
    simp [hnotimp, partitionLines]
  | cons lk suf' ih =>
    intro pre hsplit chunks seen
    obtain ⟨l, k⟩ := lk
    have hmemlk : (l, k) ∈ lks := by
      rw [hsplit]; exact List.mem_append_right _ (List.mem_cons_self _ _)
    have hlen : lks.length = pre.length + 1 + suf'.length := by rw [hsplit]; simp; omega
    have hr1 : 1 ≤ pre.length + 1 := by omega
    have hr2 : pre.length + 1 ≤ lks.length + 1 := by omega
    have hLS : lks.map Prod.fst = pre.map Prod.fst ++ l :: suf'.map Prod.fst := by
      rw [hsplit]; simp
    have htake : (lks.map Prod.fst).take (pre.length + 1 - 1) = pre.map Prod.fst := by
      rw [hLS]
      have h1 : pre.length + 1 - 1 = (pre.map Prod.fst).length := by simp
      rw [h1, List.take_left]
    have hpos : offAt (get_line_offsets_by_line_no (joinLines (lks.map Prod.fst)))
        (pre.length + 1) = sumLens (pre.map Prod.fst) := by
      rw [hoffAt _ hr1 hr2, htake]
    have hsrc : joinLines (lks.map Prod.fst)
        = joinLines (pre.map Prod.fst) ++ (l ++ ['\n']) ++ joinLines (suf'.map Prod.fst) := by
      rw [hLS, joinLines_append, joinLines_cons]
      simp
    have hslice : pySlice (joinLines (lks.map Prod.fst)) (sumLens (pre.map Prod.fst))
        (sumLens (pre.map Prod.fst) + (l.length + 1)) = l ++ ['\n'] := by
      have hm := pySlice_middle (joinLines (pre.map Prod.fst)) (l ++ ['\n'])
        (joinLines (suf'.map Prod.fst))
      rw [length_joinLines] at hm
      rw [hsrc]
      have hb : (l ++ ['\n']).length = l.length + 1 := by simp
      rw [hb] at hm
      exact hm
    have hswallow : pySlice (joinLines (lks.map Prod.fst)) (sumLens (pre.map Prod.fst))
        (offAt (get_line_offsets_by_line_no (joinLines (lks.map Prod.fst)))
          (lks.length + 1))
        = joinLines (l :: suf'.map Prod.fst) := by
      have hend : offAt (get_line_offsets_by_line_no (joinLines (lks.map Prod.fst)))
          (lks.length + 1) = sumLens (lks.map Prod.fst) := by
        rw [hoffAt _ (by omega) (by omega)]
        simp only [Nat.add_sub_cancel]
        rw [show lks.length = (lks.map Prod.fst).length by simp, List.take_length]
      rw [hend]
      have hdec : joinLines (lks.map Prod.fst)
          = joinLines (pre.map Prod.fst) ++ joinLines (l :: suf'.map Prod.fst) := by
        rw [hLS, joinLines_append]
      rw [hdec]
      have hlen2 : (joinLines (pre.map Prod.fst)).length = sumLens (pre.map Prod.fst) :=
        length_joinLines _
      rw [← hlen2]
      refine pySlice_from _ _ _ ?_
      have := length_joinLines (lks.map Prod.fst)
      rw [hdec] at this
      simp at this ⊢
      rw [Nat.add_comm]
      omega
    have himp : ((pre.length + 1) ∈ importRowsAux 1 lks) ↔ isImpKind k = true := by
      rw [hsplit]
      have h1 := importRowsAux_at_head pre 1 l k suf'
      rwa [Nat.add_comm 1 pre.length] at h1
    have hposnext : sumLens (pre.map Prod.fst) + (l.length + 1)
        = sumLens ((pre ++ [(l, k)]).map Prod.fst) := by
      simp [sumLens_append, sumLens]
    have hsplit' : lks = (pre ++ [(l, k)]) ++ suf' := by
      rw [hsplit]; simp
    have hlen' : (pre ++ [(l, k)]).length + 1 = pre.length + 2 := by simp
    have hihx := ih (pre ++ [(l, k)])
    rw [hlen', ← hposnext] at hihx
    set SRC := joinLines (lks.map Prod.fst) with hSRC
    set OFS := get_line_offsets_by_line_no SRC with hOFS
    set IL := importRowsAux 1 lks with hIL
    have hclose : ∀ (chs : List CodePartition) (sn : Bool),
        ((tokensOf (pre.length + 1 + 1) suf'
            ++ [(⟨.ENDMARKER, lks.length + 1, 0, lks.length + 1, 0⟩ : Tok)]).foldl
          (scanTok OFS IL SRC)
          ⟨chs, sumLens (pre.map Prod.fst), some .CODE, TERMINATES_CODE, sn⟩).chunks
        = chs ++ [⟨.CODE, joinLines (l :: suf'.map Prod.fst)⟩] := by
      intro chs sn
      rw [List.foldl_append]
      rw [scan_absorb OFS IL SRC suf' (pre.length + 1 + 1) chs (sumLens (pre.map Prod.fst)) sn]
      rw [List.foldl_cons, List.foldl_nil]
      unfold scanTok
      simp [TERMINATES_CODE, hswallow]
    cases k with
    | impC o => exact absurd (hLF _ hmemlk) (by simp [isLFKind])
    | stmtC => exact absurd (hLF _ hmemlk) (by simp [isLFKind])
    | blank =>
      have hni : ¬ ((pre.length + 1) ∈ IL) := by
        rw [hIL, himp]; simp [isImpKind]
      rw [show tokensOf (pre.length + 1) ((l, LineKind.blank) :: suf')
            = [(⟨.NL, pre.length + 1, l.length, pre.length + 1, l.length + 1⟩ : Tok)]
              ++ tokensOf (pre.length + 1 + 1) suf' from rfl]
      rw [List.append_assoc, List.foldl_append, List.foldl_cons, List.foldl_nil]
      have hstep : scanTok OFS IL SRC
          ⟨chunks, sumLens (pre.map Prod.fst), none, [], seen⟩
          (⟨.NL, pre.length + 1, l.length, pre.length + 1, l.length + 1⟩ : Tok)
          = ⟨chunks ++ [⟨.NON_CODE, l ++ ['\n']⟩],
             sumLens (pre.map Prod.fst) + (l.length + 1), none, [], seen⟩ := by
        unfold scanTok
        simp [hni, hpos, hslice]
      rw [hstep, show pre.length + 1 + 1 = pre.length + 2 from rfl, hihx hsplit' (chunks ++ [(⟨.NON_CODE, l ++ ['\n']⟩ : CodePartition)]) seen]
      simp [partitionLines]
    | comment =>
      have hni : ¬ ((pre.length + 1) ∈ IL) := by
        rw [hIL, himp]; simp [isImpKind]
      rw [show tokensOf (pre.length + 1) ((l, LineKind.comment) :: suf')
            = [(⟨.COMMENT, pre.length + 1, indentOf l, pre.length + 1, l.length⟩ : Tok),
               (⟨.NL, pre.length + 1, l.length, pre.length + 1, l.length + 1⟩ : Tok)]
              ++ tokensOf (pre.length + 1 + 1) suf' from rfl]
      rw [List.append_assoc, List.foldl_append, List.foldl_cons, List.foldl_cons,
        List.foldl_nil]
      cases seen with
      | false =>
        have hstep1 : scanTok OFS IL SRC
            ⟨chunks, sumLens (pre.map Prod.fst), none, [], false⟩
            (⟨.COMMENT, pre.length + 1, indentOf l, pre.length + 1, l.length⟩ : Tok)
            = ⟨chunks, sumLens (pre.map Prod.fst), some .PRE_IMPORT_CODE,
               TERMINATES_COMMENT, false⟩ := by
          unfold scanTok
          simp
        have hstep2 : scanTok OFS IL SRC
            ⟨chunks, sumLens (pre.map Prod.fst), some .PRE_IMPORT_CODE,
             TERMINATES_COMMENT, false⟩
            (⟨.NL, pre.length + 1, l.length, pre.length + 1, l.length + 1⟩ : Tok)
            = ⟨chunks ++ [⟨.PRE_IMPORT_CODE, l ++ ['\n']⟩],
               sumLens (pre.map Prod.fst) + (l.length + 1), none, [], false⟩ := by
          unfold scanTok
          simp [TERMINATES_COMMENT, hpos, hslice]
        rw [hstep1, hstep2, show pre.length + 1 + 1 = pre.length + 2 from rfl, hihx hsplit' (chunks ++ [(⟨.PRE_IMPORT_CODE, l ++ ['\n']⟩ : CodePartition)]) false]
        simp [partitionLines]
      | true =>
        have hstep1 : scanTok OFS IL SRC
            ⟨chunks, sumLens (pre.map Prod.fst), none, [], true⟩
            (⟨.COMMENT, pre.length + 1, indentOf l, pre.length + 1, l.length⟩ : Tok)
            = ⟨chunks, sumLens (pre.map Prod.fst), some .CODE,
               TERMINATES_COMMENT, true⟩ := by
          unfold scanTok
          simp [hni]
        have hstep2 : scanTok OFS IL SRC
            ⟨chunks, sumLens (pre.map Prod.fst), some .CODE, TERMINATES_COMMENT, true⟩
            (⟨.NL, pre.length + 1, l.length, pre.length + 1, l.length + 1⟩ : Tok)
            = ⟨chunks ++ [⟨.CODE, l ++ ['\n']⟩],
               sumLens (pre.map Prod.fst) + (l.length + 1), none, [], true⟩ := by
          unfold scanTok
          simp [TERMINATES_COMMENT, hpos, hslice]
        rw [hstep1, hstep2, show pre.length + 1 + 1 = pre.length + 2 from rfl, hihx hsplit' (chunks ++ [(⟨.CODE, l ++ ['\n']⟩ : CodePartition)]) true]
        simp [partitionLines]
    | strLit =>
      have hni : ¬ ((pre.length + 1) ∈ IL) := by
        rw [hIL, himp]; simp [isImpKind]
      rw [show tokensOf (pre.length + 1) ((l, LineKind.strLit) :: suf')
            = [(⟨.STRING, pre.length + 1, 0, pre.length + 1,
                  ((l.reverse.dropWhile (· = ' ')).reverse).length⟩ : Tok),
               (⟨.NEWLINE, pre.length + 1, l.length, pre.length + 1, l.length + 1⟩ : Tok)]
              ++ tokensOf (pre.length + 1 + 1) suf' from rfl]
      rw [List.append_assoc, List.foldl_append, List.foldl_cons, List.foldl_cons,
        List.foldl_nil]
      cases seen with
      | false =>
        have hstep1 : scanTok OFS IL SRC
            ⟨chunks, sumLens (pre.map Prod.fst), none, [], false⟩
            (⟨.STRING, pre.length + 1, 0, pre.length + 1,
               ((l.reverse.dropWhile (· = ' ')).reverse).length⟩ : Tok)
            = ⟨chunks, sumLens (pre.map Prod.fst), some .PRE_IMPORT_CODE,
               TERMINATES_DOCSTRING, false⟩ := by
          unfold scanTok
          simp
        have hstep2 : scanTok OFS IL SRC
            ⟨chunks, sumLens (pre.map Prod.fst), some .PRE_IMPORT_CODE,
             TERMINATES_DOCSTRING, false⟩
            (⟨.NEWLINE, pre.length + 1, l.length, pre.length + 1, l.length + 1⟩ : Tok)
            = ⟨chunks ++ [⟨.PRE_IMPORT_CODE, l ++ ['\n']⟩],
               sumLens (pre.map Prod.fst) + (l.length + 1), none, [], false⟩ := by
          unfold scanTok
          simp [TERMINATES_DOCSTRING, hpos, hslice]
        rw [hstep1, hstep2, show pre.length + 1 + 1 = pre.length + 2 from rfl, hihx hsplit' (chunks ++ [(⟨.PRE_IMPORT_CODE, l ++ ['\n']⟩ : CodePartition)]) false]
        simp [partitionLines]
      | true =>
        have hstep1 : scanTok OFS IL SRC
            ⟨chunks, sumLens (pre.map Prod.fst), none, [], true⟩
            (⟨.STRING, pre.length + 1, 0, pre.length + 1,
               ((l.reverse.dropWhile (· = ' ')).reverse).length⟩ : Tok)
            = ⟨chunks, sumLens (pre.map Prod.fst), some .CODE, TERMINATES_CODE, true⟩ := by
          unfold scanTok
          simp [hni]
        have hstep2 : scanTok OFS IL SRC
            ⟨chunks, sumLens (pre.map Prod.fst), some .CODE, TERMINATES_CODE, true⟩
            (⟨.NEWLINE, pre.length + 1, l.length, pre.length + 1, l.length + 1⟩ : Tok)
            = ⟨chunks, sumLens (pre.map Prod.fst), some .CODE, TERMINATES_CODE, true⟩ :=
          scanTok_stuck OFS IL SRC chunks (sumLens (pre.map Prod.fst)) true _ (by simp)
        rw [hstep1, hstep2, hclose chunks true]
        simp [partitionLines]
    | imp o =>
      have himem : ((pre.length + 1) ∈ IL) := by
        rw [hIL]; exact himp.mpr (by simp [isImpKind])
      rw [show tokensOf (pre.length + 1) ((l, LineKind.imp o) :: suf')
            = [(⟨.OTHER, pre.length + 1, 0, pre.length + 1, 6⟩ : Tok),
               (⟨.NEWLINE, pre.length + 1, l.length, pre.length + 1, l.length + 1⟩ : Tok)]
              ++ tokensOf (pre.length + 1 + 1) suf' from rfl]
      rw [List.append_assoc, List.foldl_append, List.foldl_cons, List.foldl_cons,
        List.foldl_nil]
      have hstep1 : scanTok OFS IL SRC
          ⟨chunks, sumLens (pre.map Prod.fst), none, [], seen⟩
          (⟨.OTHER, pre.length + 1, 0, pre.length + 1, 6⟩ : Tok)
          = ⟨chunks, sumLens (pre.map Prod.fst), some .IMPORT,
             TERMINATES_IMPORT, true⟩ := by
        unfold scanTok
        simp [himem]
      have hstep2 : scanTok OFS IL SRC
          ⟨chunks, sumLens (pre.map Prod.fst), some .IMPORT, TERMINATES_IMPORT, true⟩
          (⟨.NEWLINE, pre.length + 1, l.length, pre.length + 1, l.length + 1⟩ : Tok)
          = ⟨chunks ++ [⟨.IMPORT, l ++ ['\n']⟩],
             sumLens (pre.map Prod.fst) + (l.length + 1), none, [], true⟩ := by
        unfold scanTok
        simp [TERMINATES_IMPORT, hpos, hslice]
      rw [hstep1, hstep2, show pre.length + 1 + 1 = pre.length + 2 from rfl, hihx hsplit' (chunks ++ [(⟨.IMPORT, l ++ ['\n']⟩ : CodePartition)]) true]
      simp [partitionLines]
    | stmt =>
      have hni : ¬ ((pre.length + 1) ∈ IL) := by
        rw [hIL, himp]; simp [isImpKind]
      rw [show tokensOf (pre.length + 1) ((l, LineKind.stmt) :: suf')
            = [(⟨.OTHER, pre.length + 1, 0, pre.length + 1,
                  (l.takeWhile isIdentChar).length⟩ : Tok),
               (⟨.NEWLINE, pre.length + 1, l.length, pre.length + 1, l.length + 1⟩ : Tok)]
              ++ tokensOf (pre.length + 1 + 1) suf' from rfl]
      rw [List.append_assoc, List.foldl_append, List.foldl_cons, List.foldl_cons,
        List.foldl_nil]
      have hstep1 : scanTok OFS IL SRC
          ⟨chunks, sumLens (pre.map Prod.fst), none, [], seen⟩
          (⟨.OTHER, pre.length + 1, 0, pre.length + 1,
             (l.takeWhile isIdentChar).length⟩ : Tok)
          = ⟨chunks, sumLens (pre.map Prod.fst), some .CODE, TERMINATES_CODE, seen⟩ := by
        unfold scanTok
        simp [hni]
      have hstep2 : scanTok OFS IL SRC
          ⟨chunks, sumLens (pre.map Prod.fst), some .CODE, TERMINATES_CODE, seen⟩
          (⟨.NEWLINE, pre.length + 1, l.length, pre.length + 1, l.length + 1⟩ : Tok)
          = ⟨chunks, sumLens (pre.map Prod.fst), some .CODE, TERMINATES_CODE, seen⟩ :=
        scanTok_stuck OFS IL SRC chunks (sumLens (pre.map Prod.fst)) seen _ (by simp)
      rw [hstep1, hstep2, hclose chunks seen]
      simp [partitionLines]

end RPI

namespace RPI

theorem classifyWordLine_isLF (l : PyStr) (k : LineKind) :
    classifyWordLine l = some k → isLFKind k = true := by
  unfold classifyWordLine
  intro h
  split at h
  · split at h
    · simp at h
    · split at h
      · cases hp : parseImport (l ++ ['\n']) with
        | none => rw [hp] at h; simp at h
        | some o => rw [hp] at h; simp at h; rw [← h]; rfl
      · split at h
        · simp at h; rw [← h]; rfl
        · simp at h
  · split at h
    · split at h
      · simp at h
      · split at h
        · simp at h; rw [← h]; rfl
        · simp at h
    · simp at h; rw [← h]; rfl

theorem classifyLF_isLF (l : PyStr) (k : LineKind) :
    classifyLF l = some k → isLFKind k = true := by
  unfold classifyLF
  intro h
  split at h
  · simp at h; rw [← h]; rfl
  · split at h
    · simp at h
    · split at h
      · simp at h; rw [← h]; rfl
      · split at h
        · simp at h
        · split at h
          · split at h
            · simp at h; rw [← h]; rfl
            · simp at h
          · split at h
            · exact classifyWordLine_isLF l k h
            · simp at h

theorem classifyLineLF_props (l : PyStr) (k : LineKind)
    (h : classifyLineLF l = some k) :
    classifyLine l = some k ∧ isLFKind k = true := by
  obtain ⟨hnb, hLF⟩ := classifyLineLF_elim l k h
  constructor
  · unfold classifyLine
    rw [if_neg (no_cr_of_no_oddBreak l hnb)]
    exact hLF
  · exact classifyLF_isLF l k hLF

/-- The partitioner on a modelled-class source: it succeeds (the
reconstruction assert holds) and produces the line-level reference
partition. -/
theorem partition_model_ok (lks : List (PyStr × LineKind))
    (hWF : ∀ lk ∈ lks, classifyLineLF lk.1 = some lk.2)
    (hnl : ∀ lk ∈ lks, ¬ '\n' ∈ lk.1) :
    partition_source miniAstF miniTokF (joinLines (lks.map Prod.fst))
      = .ok (partitionLines false lks) := by
  have hWFC : ∀ lk ∈ lks, classifyLine lk.1 = some lk.2 :=
    fun lk hm => (classifyLineLF_props _ _ (hWF lk hm)).1
  have hLF : ∀ lk ∈ lks, isLFKind lk.2 = true :=
    fun lk hm => (classifyLineLF_props _ _ (hWF lk hm)).2
  have hclass : classAll (joinLines (lks.map Prod.fst)) = some lks :=
    classAll_of_lines lks hWF hnl
  have hast : miniAstF (joinLines (lks.map Prod.fst)) = some (importRowsAux 1 lks) := by
    unfold miniAstF
    rw [hclass]
    rfl
  have htok : miniTokF (joinLines (lks.map Prod.fst))
      = some (tokensOf 1 lks
          ++ [(⟨.ENDMARKER, lks.length + 1, 0, lks.length + 1, 0⟩ : Tok)]) := by
    unfold miniTokF
    rw [hclass]
    rfl
  unfold partition_source
  rw [hast, htok]
  have hb := scan_bridge lks hWFC hnl hLF
    (fun lk hm => (classifyLineLF_elim _ _ (hWF lk hm)).1) lks [] (by simp) [] false
  simp only [List.length_nil, List.map_nil, Nat.zero_add, List.nil_append] at hb
  have hjoin := joinSrc_partitionLines lks false
  simp only []
  rw [show initScan = (⟨[], sumLens [], none, [], false⟩ : ScanState) from rfl]
  rw [hb, hjoin, if_pos rfl]

end RPI

namespace RPI

/-! ## Whitespace-stripping lemmas -/

theorem pyRstrip_append (a b : PyStr) :
    pyRstrip (a ++ b) = if pyRstrip b = [] then pyRstrip a else a ++ pyRstrip b := by
  unfold pyRstrip
  rw [List.reverse_append, List.dropWhile_append]
  by_cases hb : List.dropWhile isPyWs b.reverse = []
  · simp [hb]
  · simp [hb, List.isEmpty_iff]

theorem pyRstrip_eq_nil_iff (l : PyStr) :
    pyRstrip l = [] ↔ ∀ c ∈ l, isPyWs c = true := by
  unfold pyRstrip
  rw [List.reverse_eq_nil_iff, List.dropWhile_eq_nil_iff]
  constructor
  · intro h c hc
    exact h c (List.mem_reverse.2 hc)
  · intro h c hc
    exact h c (List.mem_reverse.1 hc)

theorem pyRstrip_singleton (c : Char) :
    pyRstrip [c] = if isPyWs c then [] else [c] := by
  unfold pyRstrip
  cases h : isPyWs c <;> simp [List.dropWhile_cons, h]

theorem pyRstrip_cons (c : Char) (x : PyStr) :
    pyRstrip (c :: x)
      = if pyRstrip x = [] then (if isPyWs c then [] else [c]) else c :: pyRstrip x := by
  have h := pyRstrip_append [c] x
  simp only [List.singleton_append] at h
  rw [h, pyRstrip_singleton]

theorem pyRstrip_decomp (l : PyStr) :
    l = pyRstrip l ++ (l.reverse.takeWhile isPyWs).reverse ∧
    ∀ c ∈ (l.reverse.takeWhile isPyWs).reverse, isPyWs c = true := by
  have h2 : l.reverse.takeWhile isPyWs ++ l.reverse.dropWhile isPyWs = l.reverse :=
    List.takeWhile_append_dropWhile isPyWs l.reverse
  have h3 := congrArg List.reverse h2
  rw [List.reverse_append, List.reverse_reverse] at h3
  exact ⟨h3.symm, fun c hc => List.mem_takeWhile_imp (List.mem_reverse.1 hc)⟩

theorem pyRstrip_eq_self (l : PyStr) (c : Char) (hw : l.getLast? = some c)
    (hc : isPyWs c = false) : pyRstrip l = l := by
  obtain ⟨t, rfl⟩ := List.getLast?_eq_some_iff.1 hw
  unfold pyRstrip
  rw [List.reverse_append]
  simp only [List.reverse_singleton, List.singleton_append, List.dropWhile_cons, hc]
  simp

theorem dropWhile_head_false (p : Char → Bool) : ∀ (l t : PyStr) (c : Char),
    l.dropWhile p = c :: t → p c = false := by
  intro l
  induction l with
  | nil => intro t c h; simp [List.dropWhile] at h
  | cons a r ih =>
    intro t c h
    rw [List.dropWhile_cons] at h
    by_cases hp : p a = true
    · rw [if_pos hp] at h; exact ih t c h
    · rw [if_neg hp] at h
      injection h with h1 h2
      rw [← h1]
      exact Bool.eq_false_iff.2 hp

theorem pyRstrip_getLast (l : PyStr) (h : pyRstrip l ≠ []) :
    ∃ c, (pyRstrip l).getLast? = some c ∧ isPyWs c = false := by
  unfold pyRstrip at h ⊢
  obtain ⟨c, t, hct⟩ : ∃ c t, l.reverse.dropWhile isPyWs = c :: t := by
    cases hd : l.reverse.dropWhile isPyWs with
    | nil => rw [hd] at h; simp at h
    | cons c t => exact ⟨c, t, rfl⟩
  refine ⟨c, ?_, dropWhile_head_false isPyWs l.reverse t c hct⟩
  rw [hct, List.getLast?_reverse]
  rfl

theorem pyRstrip_mem (l : PyStr) (c : Char) (h : c ∈ pyRstrip l) : c ∈ l := by
  have hd := (pyRstrip_decomp l).1
  rw [hd]
  exact List.mem_append_left _ h

theorem any_oddBreak_rstrip (l : PyStr) (h : l.any isOddBreak = false) :
    (pyRstrip l).any isOddBreak = false := by
  rw [List.any_eq_false] at h ⊢
  intro c hc
  exact h c (pyRstrip_mem l c hc)

theorem stripTrailAux_spec (rl : List PyStr) :
    (stripTrailAux rl = [] ∧ ∀ l ∈ rl, pyRstrip l = []) ∨
    (∃ a b t, rl = a ++ b :: t ∧ (∀ l ∈ a, pyRstrip l = []) ∧ pyRstrip b ≠ [] ∧
      stripTrailAux rl = pyRstrip b :: t) := by
  induction rl with
  | nil => exact Or.inl ⟨rfl, by intro l h; cases h⟩
  | cons l rest ih =>
    by_cases hl : pyRstrip l = []
    · rcases ih with ⟨h1, h2⟩ | ⟨a, b, t, h1, h2, h3, h4⟩
      · refine Or.inl ⟨?_, ?_⟩
        · simp only [stripTrailAux, if_pos hl]; exact h1
        · intro x hx
          rcases List.mem_cons.1 hx with rfl | hx
          · exact hl
          · exact h2 x hx
      · refine Or.inr ⟨l :: a, b, t, by rw [h1]; rfl, ?_, h3, ?_⟩
        · intro x hx
          rcases List.mem_cons.1 hx with rfl | hx
          · exact hl
          · exact h2 x hx
        · simp only [stripTrailAux, if_pos hl]; exact h4
    · refine Or.inr ⟨[], l, rest, rfl, ?_, hl, ?_⟩
      · intro x hx; cases hx
      · simp only [stripTrailAux, if_neg hl]

theorem joinLines_nil : joinLines [] = [] := rfl

theorem joinLines_singleton (l : PyStr) : joinLines [l] = l ++ ['\n'] := by
  simp [joinLines]

theorem stripTrail_concat (ls : List PyStr) (l : PyStr) :
    stripTrail (ls ++ [l])
      = if pyRstrip l = [] then stripTrail ls else ls ++ [pyRstrip l] := by
  unfold stripTrail
  rw [List.reverse_append]
  simp only [List.reverse_singleton, List.singleton_append, stripTrailAux]
  by_cases hl : pyRstrip l = [] <;> simp [hl]

theorem pyRstrip_joinLines (ls : List PyStr) :
    pyRstrip (joinLines ls) = (joinLines (stripTrail ls)).dropLast := by
  induction ls using List.reverseRecOn with
  | nil => rfl
  | append_singleton ls l ih =>
    have hln : pyRstrip (l ++ ['\n']) = pyRstrip l := by
      have h0 : pyRstrip (['\n'] : PyStr) = [] := by
        rw [pyRstrip_singleton, if_pos (show isPyWs '\n' = true by decide)]
      rw [pyRstrip_append, h0, if_pos rfl]
    rw [joinLines_append, joinLines_singleton, pyRstrip_append, hln, stripTrail_concat]
    by_cases hl : pyRstrip l = []
    · rw [if_pos hl, if_pos hl, ih]
    · rw [if_neg hl, if_neg hl, joinLines_append, joinLines_singleton,
        ← List.append_assoc, List.dropLast_concat]

theorem lstripNl_of_head (c : Char) (x rest : PyStr) (h : c ≠ '\n') :
    lstripNl ((c :: x) ++ rest) = (c :: x) ++ rest := by
  unfold lstripNl
  rw [List.cons_append, List.dropWhile_cons]
  simp [h]

end RPI

namespace RPI

/-! ## Bucket lemmas: the partitioner output filtered by region kind -/

theorem filter_pre_partitionLines_true (lks : List (PyStr × LineKind)) :
    (partitionLines true lks).filter (fun p => p.code_type = CodeType.PRE_IMPORT_CODE)
      = [] := by
  induction lks with
  | nil => rfl
  | cons lk rest ih =>
    obtain ⟨l, k⟩ := lk
    cases k <;> simp [partitionLines, ih]

theorem filter_pre_partitionLines (lks : List (PyStr × LineKind)) :
    (partitionLines false lks).filter (fun p => p.code_type = CodeType.PRE_IMPORT_CODE)
      = (preLK lks).map (fun lk => ⟨.PRE_IMPORT_CODE, lk.1 ++ ['\n']⟩) := by
  induction lks with
  | nil => rfl
  | cons lk rest ih =>
    obtain ⟨l, k⟩ := lk
    cases k <;> simp [partitionLines, preLK, ih, filter_pre_partitionLines_true]

theorem filter_imp_partitionLines : ∀ (lks : List (PyStr × LineKind)) (seen : Bool),
    (partitionLines seen lks).filter (fun p => p.code_type = CodeType.IMPORT)
      = (impLK seen lks).map (fun lo => ⟨.IMPORT, lo.1 ++ ['\n']⟩) := by
  intro lks
  induction lks with
  | nil => intro seen; rfl
  | cons lk rest ih =>
    intro seen
    obtain ⟨l, k⟩ := lk
    cases k <;> cases seen <;> simp [partitionLines, impLK, ih]

theorem joinSrc_filter_code : ∀ (lks : List (PyStr × LineKind)) (seen : Bool),
    joinSrc ((partitionLines seen lks).filter (fun p => p.code_type = CodeType.CODE))
      = joinLines ((codeLK seen lks).map Prod.fst) := by
  intro lks
  induction lks with
  | nil => intro seen; rfl
  | cons lk rest ih =>
    intro seen
    obtain ⟨l, k⟩ := lk
    have ih2 : ∀ z : Bool, (List.map CodePartition.src
        ((partitionLines z rest).filter (fun p => decide (p.code_type = CodeType.CODE)))).flatten
        = joinLines ((codeLK z rest).map Prod.fst) := by
      intro z
      simpa [joinSrc] using ih z
    cases k <;> cases seen <;>
      simp [partitionLines, codeLK, joinSrc, joinLines_cons, ih2]

theorem preLK_subset : ∀ (lks : List (PyStr × LineKind)) (x : PyStr × LineKind),
    x ∈ preLK lks → x ∈ lks := by
  intro lks
  induction lks with
  | nil => intro x h; cases h
  | cons lk rest ih =>
    intro x h
    obtain ⟨l, k⟩ := lk
    cases k <;> simp only [preLK] at h
    case blank => exact List.mem_cons_of_mem _ (ih x h)
    case comment =>
      rcases List.mem_cons.1 h with rfl | h2
      · exact List.mem_cons_self _ _
      · exact List.mem_cons_of_mem _ (ih x h2)
    case strLit =>
      rcases List.mem_cons.1 h with rfl | h2
      · exact List.mem_cons_self _ _
      · exact List.mem_cons_of_mem _ (ih x h2)
    all_goals cases h

theorem impLK_mem : ∀ (lks : List (PyStr × LineKind)) (seen : Bool) (lo : PyStr × ImportObj),
    lo ∈ impLK seen lks →
    (lo.1, LineKind.imp lo.2) ∈ lks ∨ (lo.1, LineKind.impC lo.2) ∈ lks := by
  intro lks
  induction lks with
  | nil => intro seen lo h; cases h
  | cons lk rest ih =>
    intro seen lo h
    obtain ⟨l, k⟩ := lk
    cases k <;> simp only [impLK] at h
    case blank =>
      rcases ih seen lo h with h2 | h2
      · exact Or.inl (List.mem_cons_of_mem _ h2)
      · exact Or.inr (List.mem_cons_of_mem _ h2)
    case comment =>
      rcases ih seen lo h with h2 | h2
      · exact Or.inl (List.mem_cons_of_mem _ h2)
      · exact Or.inr (List.mem_cons_of_mem _ h2)
    case strLit =>
      by_cases hs : seen = true
      · rw [if_pos hs] at h; cases h
      · rw [if_neg hs] at h
        rcases ih false lo h with h2 | h2
        · exact Or.inl (List.mem_cons_of_mem _ h2)
        · exact Or.inr (List.mem_cons_of_mem _ h2)
    case imp o =>
      rcases List.mem_cons.1 h with rfl | h2
      · exact Or.inl (List.mem_cons_self _ _)
      · rcases ih true lo h2 with h3 | h3
        · exact Or.inl (List.mem_cons_of_mem _ h3)
        · exact Or.inr (List.mem_cons_of_mem _ h3)
    case impC o =>
      rcases List.mem_cons.1 h with rfl | h2
      · exact Or.inr (List.mem_cons_self _ _)
      · rcases ih true lo h2 with h3 | h3
        · exact Or.inl (List.mem_cons_of_mem _ h3)
        · exact Or.inr (List.mem_cons_of_mem _ h3)
    case stmt => cases h
    case stmtC => cases h

theorem codeLK_subset : ∀ (lks : List (PyStr × LineKind)) (seen : Bool)
    (x : PyStr × LineKind), x ∈ codeLK seen lks → x ∈ lks := by
  intro lks
  induction lks with
  | nil => intro seen x h; cases h
  | cons lk rest ih =>
    intro seen x h
    obtain ⟨l, k⟩ := lk
    cases k <;> simp only [codeLK] at h
    case blank => exact List.mem_cons_of_mem _ (ih seen x h)
    case comment =>
      by_cases hs : seen = true
      · rw [if_pos hs] at h
        rcases List.mem_cons.1 h with rfl | h2
        · exact List.mem_cons_self _ _
        · exact List.mem_cons_of_mem _ (ih seen x h2)
      · rw [if_neg hs] at h
        exact List.mem_cons_of_mem _ (ih false x h)
    case strLit =>
      by_cases hs : seen = true
      · rw [if_pos hs] at h
        rcases List.mem_cons.1 h with rfl | h2
        · exact List.mem_cons_self _ _
        · exact List.mem_cons_of_mem _ h2
      · rw [if_neg hs] at h
        exact List.mem_cons_of_mem _ (ih false x h)
    case imp o => exact List.mem_cons_of_mem _ (ih true x h)
    case impC o => exact List.mem_cons_of_mem _ (ih true x h)
    case stmt =>
      rcases List.mem_cons.1 h with rfl | h2
      · exact List.mem_cons_self _ _
      · exact List.mem_cons_of_mem _ h2
    case stmtC =>
      rcases List.mem_cons.1 h with rfl | h2
      · exact List.mem_cons_self _ _
      · exact List.mem_cons_of_mem _ h2

theorem codeLK_shape_true : ∀ (lks : List (PyStr × LineKind)),
    (∀ x ∈ lks, isLFKind x.2 = true) →
    ∃ cmt sw, codeLK true lks = cmt ++ sw ∧ (∀ x ∈ cmt, x.2 = LineKind.comment) ∧
      (sw = [] ∨ ∃ h t, sw = h :: t ∧ isSwallowKind h.2 = true) := by
  intro lks
  induction lks with
  | nil => intro _; exact ⟨[], [], rfl, fun x h => absurd h (List.not_mem_nil x), Or.inl rfl⟩
  | cons lk rest ih =>
    intro hLF
    have hrest : ∀ x ∈ rest, isLFKind x.2 = true :=
      fun x hx => hLF x (List.mem_cons_of_mem _ hx)
    obtain ⟨l, k⟩ := lk
    cases k
    case blank => exact ih hrest
    case comment =>
      obtain ⟨cmt, sw, h1, h2, h3⟩ := ih hrest
      refine ⟨(l, .comment) :: cmt, sw, ?_, ?_, h3⟩
      · rw [show codeLK true ((l, .comment) :: rest)
            = (l, .comment) :: codeLK true rest from rfl, h1]
        rfl
      · intro x hx
        rcases List.mem_cons.1 hx with rfl | hx
        · rfl
        · exact h2 x hx
    case strLit =>
      exact ⟨[], (l, .strLit) :: rest, rfl,
        fun x h => absurd h (List.not_mem_nil x),
        Or.inr ⟨(l, .strLit), rest, rfl, rfl⟩⟩
    case imp o => exact ih hrest
    case impC o => exact ih hrest
    case stmt =>
      exact ⟨[], (l, .stmt) :: rest, rfl,
        fun x h => absurd h (List.not_mem_nil x),
        Or.inr ⟨(l, .stmt), rest, rfl, rfl⟩⟩
    case stmtC =>
      exact absurd (hLF (l, .stmtC) (List.mem_cons_self _ _)) (by simp [isLFKind])

theorem codeLK_shape_false : ∀ (lks : List (PyStr × LineKind)),
    (∀ x ∈ lks, isLFKind x.2 = true) →
    (impLK false lks = [] ∧ (codeLK false lks = [] ∨
        ∃ h t, codeLK false lks = h :: t ∧ h.2 = LineKind.stmt)) ∨
    (impLK false lks ≠ [] ∧ ∃ cmt sw, codeLK false lks = cmt ++ sw ∧
        (∀ x ∈ cmt, x.2 = LineKind.comment) ∧
        (sw = [] ∨ ∃ h t, sw = h :: t ∧ isSwallowKind h.2 = true)) := by
  intro lks
  induction lks with
  | nil => intro _; exact Or.inl ⟨rfl, Or.inl rfl⟩
  | cons lk rest ih =>
    intro hLF
    have hrest : ∀ x ∈ rest, isLFKind x.2 = true :=
      fun x hx => hLF x (List.mem_cons_of_mem _ hx)
    obtain ⟨l, k⟩ := lk
    cases k
    case blank => exact ih hrest
    case comment => exact ih hrest
    case strLit => exact ih hrest
    case imp o =>
      refine Or.inr ⟨List.cons_ne_nil (l, o) (impLK true rest), ?_⟩
      exact codeLK_shape_true rest hrest
    case impC o =>
      exact absurd (hLF (l, .impC o) (List.mem_cons_self _ _)) (by simp [isLFKind])
    case stmt =>
      exact Or.inl ⟨rfl, Or.inr ⟨(l, .stmt), rest, rfl, rfl⟩⟩
    case stmtC =>
      exact absurd (hLF (l, .stmtC) (List.mem_cons_self _ _)) (by simp [isLFKind])

end RPI

namespace RPI

/-! ## Bucket lemmas for the comma-splitting and de-duplication passes -/

theorem sepSpec_of_ne_import {J : Type} [DecidableEq J] (api : AspyApi J)
    (p : CodePartition) (hp : p.code_type ≠ .IMPORT) : sepSpec api p = [p] := by
  unfold sepSpec
  rw [if_neg hp]

theorem sepSpec_mem_import {J : Type} [DecidableEq J] (api : AspyApi J)
    (p : CodePartition) (hp : p.code_type = .IMPORT) :
    ∀ q ∈ sepSpec api p, q.code_type = .IMPORT := by
  intro q hq
  unfold sepSpec at hq
  rw [if_pos hp] at hq
  cases hobj : api.import_obj_from_str p.src with
  | none =>
    rw [hobj] at hq
    rcases List.mem_singleton.1 hq with rfl
    exact hp
  | some o =>
    rw [hobj] at hq
    have hq2 : q ∈ (if api.has_multiple_imports o = true then
        (api.split_imports o).map (fun o2 => (⟨.IMPORT, api.to_text o2⟩ : CodePartition))
      else [p]) := hq
    by_cases hm : api.has_multiple_imports o = true
    · rw [if_pos hm] at hq2
      obtain ⟨o2, _, rfl⟩ := List.mem_map.1 hq2
      rfl
    · rw [if_neg hm] at hq2
      rcases List.mem_singleton.1 hq2 with rfl
      exact hp

theorem sepFlat_filter_ne_import {J : Type} [DecidableEq J] (api : AspyApi J)
    (c : CodeType) (hc : c ≠ .IMPORT) : ∀ ps : List CodePartition,
    ((ps.map (sepSpec api)).flatten).filter (fun p => p.code_type = c)
      = ps.filter (fun p => p.code_type = c) := by
  intro ps
  induction ps with
  | nil => rfl
  | cons p rest ih =>
    rw [List.map_cons, List.flatten_cons, List.filter_append, ih]
    by_cases hp : p.code_type = .IMPORT
    · have h1 : (sepSpec api p).filter (fun q => decide (q.code_type = c)) = [] := by
        rw [List.filter_eq_nil_iff]
        intro q hq
        rw [decide_eq_true_eq, sepSpec_mem_import api p hp q hq]
        exact fun hcc => hc hcc.symm
      have hpc : ¬ (p.code_type = c) := by
        rw [hp]
        exact fun hcc => hc hcc.symm
      simp [h1, List.filter_cons, hpc]
    · rw [sepSpec_of_ne_import api p hp]
      by_cases hpc2 : p.code_type = c <;> simp [List.filter_cons, hpc2]

theorem sepFlat_filter_import {J : Type} [DecidableEq J] (api : AspyApi J) :
    ∀ ps : List CodePartition,
    ((ps.map (sepSpec api)).flatten).filter (fun p => p.code_type = .IMPORT)
      = (((ps.filter (fun p => p.code_type = .IMPORT)).map (sepSpec api)).flatten) := by
  intro ps
  induction ps with
  | nil => rfl
  | cons p rest ih =>
    rw [List.map_cons, List.flatten_cons, List.filter_append, ih]
    by_cases hp : p.code_type = .IMPORT
    · have h1 : (sepSpec api p).filter (fun q => decide (q.code_type = .IMPORT))
          = sepSpec api p := by
        rw [List.filter_eq_self]
        intro q hq
        rw [decide_eq_true_eq]
        exact sepSpec_mem_import api p hp q hq
      simp [h1, List.filter_cons, hp]
    · rw [sepSpec_of_ne_import api p hp]
      simp [List.filter_cons, hp]

theorem dedupSpec_subset {J : Type} [DecidableEq J] (api : AspyApi J) :
    ∀ (ps : List CodePartition) (seen : List J) (q : CodePartition),
    q ∈ dedupSpec api seen ps → q ∈ ps := by
  intro ps
  induction ps with
  | nil => intro seen q h; cases h
  | cons p rest ih =>
    intro seen q h
    unfold dedupSpec at h
    by_cases hp : p.code_type = .IMPORT
    · rw [if_pos hp] at h
      cases hobj : api.import_obj_from_str p.src with
      | none =>
        rw [hobj] at h
        exact List.mem_cons_of_mem _ (ih seen q h)
      | some o =>
        rw [hobj] at h
        have h2 : q ∈ (if o ∈ seen then dedupSpec api seen rest
            else p :: dedupSpec api (o :: seen) rest) := h
        by_cases hs : o ∈ seen
        · rw [if_pos hs] at h2
          exact List.mem_cons_of_mem _ (ih seen q h2)
        · rw [if_neg hs] at h2
          rcases List.mem_cons.1 h2 with rfl | h3
          · exact List.mem_cons_self _ _
          · exact List.mem_cons_of_mem _ (ih _ q h3)
    · rw [if_neg hp] at h
      rcases List.mem_cons.1 h with rfl | h2
      · exact List.mem_cons_self _ _
      · exact List.mem_cons_of_mem _ (ih seen q h2)

theorem dedupSpec_filter_ne_import {J : Type} [DecidableEq J] (api : AspyApi J)
    (c : CodeType) (hc : c ≠ .IMPORT) : ∀ (ps : List CodePartition) (seen : List J),
    (dedupSpec api seen ps).filter (fun p => p.code_type = c)
      = ps.filter (fun p => p.code_type = c) := by
  intro ps
  induction ps with
  | nil => intro seen; rfl
  | cons p rest ih =>
    intro seen
    unfold dedupSpec
    by_cases hp : p.code_type = .IMPORT
    · have hpc : ¬ (p.code_type = c) := by
        rw [hp]
        exact fun hcc => hc hcc.symm
      rw [if_pos hp]
      cases hobj : api.import_obj_from_str p.src with
      | none => simp [ih, List.filter_cons, hpc]
      | some o =>
        by_cases hs : o ∈ seen
        · simp [hs, ih, List.filter_cons, hpc]
        · simp [hs, ih, List.filter_cons, hpc]
    · rw [if_neg hp]
      simp [ih, List.filter_cons]

theorem dedupSpec_filter_import {J : Type} [DecidableEq J] (api : AspyApi J) :
    ∀ (ps : List CodePartition) (seen : List J),
    (dedupSpec api seen ps).filter (fun p => p.code_type = .IMPORT)
      = dedupSpec api seen (ps.filter (fun p => p.code_type = .IMPORT)) := by
  intro ps
  induction ps with
  | nil => intro seen; rfl
  | cons p rest ih =>
    intro seen
    by_cases hp : p.code_type = .IMPORT
    · have e2 : (p :: rest).filter (fun q => q.code_type = .IMPORT)
          = p :: rest.filter (fun q => q.code_type = .IMPORT) := by
        simp [List.filter_cons, hp]
      cases hobj : api.import_obj_from_str p.src with
      | none =>
        have e1 : dedupSpec api seen (p :: rest) = dedupSpec api seen rest := by
          conv_lhs => unfold dedupSpec
          rw [if_pos hp, hobj]
        have e3 : dedupSpec api seen (p :: rest.filter (fun q => q.code_type = .IMPORT))
            = dedupSpec api seen (rest.filter (fun q => q.code_type = .IMPORT)) := by
          conv_lhs => unfold dedupSpec
          rw [if_pos hp, hobj]
        rw [e1, e2, e3, ih]
      | some o =>
        have e1 : dedupSpec api seen (p :: rest)
            = if o ∈ seen then dedupSpec api seen rest
              else p :: dedupSpec api (o :: seen) rest := by
          conv_lhs => unfold dedupSpec
          rw [if_pos hp, hobj]
        have e3 : dedupSpec api seen (p :: rest.filter (fun q => q.code_type = .IMPORT))
            = if o ∈ seen then dedupSpec api seen (rest.filter (fun q => q.code_type = .IMPORT))
              else p :: dedupSpec api (o :: seen) (rest.filter (fun q => q.code_type = .IMPORT)) := by
          conv_lhs => unfold dedupSpec
          rw [if_pos hp, hobj]
        rw [e1, e2, e3]
        by_cases hs : o ∈ seen
        · rw [if_pos hs, if_pos hs, ih]
        · rw [if_neg hs, if_neg hs]
          simp only [List.filter_cons, decide_eq_true_eq, if_pos hp, ih]
    · have e1 : dedupSpec api seen (p :: rest) = p :: dedupSpec api seen rest := by
        conv_lhs => unfold dedupSpec
        rw [if_neg hp]
      have e2 : (p :: rest).filter (fun q => q.code_type = .IMPORT)
          = rest.filter (fun q => q.code_type = .IMPORT) := by
        simp [List.filter_cons, hp]
      rw [e1, e2, ← ih]
      simp [List.filter_cons, hp]

end RPI

namespace RPI

/-! ## Characterization of the modelled import parser -/

theorem splitCommaAux_ne_nil : ∀ (s acc : PyStr), splitCommaAux s acc ≠ [] := by
  intro s
  induction s with
  | nil => intro acc h; simp [splitCommaAux] at h
  | cons c rest ih =>
    intro acc
    unfold splitCommaAux
    by_cases hc : c = ','
    · rw [if_pos hc]
      exact List.cons_ne_nil _ _
    · rw [if_neg hc]
      exact ih _

theorem parseImport_unfold (s : PyStr) :
    parseImport s =
      (if List.isPrefixOf ("import ".toList) s then
        match (s.drop 7).getLast? with
        | some '\n' =>
          if '\n' ∈ (s.drop 7).dropLast ∨ '\r' ∈ (s.drop 7).dropLast then none
          else
            if ((splitComma ((s.drop 7).dropLast)).map trimSpaces).all validName
            then some ⟨(splitComma ((s.drop 7).dropLast)).map trimSpaces⟩ else none
        | _ => none
      else none) := rfl

theorem parseImport_eq_some (s : PyStr) (o : ImportObj) :
    parseImport s = some o ↔
    ∃ b, s = ("import ".toList) ++ b ++ ['\n'] ∧ ¬ '\n' ∈ b ∧ ¬ '\r' ∈ b ∧
      o.names = (splitComma b).map trimSpaces ∧
      ((splitComma b).map trimSpaces).all validName = true := by
  constructor
  · intro h
    rw [parseImport_unfold] at h
    by_cases hpre : List.isPrefixOf ("import ".toList) s
    case neg => rw [if_neg hpre] at h; cases h
    rw [if_pos hpre] at h
    split at h
    case _ =>
      rename_i heq
      split at h
      case isTrue => cases h
      case isFalse hni =>
        split at h
        case isFalse => cases h
        case isTrue hall =>
          injection h with ho
          obtain ⟨t, hs⟩ := List.isPrefixOf_iff_prefix.1 hpre
          obtain ⟨ys, hys⟩ := List.getLast?_eq_some_iff.1 heq
          refine ⟨(s.drop 7).dropLast, ?_, ?_, ?_, ?_, ?_⟩
          · have hdrop : s.drop 7 = t := by
              rw [← hs, show (7:Nat) = ("import ".toList).length from rfl,
                List.drop_left]
            have hyst : t = ys ++ ['\n'] := by rw [← hdrop, hys]
            rw [hdrop, hyst, List.dropLast_concat, ← hs, hyst, List.append_assoc]
          · intro hmem
            exact hni (Or.inl hmem)
          · intro hmem
            exact hni (Or.inr hmem)
          · rw [← ho]
          · exact hall
    case _ => cases h
  · rintro ⟨b, rfl, hnb, hrb, hob, hall⟩
    have hpre : List.isPrefixOf ("import ".toList) (("import ".toList) ++ b ++ ['\n'])
        = true := by
      rw [List.isPrefixOf_iff_prefix, List.append_assoc]
      exact ⟨b ++ ['\n'], rfl⟩
    have hdrop : (("import ".toList) ++ b ++ ['\n']).drop 7 = b ++ ['\n'] := by
      rw [List.append_assoc, show (7:Nat) = ("import ".toList).length from rfl,
        List.drop_left]
    rw [parseImport_unfold, if_pos hpre, hdrop, List.getLast?_concat]
    show (if '\n' ∈ (b ++ ['\n']).dropLast ∨ '\r' ∈ (b ++ ['\n']).dropLast then none
          else
            if ((splitComma ((b ++ ['\n']).dropLast)).map trimSpaces).all validName
            then some (⟨(splitComma ((b ++ ['\n']).dropLast)).map trimSpaces⟩ : ImportObj)
            else none) = some o
    rw [List.dropLast_concat, if_neg (fun hor => Or.elim hor hnb hrb), if_pos hall, ← hob]

theorem parseImport_valid (s : PyStr) (o : ImportObj) (h : parseImport s = some o) :
    o.names ≠ [] ∧ ∀ n ∈ o.names, validName n = true := by
  obtain ⟨b, _, _, _, hob, hall⟩ := (parseImport_eq_some s o).1 h
  constructor
  · rw [hob]
    intro hcon
    exact splitCommaAux_ne_nil b [] (List.map_eq_nil_iff.1 hcon)
  · intro n hn
    rw [hob] at hn
    exact List.all_eq_true.1 hall n hn

end RPI

namespace RPI

/-! ## Space-stripping facts about the import parser -/

theorem trimSpaces_append_space (x : PyStr) : trimSpaces (x ++ [' ']) = trimSpaces x := by
  unfold trimSpaces
  rw [List.dropWhile_append]
  by_cases hx : (List.dropWhile (fun c => decide (c = ' ')) x).isEmpty = true
  · rw [if_pos hx]
    rw [List.isEmpty_iff] at hx
    rw [hx]
    simp [List.dropWhile_cons]
  · rw [if_neg hx]
    rw [List.reverse_append]
    simp only [List.reverse_singleton, List.singleton_append, List.dropWhile_cons]
    simp

theorem trimSpaces_cons_space (x : PyStr) : trimSpaces (' ' :: x) = trimSpaces x := by
  unfold trimSpaces
  rw [List.dropWhile_cons]
  simp

theorem dropWhile_space_eq_self (x : PyStr) (h : ∀ c ∈ x, c ≠ ' ') :
    x.dropWhile (fun c => decide (c = ' ')) = x := by
  cases x with
  | nil => rfl
  | cons c t =>
    have hne : ¬ ((fun c => decide (c = ' ')) c = true) := by
      simp only [decide_eq_true_eq]
      exact h c (List.mem_cons_self c t)
    rw [List.dropWhile_cons, if_neg hne]

theorem trimSpaces_eq_self (x : PyStr) (h : ∀ c ∈ x, c ≠ ' ') : trimSpaces x = x := by
  unfold trimSpaces
  rw [dropWhile_space_eq_self x h,
    dropWhile_space_eq_self x.reverse (fun c hc => h c (List.mem_reverse.1 hc)),
    List.reverse_reverse]

theorem splitCommaAux_acc : ∀ s : PyStr, ∃ seg rest,
    ∀ acc : PyStr, splitCommaAux s acc = (acc.reverse ++ seg) :: rest := by
  intro s
  induction s with
  | nil => exact ⟨[], [], fun acc => by simp [splitCommaAux]⟩
  | cons c r ih =>
    by_cases hc : c = ','
    · subst hc
      refine ⟨[], splitCommaAux r [], fun acc => ?_⟩
      conv_lhs => unfold splitCommaAux
      rw [if_pos rfl]
      simp
    · obtain ⟨seg, rest, hsr⟩ := ih
      refine ⟨c :: seg, rest, fun acc => ?_⟩
      conv_lhs => unfold splitCommaAux
      rw [if_neg hc, hsr (c :: acc)]
      simp

theorem splitComma_space (b : PyStr) :
    (splitComma (b ++ [' '])).map trimSpaces = (splitComma b).map trimSpaces := by
  suffices h : ∀ (s acc : PyStr), (splitCommaAux (s ++ [' ']) acc).map trimSpaces
      = (splitCommaAux s acc).map trimSpaces from h b []
  intro s
  induction s with
  | nil =>
    intro acc
    show (splitCommaAux (' ' :: []) acc).map trimSpaces = _
    unfold splitCommaAux
    rw [if_neg (by decide : ¬ (' ' = ','))]
    unfold splitCommaAux
    simp [trimSpaces_append_space]
  | cons c r ih =>
    intro acc
    show (splitCommaAux (c :: (r ++ [' '])) acc).map trimSpaces = _
    unfold splitCommaAux
    by_cases hc : c = ','
    · rw [if_pos hc, if_pos hc]
      simp [ih []]
    · rw [if_neg hc, if_neg hc]
      exact ih (c :: acc)

theorem parseImport_drop_space (x : PyStr) (o : ImportObj)
    (h : parseImport (x ++ [' '] ++ ['\n']) = some o) :
    parseImport (x ++ ['\n']) = some o := by
  obtain ⟨b, heq, hnb, hrb, hob, hall⟩ := (parseImport_eq_some _ o).1 h
  have hxb : x ++ [' '] = ("import ".toList) ++ b :=
    List.append_cancel_right heq
  rcases List.eq_nil_or_concat b with rfl | ⟨b2, c, hb⟩
  · exact absurd hall (by decide)
  · rw [List.concat_eq_append] at hb
    subst hb
    rw [← List.append_assoc] at hxb
    have hlast := congrArg List.getLast? hxb
    rw [List.getLast?_concat, List.getLast?_concat] at hlast
    injection hlast with hc
    subst hc
    have hx2 : x = ("import ".toList) ++ b2 := List.append_cancel_right hxb
    apply (parseImport_eq_some _ o).2
    refine ⟨b2, by rw [hx2], ?_, ?_, ?_, ?_⟩
    · intro hm
      exact hnb (List.mem_append_left _ hm)
    · intro hm
      exact hrb (List.mem_append_left _ hm)
    · rw [hob, splitComma_space]
    · rw [← splitComma_space]
      exact hall

theorem parseImport_drop_spaces : ∀ (w x : PyStr) (o : ImportObj),
    (∀ c ∈ w, c = ' ') → parseImport (x ++ w ++ ['\n']) = some o →
    parseImport (x ++ ['\n']) = some o := by
  intro w
  induction w using List.reverseRecOn with
  | nil => intro x o _ h; simpa using h
  | append_singleton w c ihw =>
    intro x o hw h
    have hc : c = ' ' := hw c (by simp)
    subst hc
    have h2 : parseImport ((x ++ w) ++ [' '] ++ ['\n']) = some o := by
      rw [List.append_assoc x w [' ']]
      exact h
    exact ihw x o (fun d hd => hw d (by simp [hd]))
      (parseImport_drop_space (x ++ w) o h2)

end RPI

namespace RPI

/-! ## Parsing the canonical rendering back -/

theorem splitCommaAux_commafree : ∀ (x r acc : PyStr), (∀ c ∈ x, c ≠ ',') →
    splitCommaAux (x ++ r) acc = splitCommaAux r (x.reverse ++ acc) := by
  intro x
  induction x with
  | nil => intro r acc _; simp
  | cons c t ih =>
    intro r acc h
    have hc : c ≠ ',' := h c (List.mem_cons_self c t)
    show splitCommaAux (c :: (t ++ r)) acc = _
    conv_lhs => unfold splitCommaAux
    rw [if_neg hc, ih r (c :: acc) (fun d hd => h d (List.mem_cons_of_mem c hd))]
    simp

theorem intercalate_cons2 (x y : List Char) (zs : List (List Char)) :
    List.intercalate (", ".toList) (x :: y :: zs)
      = x ++ (", ".toList) ++ List.intercalate (", ".toList) (y :: zs) := by
  unfold List.intercalate
  simp [List.intersperse]

theorem intercalate_singleton2 (x : List Char) :
    List.intercalate (", ".toList) [x] = x := by
  simp [List.intercalate]

theorem mem_intercalate_commasp : ∀ (ns : List PyStr) (c : Char),
    c ∈ List.intercalate (", ".toList) ns →
    c = ',' ∨ c = ' ' ∨ ∃ m ∈ ns, c ∈ m := by
  intro ns
  induction ns with
  | nil =>
    intro c hc
    simp [List.intercalate] at hc
  | cons n rest ih =>
    intro c hc
    cases rest with
    | nil =>
      rw [intercalate_singleton2] at hc
      exact Or.inr (Or.inr ⟨n, List.mem_singleton.2 rfl, hc⟩)
    | cons m rest2 =>
      rw [intercalate_cons2] at hc
      rcases List.mem_append.1 hc with h1 | h1
      · rcases List.mem_append.1 h1 with h2 | h2
        · exact Or.inr (Or.inr ⟨n, List.mem_cons_self _ _, h2⟩)
        · rcases List.mem_cons.1 h2 with rfl | h3
          · exact Or.inl rfl
          · rcases List.mem_singleton.1 h3 with rfl
            exact Or.inr (Or.inl rfl)
      · rcases ih c h1 with h2 | h2 | ⟨m2, hm2, hcm⟩
        · exact Or.inl h2
        · exact Or.inr (Or.inl h2)
        · exact Or.inr (Or.inr ⟨m2, List.mem_cons_of_mem _ hm2, hcm⟩)

theorem isNameChar_ne (c : Char) (h : isNameChar c = true) :
    c ≠ ',' ∧ c ≠ ' ' ∧ c ≠ '\n' ∧ c ≠ '\r' := by
  refine ⟨?_, ?_, ?_, ?_⟩ <;>
    · intro hc
      subst hc
      exact absurd h (by decide)

theorem validName_chars (n : PyStr) (h : validName n = true) :
    ∀ c ∈ n, isNameChar c = true := by
  unfold validName at h
  intro c hc
  exact List.all_eq_true.1 (Bool.and_elim_right h) c hc

theorem splitComma_intercalate : ∀ (ns : List PyStr) (n : PyStr),
    (∀ c ∈ n, c ≠ ',') → (∀ m ∈ ns, ∀ c ∈ m, c ≠ ',') →
    (splitComma (List.intercalate (", ".toList) (n :: ns))).map trimSpaces
      = ((n :: ns).map trimSpaces) := by
  intro ns
  induction ns with
  | nil =>
    intro n hn _
    rw [intercalate_singleton2]
    have h2 := splitCommaAux_commafree n [] [] hn
    rw [List.append_nil] at h2
    show (splitCommaAux n []).map trimSpaces = _
    rw [h2]
    simp [splitCommaAux]
  | cons m rest ih =>
    intro n hn hm
    rw [intercalate_cons2]
    show (splitCommaAux ((n ++ (", ".toList)) ++ List.intercalate (", ".toList) (m :: rest)) []).map
        trimSpaces = _
    rw [List.append_assoc,
      splitCommaAux_commafree n ((", ".toList) ++ List.intercalate (", ".toList) (m :: rest)) [] hn]
    show (splitCommaAux (',' :: (' ' :: List.intercalate (", ".toList) (m :: rest)))
        (n.reverse ++ [])).map trimSpaces = _
    conv_lhs => unfold splitCommaAux
    rw [if_pos rfl]
    conv_lhs => unfold splitCommaAux
    rw [if_neg (by decide : ¬ (' ' = ','))]
    obtain ⟨seg, rest2, hsr⟩ := splitCommaAux_acc (List.intercalate (", ".toList) (m :: rest))
    rw [hsr [' '], List.map_cons, List.map_cons]
    have hih := ih m (fun c hc => hm m (List.mem_cons_self _ _) c hc)
      (fun m2 hm2 c hc => hm m2 (List.mem_cons_of_mem _ hm2) c hc)
    rw [show splitComma (List.intercalate (", ".toList) (m :: rest))
        = splitCommaAux (List.intercalate (", ".toList) (m :: rest)) [] from rfl, hsr []] at hih
    simp only [List.map_cons, List.reverse_nil, List.nil_append] at hih
    simp only [List.reverse_singleton, List.singleton_append, trimSpaces_cons_space,
      List.append_nil, List.reverse_reverse, List.map_cons]
    rw [hih]

end RPI

namespace RPI

/-! ## The rendered import text parses back to the same identity -/

theorem parseImport_render (ns : List PyStr) (h1 : ns ≠ [])
    (h2 : ∀ n ∈ ns, validName n = true) :
    parseImport (renderImport ns) = some ⟨ns⟩ := by
  cases ns with
  | nil => exact absurd rfl h1
  | cons n ns2 =>
    apply (parseImport_eq_some _ _).2
    have hcf : ∀ m ∈ n :: ns2, ∀ c ∈ m, c ≠ ',' := fun m hm c hc =>
      (isNameChar_ne c (validName_chars m (h2 m hm) c hc)).1
    have hsplit := splitComma_intercalate ns2 n (hcf n (List.mem_cons_self _ _))
      (fun m hm => hcf m (List.mem_cons_of_mem _ hm))
    have hmapid : (n :: ns2).map trimSpaces = n :: ns2 := by
      rw [show (n :: ns2).map trimSpaces = (n :: ns2).map id from
        List.map_congr_left (fun m hm => trimSpaces_eq_self m
          (fun c hc => (isNameChar_ne c (validName_chars m (h2 m hm) c hc)).2.1)),
        List.map_id]
    refine ⟨List.intercalate (", ".toList) (n :: ns2), rfl, ?_, ?_, ?_, ?_⟩
    · intro hmem
      rcases mem_intercalate_commasp _ _ hmem with h3 | h3 | ⟨m, hm, hcm⟩
      · exact absurd h3 (by decide)
      · exact absurd h3 (by decide)
      · exact (isNameChar_ne _ (validName_chars m (h2 m hm) _ hcm)).2.2.1 rfl
    · intro hmem
      rcases mem_intercalate_commasp _ _ hmem with h3 | h3 | ⟨m, hm, hcm⟩
      · exact absurd h3 (by decide)
      · exact absurd h3 (by decide)
      · exact (isNameChar_ne _ (validName_chars m (h2 m hm) _ hcm)).2.2.2 rfl
    · rw [hsplit, hmapid]
    · rw [hsplit, hmapid]
      exact List.all_eq_true.2 h2

theorem classifyWordLine_imp (l : PyStr) (o : ImportObj)
    (h : classifyWordLine l = some (LineKind.imp o)) :
    parseImport (l ++ ['\n']) = some o := by
  unfold classifyWordLine at h
  split at h
  · split at h
    · simp at h
    · split at h
      · cases hp : parseImport (l ++ ['\n']) with
        | none => rw [hp] at h; simp at h
        | some o2 => rw [hp] at h; simp at h; exact congrArg some h
      · split at h
        · simp at h
        · simp at h
  · split at h
    · split at h
      · simp at h
      · split at h
        · simp at h
        · simp at h
    · simp at h

theorem classify_imp_parse (l : PyStr) (o : ImportObj)
    (h : classifyLineLF l = some (LineKind.imp o)) :
    parseImport (l ++ ['\n']) = some o := by
  have h := (classifyLineLF_elim l _ h).2
  unfold classifyLF at h
  split at h
  · simp at h
  · split at h
    · simp at h
    · split at h
      · simp at h
      · split at h
        · simp at h
        · split at h
          · split at h
            · simp at h
            · simp at h
          · split at h
            · exact classifyWordLine_imp l o h
            · simp at h

theorem classify_nonblank_ne_nil (l : PyStr) (k : LineKind)
    (h : classifyLineLF l = some k) (hk : k ≠ LineKind.blank) : l ≠ [] := by
  intro hl
  subst hl
  rw [show classifyLineLF ([] : PyStr) = some LineKind.blank from rfl] at h
  injection h with h2
  exact hk h2.symm

end RPI

namespace RPI

/-! ## Dictionary lemmas -/

theorem dictInsert_keys {J : Type} [DecidableEq J] (d : List (J × CodePartition))
    (k : J) (v : CodePartition) :
    (dictInsert d k v).map Prod.fst
      = if d.any (fun kv => kv.1 = k) then d.map Prod.fst
        else d.map Prod.fst ++ [k] := by
  unfold dictInsert
  by_cases hk : d.any (fun kv => decide (kv.1 = k)) = true
  · rw [if_pos hk, if_pos hk, List.map_map]
    apply List.map_congr_left
    intro kv _
    by_cases h2 : kv.1 = k
    · simp [h2]
    · simp [h2]
  · rw [if_neg hk, if_neg hk, List.map_append]
    rfl

theorem dictInsert_keys_nodup {J : Type} [DecidableEq J] (d : List (J × CodePartition))
    (k : J) (v : CodePartition) (h : (d.map Prod.fst).Nodup) :
    ((dictInsert d k v).map Prod.fst).Nodup := by
  rw [dictInsert_keys]
  by_cases hk : d.any (fun kv => decide (kv.1 = k)) = true
  · rw [if_pos hk]; exact h
  · rw [if_neg hk]
    have hnk : k ∉ d.map Prod.fst := by
      intro hmem
      obtain ⟨kv, hkv, hfst⟩ := List.mem_map.1 hmem
      exact hk (List.any_eq_true.2 ⟨kv, hkv, by simp [hfst]⟩)
    rw [List.nodup_append]
    exact ⟨h, List.nodup_singleton k, fun a ha hb => by
      rcases List.mem_singleton.1 hb with rfl
      exact hnk ha⟩

theorem dictOfPairs_aux_keys_nodup {J : Type} [DecidableEq J] :
    ∀ (pairs d : List (J × CodePartition)), ((d.map Prod.fst).Nodup) →
    ((pairs.foldl (fun d2 kv => dictInsert d2 kv.1 kv.2) d).map Prod.fst).Nodup := by
  intro pairs
  induction pairs with
  | nil => intro d h; exact h
  | cons kv rest ih =>
    intro d h
    exact ih _ (dictInsert_keys_nodup d kv.1 kv.2 h)

theorem dictOfPairs_keys_nodup {J : Type} [DecidableEq J]
    (pairs : List (J × CodePartition)) : ((dictOfPairs pairs).map Prod.fst).Nodup :=
  dictOfPairs_aux_keys_nodup pairs [] List.nodup_nil

theorem dictInsert_mem {J : Type} [DecidableEq J] (d : List (J × CodePartition))
    (k : J) (v : CodePartition) (x : J × CodePartition) (h : x ∈ dictInsert d k v) :
    x ∈ d ∨ x = (k, v) := by
  unfold dictInsert at h
  by_cases hk : d.any (fun kv => decide (kv.1 = k)) = true
  · rw [if_pos hk] at h
    obtain ⟨kv, hkv, hx⟩ := List.mem_map.1 h
    by_cases h2 : kv.1 = k
    · rw [if_pos h2] at hx
      exact Or.inr hx.symm
    · rw [if_neg h2] at hx
      exact Or.inl (hx ▸ hkv)
  · rw [if_neg hk] at h
    rcases List.mem_append.1 h with h1 | h1
    · exact Or.inl h1
    · exact Or.inr (List.mem_singleton.1 h1)

theorem dictOfPairs_aux_mem {J : Type} [DecidableEq J] :
    ∀ (pairs d : List (J × CodePartition)) (x : J × CodePartition),
    x ∈ pairs.foldl (fun d2 kv => dictInsert d2 kv.1 kv.2) d → x ∈ d ∨ x ∈ pairs := by
  intro pairs
  induction pairs with
  | nil => intro d x h; exact Or.inl h
  | cons kv rest ih =>
    intro d x h
    rcases ih (dictInsert d kv.1 kv.2) x h with h1 | h1
    · rcases dictInsert_mem d kv.1 kv.2 x h1 with h2 | h2
      · exact Or.inl h2
      · refine Or.inr (List.mem_cons.2 (Or.inl ?_))
        rw [h2, Prod.mk.eta]
    · exact Or.inr (List.mem_cons_of_mem _ h1)

theorem dictOfPairs_mem {J : Type} [DecidableEq J] (pairs : List (J × CodePartition))
    (x : J × CodePartition) (h : x ∈ dictOfPairs pairs) : x ∈ pairs := by
  rcases dictOfPairs_aux_mem pairs [] x h with h1 | h1
  · cases h1
  · exact h1

theorem dictGet_mem {J : Type} [DecidableEq J] (d : List (J × CodePartition))
    (o : J) (p : CodePartition) (h : dictGet d o = some p) : (o, p) ∈ d := by
  unfold dictGet at h
  cases hf : d.find? (fun kv => decide (kv.1 = o)) with
  | none => rw [hf] at h; cases h
  | some kv =>
    rw [hf] at h
    injection h with h2
    have h3 := List.find?_some hf
    rw [decide_eq_true_eq] at h3
    have h4 := List.mem_of_find?_eq_some hf
    rw [← h3, ← h2, Prod.mk.eta]
    exact h4

theorem dictGet_isSome_of_mem_keys {J : Type} [DecidableEq J]
    (d : List (J × CodePartition)) (o : J) (h : o ∈ d.map Prod.fst) :
    (dictGet d o).isSome = true := by
  obtain ⟨kv, hkv, hfst⟩ := List.mem_map.1 h
  unfold dictGet
  rw [show (d.find? (fun kv => decide (kv.1 = o))).map Prod.snd
      = Prod.snd <$> (d.find? (fun kv => decide (kv.1 = o))) from rfl, Option.isSome_map]
  rw [List.find?_isSome]
  exact ⟨kv, hkv, by simp [hfst]⟩

theorem dictGet_nodup_mem {J : Type} [DecidableEq J] :
    ∀ (d : List (J × CodePartition)) (o : J) (p : CodePartition),
    (d.map Prod.fst).Nodup → (o, p) ∈ d → dictGet d o = some p := by
  intro d
  induction d with
  | nil => intro o p _ hm; cases hm
  | cons kv rest ih =>
    intro o p h hm
    rw [List.map_cons, List.nodup_cons] at h
    by_cases ho : kv.1 = o
    · unfold dictGet
      rw [List.find?_cons_of_pos _ (by simp [ho])]
      rcases List.mem_cons.1 hm with heq | hmem
      · rw [← heq]
        rfl
      · exfalso
        apply h.1
        rw [ho]
        exact List.mem_map.2 ⟨(o, p), hmem, rfl⟩
    · unfold dictGet
      rw [List.find?_cons_of_neg _ (by simp [ho])]
      rcases List.mem_cons.1 hm with heq | hmem
      · exact absurd (congrArg Prod.fst heq.symm) ho
      · exact ih o p h.2 hmem

theorem dictInsert_append {J : Type} [DecidableEq J] (d : List (J × CodePartition))
    (k : J) (v : CodePartition) (h : ¬ d.any (fun kv => decide (kv.1 = k)) = true) :
    dictInsert d k v = d ++ [(k, v)] := by
  unfold dictInsert
  rw [if_neg h]

theorem dictOfPairs_aux_eq_self {J : Type} [DecidableEq J] :
    ∀ (pairs d : List (J × CodePartition)), (((d ++ pairs).map Prod.fst).Nodup) →
    pairs.foldl (fun d2 kv => dictInsert d2 kv.1 kv.2) d = d ++ pairs := by
  intro pairs
  induction pairs with
  | nil => intro d _; simp
  | cons kv rest ih =>
    intro d h
    have hany : ¬ d.any (fun kv2 => decide (kv2.1 = kv.1)) = true := by
      intro hy
      obtain ⟨kv2, hkv2, hdec⟩ := List.any_eq_true.1 hy
      rw [decide_eq_true_eq] at hdec
      rw [List.map_append, List.nodup_append] at h
      refine h.2.2 (List.mem_map.2 ⟨kv2, hkv2, rfl⟩) ?_
      rw [hdec, List.map_cons]
      exact List.mem_cons_self _ _
    show rest.foldl (fun d2 kv2 => dictInsert d2 kv2.1 kv2.2) (dictInsert d kv.1 kv.2) = _
    rw [dictInsert_append d kv.1 kv.2 hany]
    have h2 : (((d ++ [(kv.1, kv.2)]) ++ rest).map Prod.fst).Nodup := by
      rw [Prod.mk.eta, List.append_assoc, List.singleton_append]
      exact h
    rw [ih (d ++ [(kv.1, kv.2)]) h2, Prod.mk.eta, List.append_assoc, List.singleton_append]

theorem dictOfPairs_eq_self {J : Type} [DecidableEq J]
    (pairs : List (J × CodePartition)) (h : (pairs.map Prod.fst).Nodup) :
    dictOfPairs pairs = pairs :=
  dictOfPairs_aux_eq_self pairs [] h

end RPI

namespace RPI

/-! ## The sorting order: totality, transitivity, antisymmetry -/

theorem strLeB_total : ∀ a b : PyStr, strLeB a b = true ∨ strLeB b a = true := by
  intro a
  induction a with
  | nil => intro b; exact Or.inl rfl
  | cons c as ih =>
    intro b
    cases b with
    | nil => exact Or.inr rfl
    | cons d bs =>
      by_cases h1 : c.toNat < d.toNat
      · left
        unfold strLeB
        rw [if_pos h1]
      · by_cases h2 : d.toNat < c.toNat
        · right
          unfold strLeB
          rw [if_pos h2]
        · rcases ih bs with h | h
          · left
            unfold strLeB
            rw [if_neg h1, if_neg h2]
            exact h
          · right
            unfold strLeB
            rw [if_neg h2, if_neg h1]
            exact h

theorem strLeB_trans : ∀ a b c : PyStr,
    strLeB a b = true → strLeB b c = true → strLeB a c = true := by
  intro a
  induction a with
  | nil => intro b c _ _; rfl
  | cons x as ih =>
    intro b c hab hbc
    cases b with
    | nil => exact Bool.noConfusion hab
    | cons y bs =>
      cases c with
      | nil => exact Bool.noConfusion hbc
      | cons z cs =>
        unfold strLeB at hab hbc ⊢
        rcases Nat.lt_trichotomy x.toNat y.toNat with hxy | hxy | hxy
        · rcases Nat.lt_trichotomy y.toNat z.toNat with hyz | hyz | hyz
          · rw [if_pos (Nat.lt_trans hxy hyz)]
          · rw [if_pos (hyz ▸ hxy)]
          · rw [if_neg (Nat.lt_asymm hyz), if_pos hyz] at hbc
            exact absurd hbc (by decide)
        · rcases Nat.lt_trichotomy y.toNat z.toNat with hyz | hyz | hyz
          · rw [if_pos (hxy ▸ hyz)]
          · have hxz : ¬ x.toNat < z.toNat := by omega
            have hzx : ¬ z.toNat < x.toNat := by omega
            rw [if_neg hxz, if_neg hzx]
            rw [if_neg (by omega : ¬ x.toNat < y.toNat),
              if_neg (by omega : ¬ y.toNat < x.toNat)] at hab
            rw [if_neg (by omega : ¬ y.toNat < z.toNat),
              if_neg (by omega : ¬ z.toNat < y.toNat)] at hbc
            exact ih bs cs hab hbc
          · rw [if_neg (Nat.lt_asymm hyz), if_pos hyz] at hbc
            exact absurd hbc (by decide)
        · rw [if_neg (Nat.lt_asymm hxy), if_pos hxy] at hab
          exact absurd hab (by decide)

theorem strLeB_antisymm : ∀ a b : PyStr,
    strLeB a b = true → strLeB b a = true → a = b := by
  intro a
  induction a with
  | nil =>
    intro b _ hba
    cases b with
    | nil => rfl
    | cons d bs => exact Bool.noConfusion hba
  | cons c as ih =>
    intro b hab hba
    cases b with
    | nil => exact Bool.noConfusion hab
    | cons d bs =>
      unfold strLeB at hab hba
      rcases Nat.lt_trichotomy c.toNat d.toNat with hcd | hcd | hcd
      · rw [if_neg (Nat.lt_asymm hcd), if_pos hcd] at hba
        exact absurd hba (by decide)
      · have hc : c = d := by
          apply Char.ext
          apply UInt32.ext
          exact hcd
        subst hc
        rw [if_neg (by omega : ¬ c.toNat < c.toNat),
          if_neg (by omega : ¬ c.toNat < c.toNat)] at hab hba
        rw [ih bs hab hba]
      · rw [if_neg (Nat.lt_asymm hcd), if_pos hcd] at hab
        exact absurd hab (by decide)

theorem strictChain_of_pairwise : ∀ l : List ImportObj,
    List.Pairwise (fun a b => impLeB a b = true ∧ a ≠ b) l → strictChain l = true := by
  intro l
  induction l with
  | nil => intro _; rfl
  | cons a rest ih =>
    intro h
    rcases List.pairwise_cons.1 h with ⟨ha, htail⟩
    cases rest with
    | nil => rfl
    | cons b rest2 =>
      have hab := ha b (List.mem_cons_self _ _)
      unfold strictChain
      simp [hab.1, hab.2, ih htail]

theorem chain_render_of_strictChain : ∀ l : List ImportObj,
    (∀ o ∈ l, parseImport (renderImport o.names) = some o) →
    strictChain l = true →
    List.Chain' (fun x y : PyStr => strLeB x y = true ∧ x ≠ y)
      (l.map (fun o => renderImport o.names)) := by
  intro l
  induction l with
  | nil => intro _ _; exact List.chain'_nil
  | cons a rest ih =>
    intro hp hc
    cases rest with
    | nil => exact List.chain'_singleton _
    | cons b rest2 =>
      unfold strictChain at hc
      simp only [Bool.and_eq_true, decide_eq_true_eq] at hc
      obtain ⟨⟨h1, h2⟩, h3⟩ := hc
      have ihh := ih (fun o ho => hp o (List.mem_cons_of_mem _ ho)) h3
      rw [List.map_cons]
      rw [List.map_cons] at ihh
      refine List.chain'_cons.2 ⟨⟨h1, ?_⟩, ihh⟩
      intro he
      apply h2
      have hpa := hp a (List.mem_cons_self _ _)
      have hpb := hp b (List.mem_cons_of_mem _ (List.mem_cons_self _ _))
      rw [he, hpb] at hpa
      injection hpa with h4
      exact h4.symm

theorem strictChain_sorted_nodup (l : List ImportObj)
    (hp : ∀ o ∈ l, parseImport (renderImport o.names) = some o)
    (hc : strictChain l = true) : List.Pairwise impLe l ∧ l.Nodup := by
  have htr : IsTrans PyStr (fun x y : PyStr => strLeB x y = true ∧ x ≠ y) := by
    refine ⟨fun a b c hab hbc => ⟨strLeB_trans a b c hab.1 hbc.1, fun hac => ?_⟩⟩
    apply hbc.2
    apply strLeB_antisymm b c hbc.1
    rw [← hac]
    exact hab.1
  have hchain := chain_render_of_strictChain l hp hc
  have hpw := (@List.chain'_iff_pairwise PyStr
    (fun x y : PyStr => strLeB x y = true ∧ x ≠ y) htr _).1 hchain
  constructor
  · exact (List.pairwise_map.1 hpw).imp (fun hxy => hxy.1)
  · have hnd : (l.map (fun o => renderImport o.names)).Nodup :=
      hpw.imp (fun h => h.2)
    exact hnd.of_map _

end RPI

namespace RPI

/-! ## Support for right-strip invariance of the classifier -/

theorem takeWhile_all_append (p : Char → Bool) : ∀ (sp y : PyStr),
    (∀ c ∈ sp, p c = true) →
    List.takeWhile p (sp ++ y) = sp ++ List.takeWhile p y := by
  intro sp
  induction sp with
  | nil => intro y _; rfl
  | cons c t ih =>
    intro y h
    rw [List.cons_append, List.takeWhile_cons, if_pos (h c (List.mem_cons_self c t)),
      ih y (fun d hd => h d (List.mem_cons_of_mem c hd))]
    rfl

theorem drop_takeWhile_length (p : Char → Bool) (l : PyStr) :
    l.drop (l.takeWhile p).length = l.dropWhile p := by
  have h := List.takeWhile_append_dropWhile p l
  calc l.drop (l.takeWhile p).length
      = (l.takeWhile p ++ l.dropWhile p).drop (l.takeWhile p).length := by rw [h]
    _ = l.dropWhile p := List.drop_left _ _

theorem not_blank_of_mem (l : PyStr) (c : Char) (hc : c ∈ l) (hne : c ≠ ' ') :
    isBlankLine l = false := by
  rw [Bool.eq_false_iff]
  intro hb
  exact hne (of_decide_eq_true (List.all_eq_true.1 hb c hc))

theorem indentOf_cons_ne (c : Char) (x : PyStr) (h : c ≠ ' ') :
    indentOf (c :: x) = 0 := by
  unfold indentOf
  rw [List.takeWhile_cons, if_neg (by simp [h])]
  rfl

theorem isSingleLineStr_iff (q : Char) (rest : PyStr) :
    isSingleLineStr (q :: rest)
      = ((q.toNat = 39 || q.toNat = 34) &&
         (match rest.drop (rest.takeWhile (fun c => ¬(c = q ∨ c = '\\'))).length with
          | c :: after => c = q && after.all (· = ' ')
          | [] => false)) := rfl

theorem prefix_of_rstrip (l p : PyStr) (hp : p <+: l)
    (hnw : ∀ c ∈ p, isPyWs c = false) : p <+: pyRstrip l := by
  obtain ⟨hdec, hws⟩ := pyRstrip_decomp l
  have hm : pyRstrip l <+: l := ⟨(l.reverse.takeWhile isPyWs).reverse, hdec.symm⟩
  rcases List.prefix_or_prefix_of_prefix hp hm with h1 | h1
  · exact h1
  · obtain ⟨r, hr⟩ := h1
    have hrnil : r = [] := by
      cases r with
      | nil => rfl
      | cons a t =>
        exfalso
        have ha : a ∈ p := by
          rw [← hr]
          exact List.mem_append_right _ (List.mem_cons_self a t)
        have haw : isPyWs a = true := by
          obtain ⟨t2, ht2⟩ := hp
          have h4 : pyRstrip l ++ (l.reverse.takeWhile isPyWs).reverse
              = pyRstrip l ++ ((a :: t) ++ t2) := by
            rw [← hdec, ← List.append_assoc, hr, ht2]
          have h5 := List.append_cancel_left h4
          have h6 : a ∈ (l.reverse.takeWhile isPyWs).reverse := by
            rw [h5]
            exact List.mem_append_left _ (List.mem_cons_self a t)
          exact hws a h6
        rw [hnw a ha] at haw
        exact Bool.noConfusion haw
    rw [hrnil, List.append_nil] at hr
    rw [← hr]

theorem mem_trim_or_space (s : PyStr) (c : Char) (h : c ∈ s) :
    c = ' ' ∨ c ∈ trimSpaces s := by
  have h1 : s = s.takeWhile (fun d => decide (d = ' '))
      ++ s.dropWhile (fun d => decide (d = ' ')) :=
    (List.takeWhile_append_dropWhile _ s).symm
  rw [h1] at h
  rcases List.mem_append.1 h with h2 | h2
  · exact Or.inl (by simpa using List.mem_takeWhile_imp h2)
  · have h3 : s.dropWhile (fun d => decide (d = ' '))
        = trimSpaces s ++ ((s.dropWhile (fun d => decide (d = ' '))).reverse.takeWhile
            (fun d => decide (d = ' '))).reverse := by
      conv_lhs => rw [← List.reverse_reverse (s.dropWhile (fun d => decide (d = ' '))),
        ← List.takeWhile_append_dropWhile (fun d => decide (d = ' '))
          (s.dropWhile (fun d => decide (d = ' '))).reverse]
      rw [List.reverse_append]
      rfl
    rw [h3] at h2
    rcases List.mem_append.1 h2 with h4 | h4
    · exact Or.inr h4
    · exact Or.inl (by simpa using List.mem_takeWhile_imp (List.mem_reverse.1 h4))

end RPI

namespace RPI

/-! ## Whitespace inside a parsed import line is plain spaces -/

theorem intercalate_singleton_any (sep x : PyStr) :
    List.intercalate sep [x] = x := by
  simp [List.intercalate]

theorem intercalate_cons_ne_nil (sep x : PyStr) (ys : List PyStr) (h : ys ≠ []) :
    List.intercalate sep (x :: ys) = x ++ sep ++ List.intercalate sep ys := by
  cases ys with
  | nil => exact absurd rfl h
  | cons y zs =>
    unfold List.intercalate
    simp [List.intersperse]

theorem intercalate_splitComma : ∀ (s acc : PyStr),
    List.intercalate ([','] : PyStr) (splitCommaAux s acc) = acc.reverse ++ s := by
  intro s
  induction s with
  | nil =>
    intro acc
    show List.intercalate ([','] : PyStr) [acc.reverse] = _
    rw [intercalate_singleton_any, List.append_nil]
  | cons c r ih =>
    intro acc
    by_cases hc : c = ','
    · subst hc
      show List.intercalate ([','] : PyStr) (splitCommaAux (',' :: r) acc) = _
      conv_lhs => unfold splitCommaAux
      rw [if_pos rfl,
        intercalate_cons_ne_nil _ _ _ (splitCommaAux_ne_nil r []), ih []]
      simp
    · show List.intercalate ([','] : PyStr) (splitCommaAux (c :: r) acc) = _
      conv_lhs => unfold splitCommaAux
      rw [if_neg hc, ih (c :: acc)]
      simp

theorem mem_intercalate_comma : ∀ (segs : List PyStr) (c : Char),
    c ∈ List.intercalate ([','] : PyStr) segs → c = ',' ∨ ∃ m ∈ segs, c ∈ m := by
  intro segs
  induction segs with
  | nil =>
    intro c hc
    simp [List.intercalate] at hc
  | cons n rest ih =>
    intro c hc
    cases rest with
    | nil =>
      rw [intercalate_singleton_any] at hc
      exact Or.inr ⟨n, List.mem_singleton.2 rfl, hc⟩
    | cons m rest2 =>
      rw [intercalate_cons_ne_nil _ _ _ (List.cons_ne_nil m rest2)] at hc
      rcases List.mem_append.1 hc with h1 | h1
      · rcases List.mem_append.1 h1 with h2 | h2
        · exact Or.inr ⟨n, List.mem_cons_self _ _, h2⟩
        · exact Or.inl (List.mem_singleton.1 h2)
      · rcases ih c h1 with h2 | ⟨m2, hm2, hcm⟩
        · exact Or.inl h2
        · exact Or.inr ⟨m2, List.mem_cons_of_mem _ hm2, hcm⟩

theorem isNameChar_not_ws (c : Char) (h : isNameChar c = true) : isPyWs c = false := by
  rw [Bool.eq_false_iff]
  intro hw
  have h2 := of_decide_eq_true hw
  simp only [pyWsChars, List.mem_cons, List.not_mem_nil, or_false] at h2
  rcases h2 with rfl | rfl | rfl | rfl | rfl | rfl | rfl | rfl | rfl | rfl | rfl | rfl | rfl | rfl | rfl | rfl | rfl | rfl | rfl | rfl | rfl | rfl | rfl | rfl | rfl | rfl | rfl | rfl | rfl <;>
    exact absurd h (by decide)

theorem parse_body_ws (b : PyStr) (o : ImportObj)
    (_hob : o.names = (splitComma b).map trimSpaces)
    (hall : ((splitComma b).map trimSpaces).all validName = true) :
    ∀ c ∈ b, isPyWs c = true → c = ' ' := by
  intro c hc hw
  have hrec : List.intercalate ([','] : PyStr) (splitComma b) = b := by
    have h2 := intercalate_splitComma b []
    simpa using h2
  rw [← hrec] at hc
  rcases mem_intercalate_comma _ c hc with h1 | ⟨seg, hseg, hcseg⟩
  · subst h1
    exact absurd hw (by decide)
  · have hv : validName (trimSpaces seg) = true :=
      List.all_eq_true.1 hall (trimSpaces seg)
        (List.mem_map.2 ⟨seg, hseg, rfl⟩)
    rcases mem_trim_or_space seg c hcseg with h2 | h2
    · exact h2
    · exact absurd hw (by rw [isNameChar_not_ws c (validName_chars _ hv c h2)]; decide)

theorem imp_line_trailing_space (l : PyStr) (o : ImportObj)
    (h : parseImport (l ++ ['\n']) = some o) :
    ∀ c ∈ l, isPyWs c = true → c = ' ' := by
  obtain ⟨b, heq, hnb, hrb, hob, hall⟩ := (parseImport_eq_some _ o).1 h
  have hl : l = ("import ".toList) ++ b := List.append_cancel_right heq
  intro c hc hw
  rw [hl] at hc
  rcases List.mem_append.1 hc with h1 | h1
  · have h2 : c ∈ (['i', 'm', 'p', 'o', 'r', 't', ' '] : List Char) := h1
    simp only [List.mem_cons, List.not_mem_nil, or_false] at h2
    rcases h2 with rfl | rfl | rfl | rfl | rfl | rfl | rfl
    all_goals first
      | rfl
      | exact absurd hw (by decide)
  · exact parse_body_ws b o hob hall c h1 hw

/-! ## Classification of import lines agrees with the parser -/

theorem classifyLF_import_prefix (b : PyStr) :
    classifyLF (("import ".toList) ++ b)
      = (parseImport ((("import ".toList) ++ b) ++ ['\n'])).map LineKind.imp := rfl

theorem oddBreak_ws (c : Char) (h : isOddBreak c = true) : isPyWs c = true := by
  have h2 := of_decide_eq_true h
  simp only [List.mem_cons, List.not_mem_nil, or_false] at h2
  rcases h2 with rfl | rfl | rfl | rfl | rfl | rfl | rfl | rfl | rfl <;> decide

theorem classify_of_parse (s : PyStr) (o : ImportObj) (h : parseImport s = some o) :
    s = s.dropLast ++ ['\n'] ∧ ¬ '\n' ∈ s.dropLast ∧
    classifyLineLF s.dropLast = some (LineKind.imp o) := by
  obtain ⟨b, hs, hnb, _, hob, hall⟩ := (parseImport_eq_some s o).1 h
  subst hs
  have hdl : (("import ".toList) ++ b ++ ['\n']).dropLast = ("import ".toList) ++ b :=
    List.dropLast_concat
  have hpb2 : (("import ".toList) ++ b).any isOddBreak = false := by
    rw [Bool.eq_false_iff]
    intro hany
    obtain ⟨c, hc, hodd⟩ := List.any_eq_true.1 hany
    rcases List.mem_append.1 hc with h1 | h1
    · have h2 : c ∈ (['i', 'm', 'p', 'o', 'r', 't', ' '] : List Char) := h1
      simp only [List.mem_cons, List.not_mem_nil, or_false] at h2
      rcases h2 with rfl | rfl | rfl | rfl | rfl | rfl | rfl <;>
        exact absurd hodd (by decide)
    · have hsp : c = ' ' := parse_body_ws b o hob hall c h1 (oddBreak_ws c hodd)
      subst hsp
      exact absurd hodd (by decide)
  refine ⟨by rw [hdl], ?_, ?_⟩
  · rw [hdl]
    intro hc
    rcases List.mem_append.1 hc with h1 | h1
    · exact absurd h1 (by decide)
    · exact hnb h1
  · rw [hdl]
    rw [classifyLineLF_eq_classifyLF _ hpb2, classifyLF_import_prefix, h]
    rfl

end RPI

namespace RPI

/-! ## Shape of the classifier on a line with a non-space head -/

theorem classifyLF_cons (c : Char) (x : PyStr) (hcsp : c ≠ ' ') :
    classifyLF (c :: x)
      = (if c = '#' then some LineKind.comment
         else if c.toNat = 39 ∨ c.toNat = 34 then
           (if isSingleLineStr (c :: x) then some LineKind.strLit else none)
         else if c.isAlpha ∨ c = '_' then classifyWordLine (c :: x)
         else none) := by
  unfold classifyLF
  have hb : isBlankLine (c :: x) = false :=
    not_blank_of_mem _ c (List.mem_cons_self _ _) hcsp
  rw [if_neg (by simp [hb])]
  have hi : indentOf (c :: x) = 0 := indentOf_cons_ne c x hcsp
  rw [hi, List.drop_zero]
  show (if c = '#' then some LineKind.comment
        else if (0:Nat) ≠ 0 then none
        else if c.toNat = 39 ∨ c.toNat = 34 then
          (if isSingleLineStr (c :: x) then some LineKind.strLit else none)
        else if c.isAlpha ∨ c = '_' then classifyWordLine (c :: x)
        else none) = _
  rw [if_neg (by simp : ¬ ((0:Nat) ≠ 0))]

theorem classifyLF_space_head (x : PyStr) :
    classifyLF (' ' :: x) = some LineKind.blank ∨
    classifyLF (' ' :: x) = some LineKind.comment ∨
    classifyLF (' ' :: x) = none := by
  unfold classifyLF
  split
  · exact Or.inl rfl
  · split
    · exact Or.inr (Or.inr rfl)
    · rename_i c rest heq
      by_cases hc : c = '#'
      · rw [if_pos hc]
        exact Or.inr (Or.inl rfl)
      · rw [if_neg hc]
        have hi : indentOf (' ' :: x) ≠ 0 := by
          unfold indentOf
          rw [List.takeWhile_cons, if_pos (by decide)]
          simp
        rw [if_pos hi]
        exact Or.inr (Or.inr rfl)

theorem classifyWordLine_kinds (l : PyStr) (k : LineKind)
    (h : classifyWordLine l = some k) :
    (∃ o, k = LineKind.imp o) ∨ k = LineKind.stmt := by
  unfold classifyWordLine at h
  split at h
  · split at h
    · cases h
    · split at h
      · cases hp : parseImport (l ++ ['\n']) with
        | none =>
          rw [hp] at h
          have h2 : (none : Option LineKind) = some k := h
          cases h2
        | some o2 =>
          rw [hp] at h
          have h2 : some (LineKind.imp o2) = some k := h
          injection h2 with h3
          exact Or.inl ⟨o2, h3.symm⟩
      · split at h
        · injection h with h2
          exact Or.inr h2.symm
        · cases h
  · split at h
    · split at h
      · cases h
      · split at h
        · injection h with h2
          exact Or.inr h2.symm
        · cases h
    · injection h with h2
      exact Or.inr h2.symm

theorem ident_not_ws (c : Char) (h : isIdentChar c = true) : isPyWs c = false := by
  rw [Bool.eq_false_iff]
  intro hw
  have h2 := of_decide_eq_true hw
  simp only [pyWsChars, List.mem_cons, List.not_mem_nil, or_false] at h2
  rcases h2 with rfl | rfl | rfl | rfl | rfl | rfl | rfl | rfl | rfl | rfl | rfl | rfl | rfl | rfl | rfl | rfl | rfl | rfl | rfl | rfl | rfl | rfl | rfl | rfl | rfl | rfl | rfl | rfl | rfl <;>
    exact absurd h (by decide)

theorem alphau_not_ws (c : Char) (h : c.isAlpha = true ∨ c = '_') :
    isPyWs c = false := by
  rw [Bool.eq_false_iff]
  intro hw
  have h2 := of_decide_eq_true hw
  simp only [pyWsChars, List.mem_cons, List.not_mem_nil, or_false] at h2
  rcases h2 with rfl | rfl | rfl | rfl | rfl | rfl | rfl | rfl | rfl | rfl | rfl | rfl | rfl | rfl | rfl | rfl | rfl | rfl | rfl | rfl | rfl | rfl | rfl | rfl | rfl | rfl | rfl | rfl | rfl <;>
    exact absurd h (by decide)

theorem quote_not_ws (c : Char) (h : c.toNat = 39 ∨ c.toNat = 34) :
    isPyWs c = false := by
  rw [Bool.eq_false_iff]
  intro hw
  have h2 := of_decide_eq_true hw
  simp only [pyWsChars, List.mem_cons, List.not_mem_nil, or_false] at h2
  rcases h2 with rfl | rfl | rfl | rfl | rfl | rfl | rfl | rfl | rfl | rfl | rfl | rfl | rfl | rfl | rfl | rfl | rfl | rfl | rfl | rfl | rfl | rfl | rfl | rfl | rfl | rfl | rfl | rfl | rfl <;>
    exact absurd h (by decide)

theorem quote_ne_space (c : Char) (h : c.toNat = 39 ∨ c.toNat = 34) : c ≠ ' ' := by
  intro hc
  subst hc
  rcases h with h2 | h2 <;> exact absurd h2 (by decide)

theorem quote_ne_hash (c : Char) (h : c.toNat = 39 ∨ c.toNat = 34) : c ≠ '#' := by
  intro hc
  subst hc
  rcases h with h2 | h2 <;> exact absurd h2 (by decide)

theorem alphau_ne_space (c : Char) (h : c.isAlpha = true ∨ c = '_') : c ≠ ' ' := by
  intro hc
  subst hc
  rcases h with h2 | h2
  · exact absurd h2 (by decide)
  · exact absurd h2 (by decide)

theorem import_chars_not_ws (ch : Char) (h : ch ∈ ("import".toList)) :
    isPyWs ch = false := by
  have h2 : ch ∈ (['i', 'm', 'p', 'o', 'r', 't'] : List Char) := h
  simp only [List.mem_cons, List.not_mem_nil, or_false] at h2
  rcases h2 with rfl | rfl | rfl | rfl | rfl | rfl <;> decide

theorem from_chars_not_ws (ch : Char) (h : ch ∈ ("from".toList)) :
    isPyWs ch = false := by
  have h2 : ch ∈ (['f', 'r', 'o', 'm'] : List Char) := h
  simp only [List.mem_cons, List.not_mem_nil, or_false] at h2
  rcases h2 with rfl | rfl | rfl | rfl <;> decide

end RPI

namespace RPI

/-! ## Right-stripping a classified line keeps its classification -/

theorem classifyLineLF_rstrip_imp (l : PyStr) (o : ImportObj)
    (h : classifyLineLF l = some (LineKind.imp o)) :
    pyRstrip l ≠ [] ∧ classifyLineLF (pyRstrip l) = some (LineKind.imp o) := by
  have hp := classify_imp_parse l o h
  obtain ⟨hdec, hws⟩ := pyRstrip_decomp l
  have hwsp : ∀ c ∈ (l.reverse.takeWhile isPyWs).reverse, c = ' ' := by
    intro c hc
    refine imp_line_trailing_space l o hp c ?_ (hws c hc)
    rw [hdec]
    exact List.mem_append_right _ hc
  have hp2 : parseImport (pyRstrip l ++ ['\n']) = some o := by
    apply parseImport_drop_spaces _ (pyRstrip l) o hwsp
    rw [← hdec]
    exact hp
  have hne : pyRstrip l ≠ [] := by
    intro hnil
    have hall := (pyRstrip_eq_nil_iff l).1 hnil
    obtain ⟨b, heq, _, _, _, _⟩ := (parseImport_eq_some _ o).1 hp
    have hli : l = ("import ".toList) ++ b := List.append_cancel_right heq
    have hi2 : isPyWs 'i' = true :=
      hall 'i' (by rw [hli]; exact List.mem_append_left _ (by decide))
    exact absurd hi2 (by decide)
  refine ⟨hne, ?_⟩
  have h3 := (classify_of_parse (pyRstrip l ++ ['\n']) o hp2).2.2
  rw [List.dropLast_concat] at h3
  exact h3

theorem classifyLineLF_rstrip_comment (l : PyStr)
    (h : classifyLineLF l = some LineKind.comment) :
    pyRstrip l ≠ [] ∧ classifyLineLF (pyRstrip l) = some LineKind.comment := by
  obtain ⟨hnb, hLF⟩ := classifyLineLF_elim l _ h
  have hinv : ∃ rest, l.dropWhile (fun c => decide (c = ' ')) = '#' :: rest := by
    unfold classifyLF at hLF
    split at hLF
    · simp at hLF
    · split at hLF
      · cases hLF
      · rename_i c rest heq
        split at hLF
        · rename_i hc
          refine ⟨rest, ?_⟩
          rw [show l.dropWhile (fun c => decide (c = ' ')) = l.drop (indentOf l) from
            (drop_takeWhile_length _ l).symm, heq, hc]
        · split at hLF
          · cases hLF
          · split at hLF
            · split at hLF
              · simp at hLF
              · cases hLF
            · split at hLF
              · rcases classifyWordLine_kinds l _ hLF with ⟨o, ho⟩ | ho
                · cases ho
                · cases ho
              · cases hLF
  obtain ⟨rest, hrest⟩ := hinv
  have hspl : l = l.takeWhile (fun c => decide (c = ' ')) ++ ('#' :: rest) := by
    conv_lhs => rw [← List.takeWhile_append_dropWhile (fun c => decide (c = ' ')) l]
    rw [hrest]
  have hspmem : ∀ c ∈ l.takeWhile (fun c => decide (c = ' ')), c = ' ' :=
    fun c hc => by simpa using List.mem_takeWhile_imp hc
  have hne2 : pyRstrip ('#' :: rest) ≠ [] := by
    rw [Ne, pyRstrip_eq_nil_iff]
    intro hall
    exact absurd (hall '#' (List.mem_cons_self _ _)) (by decide)
  have hps : pyRstrip l
      = l.takeWhile (fun c => decide (c = ' ')) ++ pyRstrip ('#' :: rest) := by
    conv_lhs => rw [hspl]
    rw [pyRstrip_append, if_neg hne2]
  obtain ⟨tl, htl⟩ : ∃ tl, pyRstrip ('#' :: rest) = '#' :: tl := by
    rw [pyRstrip_cons]
    by_cases h2 : pyRstrip rest = []
    · exact ⟨[], by rw [if_pos h2, if_neg (by decide)]⟩
    · exact ⟨pyRstrip rest, by rw [if_neg h2]⟩
  have hm : pyRstrip l = l.takeWhile (fun c => decide (c = ' ')) ++ ('#' :: tl) := by
    rw [hps, htl]
  constructor
  · rw [hm]
    simp
  · rw [classifyLineLF_eq_classifyLF _ (any_oddBreak_rstrip l hnb)]
    have hhash : '#' ∈ pyRstrip l := by
      rw [hm]
      exact List.mem_append_right _ (List.mem_cons_self _ _)
    have hb : ¬ (isBlankLine (pyRstrip l) = true) := by
      simp [not_blank_of_mem _ _ hhash (by decide)]
    have hind : indentOf (pyRstrip l) = (l.takeWhile (fun c => decide (c = ' '))).length := by
      unfold indentOf
      rw [hm, takeWhile_all_append _ _ _ (fun c hc => by simp [hspmem c hc]),
        List.takeWhile_cons, if_neg (by decide)]
      simp
    have hdrop2 : (pyRstrip l).drop (indentOf (pyRstrip l)) = '#' :: tl := by
      rw [hind, hm, List.drop_left]
    unfold classifyLF
    rw [if_neg hb, hdrop2]
    rfl

end RPI

namespace RPI

theorem classifyLineLF_rstrip_strLit (l : PyStr)
    (h : classifyLineLF l = some LineKind.strLit) :
    pyRstrip l ≠ [] ∧ classifyLineLF (pyRstrip l) = some LineKind.strLit := by
  obtain ⟨hnb, hLF⟩ := classifyLineLF_elim l _ h
  clear h
  obtain ⟨c, x, rfl⟩ : ∃ c x, l = c :: x := by
    cases l with
    | nil => exact absurd hLF (by decide)
    | cons c x => exact ⟨c, x, rfl⟩
  have hcsp : c ≠ ' ' := by
    intro hc
    subst hc
    rcases classifyLF_space_head x with h1 | h1 | h1
    · rw [h1] at hLF; simp at hLF
    · rw [h1] at hLF; simp at hLF
    · rw [h1] at hLF; cases hLF
  rw [classifyLF_cons c x hcsp] at hLF
  split at hLF
  · simp at hLF
  · rename_i hHash
    split at hLF
    case isFalse hnq =>
      split at hLF
      · rcases classifyWordLine_kinds _ _ hLF with ⟨o, ho⟩ | ho
        · cases ho
        · cases ho
      · cases hLF
    case isTrue hq =>
      split at hLF
      case isFalse => cases hLF
      case isTrue hsl =>
        rw [isSingleLineStr_iff, Bool.and_eq_true] at hsl
        obtain ⟨-, hsl2⟩ := hsl
        rw [drop_takeWhile_length] at hsl2
        cases hdw : x.dropWhile (fun d => decide ¬(d = c ∨ d = '\\')) with
        | nil =>
          rw [hdw] at hsl2
          exact Bool.noConfusion (show (false : Bool) = true from hsl2)
        | cons cq aft =>
          rw [hdw] at hsl2
          have hsl3 : (decide (cq = c) && aft.all (fun d => decide (d = ' '))) = true := hsl2
          rw [Bool.and_eq_true] at hsl3
          have hcq : cq = c := of_decide_eq_true hsl3.1
          have haft : ∀ d ∈ aft, d = ' ' := fun d hd =>
            of_decide_eq_true (List.all_eq_true.1 hsl3.2 d hd)
          have hx : x = x.takeWhile (fun d => decide ¬(d = c ∨ d = '\\')) ++ (c :: aft) := by
            conv_lhs => rw [← List.takeWhile_append_dropWhile
              (fun d => decide ¬(d = c ∨ d = '\\')) x]
            rw [hdw, hcq]
          have hqnw : isPyWs c = false := quote_not_ws c hq
          have haftnil : pyRstrip aft = [] :=
            (pyRstrip_eq_nil_iff aft).2 (fun d hd => by rw [haft d hd]; decide)
          have hsplit : c :: x
              = (c :: (x.takeWhile (fun d => decide ¬(d = c ∨ d = '\\')) ++ [c])) ++ aft := by
            conv_lhs => rw [hx]
            simp
          have hm : pyRstrip (c :: x)
              = c :: (x.takeWhile (fun d => decide ¬(d = c ∨ d = '\\')) ++ [c]) := by
            rw [hsplit, pyRstrip_append, if_pos haftnil]
            refine pyRstrip_eq_self _ c ?_ hqnw
            rw [show c :: (x.takeWhile (fun d => decide ¬(d = c ∨ d = '\\')) ++ [c])
                = (c :: x.takeWhile (fun d => decide ¬(d = c ∨ d = '\\'))) ++ [c] from rfl]
            exact List.getLast?_concat _
          refine ⟨?_, ?_⟩
          · rw [hm]
            simp
          · rw [classifyLineLF_eq_classifyLF _ (any_oddBreak_rstrip (c :: x) hnb),
              hm, classifyLF_cons c _ hcsp, if_neg hHash, if_pos hq]
            have hslm : isSingleLineStr
                (c :: (x.takeWhile (fun d => decide ¬(d = c ∨ d = '\\')) ++ [c])) = true := by
              rw [isSingleLineStr_iff, Bool.and_eq_true]
              refine ⟨?_, ?_⟩
              · rcases hq with h1 | h1 <;> simp [h1]
              · rw [drop_takeWhile_length]
                have h1 : (x.takeWhile (fun d => decide ¬(d = c ∨ d = '\\'))).dropWhile
                    (fun d => decide ¬(d = c ∨ d = '\\')) = [] :=
                  List.dropWhile_eq_nil_iff.2 (fun d hd =>
                    @List.mem_takeWhile_imp Char (fun d2 => decide ¬(d2 = c ∨ d2 = '\\')) x d hd)
                rw [List.dropWhile_append, if_pos (by rw [h1]; rfl), List.dropWhile_cons,
                  if_neg (by simp)]
                simp
            rw [if_pos hslm]

end RPI

namespace RPI

theorem classifyWordLine_import_ident (d : Char) (r2 : PyStr)
    (hdsp : ¬ (d = ' ')) (hid : isIdentChar d = true) :
    classifyWordLine (("import".toList) ++ (d :: r2)) = some LineKind.stmt := by
  unfold classifyWordLine
  have hpre2 : List.isPrefixOf ("import".toList) (("import".toList) ++ (d :: r2)) = true := by
    rw [List.isPrefixOf_iff_prefix]
    exact ⟨d :: r2, rfl⟩
  rw [if_pos hpre2]
  show (if d = ' ' then
          (parseImport ((("import".toList) ++ (d :: r2)) ++ ['\n'])).map LineKind.imp
        else if isIdentChar d then some LineKind.stmt else none) = some LineKind.stmt
  rw [if_neg hdsp, if_pos hid]

theorem classifyWordLine_from_ident (d : Char) (r2 : PyStr) (hid : isIdentChar d = true) :
    classifyWordLine (("from".toList) ++ (d :: r2)) = some LineKind.stmt := by
  unfold classifyWordLine
  have hnotimp : ¬ (List.isPrefixOf ("import".toList) (("from".toList) ++ (d :: r2)) = true) :=
    fun hc => Bool.noConfusion (show (false : Bool) = true from hc)
  rw [if_neg hnotimp]
  have hpre2 : List.isPrefixOf ("from".toList) (("from".toList) ++ (d :: r2)) = true := by
    rw [List.isPrefixOf_iff_prefix]
    exact ⟨d :: r2, rfl⟩
  rw [if_pos hpre2]
  show (if isIdentChar d then some LineKind.stmt else none) = some LineKind.stmt
  rw [if_pos hid]

theorem classifyWordLine_rstrip_stmt (l : PyStr)
    (hw : classifyWordLine l = some LineKind.stmt) :
    classifyWordLine (pyRstrip l) = some LineKind.stmt := by
  have hmpr : pyRstrip l <+: l :=
    ⟨(l.reverse.takeWhile isPyWs).reverse, (pyRstrip_decomp l).1.symm⟩
  unfold classifyWordLine at hw
  split at hw
  case isTrue hpre =>
    split at hw
    · cases hw
    · rename_i d t heq
      split at hw
      case isTrue =>
        cases hp : parseImport (l ++ ['\n']) with
        | none =>
          rw [hp] at hw
          exact Option.noConfusion (show (none : Option LineKind) = some LineKind.stmt from hw)
        | some o2 =>
          rw [hp] at hw
          have h2 : some (LineKind.imp o2) = some LineKind.stmt := hw
          simp at h2
      case isFalse hdsp =>
        split at hw
        case isFalse => cases hw
        case isTrue hid =>
          obtain ⟨u, hu⟩ := List.isPrefixOf_iff_prefix.1 hpre
          have hu6 : l.drop 6 = u := by
            rw [← hu, show (6:Nat) = ("import".toList).length from rfl, List.drop_left]
          have hut : u = d :: t := by rw [← hu6, heq]
          have hl6 : l = ("import".toList) ++ (d :: t) := by rw [← hu, hut]
          have hpm : (("import".toList) ++ [d]) <+: pyRstrip l := by
            apply prefix_of_rstrip
            · rw [hl6]
              exact ⟨t, by simp⟩
            · intro ch hch
              rcases List.mem_append.1 hch with h1 | h1
              · exact import_chars_not_ws ch h1
              · rcases List.mem_singleton.1 h1 with rfl
                exact ident_not_ws _ hid
          obtain ⟨r2, hr2⟩ := hpm
          rw [← hr2, List.append_assoc]
          exact classifyWordLine_import_ident d r2 hdsp hid
  case isFalse hnpre =>
    split at hw
    case isTrue hfpre =>
      split at hw
      · cases hw
      · rename_i d t heq
        split at hw
        case isFalse => cases hw
        case isTrue hid =>
          obtain ⟨u, hu⟩ := List.isPrefixOf_iff_prefix.1 hfpre
          have hu4 : l.drop 4 = u := by
            rw [← hu, show (4:Nat) = ("from".toList).length from rfl, List.drop_left]
          have hut : u = d :: t := by rw [← hu4, heq]
          have hl4 : l = ("from".toList) ++ (d :: t) := by rw [← hu, hut]
          have hpm : (("from".toList) ++ [d]) <+: pyRstrip l := by
            apply prefix_of_rstrip
            · rw [hl4]
              exact ⟨t, by simp⟩
            · intro ch hch
              rcases List.mem_append.1 hch with h1 | h1
              · exact from_chars_not_ws ch h1
              · rcases List.mem_singleton.1 h1 with rfl
                exact ident_not_ws _ hid
          obtain ⟨r2, hr2⟩ := hpm
          rw [← hr2, List.append_assoc]
          exact classifyWordLine_from_ident d r2 hid
    case isFalse hnf =>
      unfold classifyWordLine
      have hm1 : ¬ (List.isPrefixOf ("import".toList) (pyRstrip l) = true) := by
        intro hp2
        apply hnpre
        rw [List.isPrefixOf_iff_prefix] at hp2 ⊢
        exact hp2.trans hmpr
      have hm2 : ¬ (List.isPrefixOf ("from".toList) (pyRstrip l) = true) := by
        intro hp2
        apply hnf
        rw [List.isPrefixOf_iff_prefix] at hp2 ⊢
        exact hp2.trans hmpr
      rw [if_neg hm1, if_neg hm2]

theorem classifyLineLF_rstrip_stmt (l : PyStr)
    (h : classifyLineLF l = some LineKind.stmt) :
    pyRstrip l ≠ [] ∧ classifyLineLF (pyRstrip l) = some LineKind.stmt := by
  obtain ⟨hnb, hLF⟩ := classifyLineLF_elim l _ h
  clear h
  obtain ⟨c, x, rfl⟩ : ∃ c x, l = c :: x := by
    cases l with
    | nil => exact absurd hLF (by decide)
    | cons c x => exact ⟨c, x, rfl⟩
  have hcsp : c ≠ ' ' := by
    intro hc
    subst hc
    rcases classifyLF_space_head x with h1 | h1 | h1
    · rw [h1] at hLF; simp at hLF
    · rw [h1] at hLF; simp at hLF
    · rw [h1] at hLF; cases hLF
  rw [classifyLF_cons c x hcsp] at hLF
  split at hLF
  · simp at hLF
  · rename_i hHash
    split at hLF
    case isTrue hq =>
      split at hLF
      · simp at hLF
      · cases hLF
    case isFalse hnq =>
      split at hLF
      case isFalse => cases hLF
      case isTrue halpha =>
        have hcnw : isPyWs c = false := alphau_not_ws c halpha
        have hchead : [c] <+: pyRstrip (c :: x) := by
          apply prefix_of_rstrip
          · exact ⟨x, rfl⟩
          · intro ch hch
            rcases List.mem_singleton.1 hch with rfl
            exact hcnw
        obtain ⟨m2, hm2⟩ := hchead
        have hw2 := classifyWordLine_rstrip_stmt (c :: x) hLF
        refine ⟨?_, ?_⟩
        · rw [← hm2]
          simp
        · rw [classifyLineLF_eq_classifyLF _ (any_oddBreak_rstrip (c :: x) hnb), ← hm2,
            show ([c] ++ m2 : PyStr) = c :: m2 from rfl,
            classifyLF_cons c m2 hcsp, if_neg hHash, if_neg hnq, if_pos halpha,
            show (c :: m2 : PyStr) = pyRstrip (c :: x) from hm2]
          exact hw2

theorem classifyLineLF_rstrip (l : PyStr) (k : LineKind)
    (h : classifyLineLF l = some k) (hk : k ≠ LineKind.blank) :
    pyRstrip l ≠ [] ∧ classifyLineLF (pyRstrip l) = some k := by
  cases k with
  | blank => exact absurd rfl hk
  | comment => exact classifyLineLF_rstrip_comment l h
  | strLit => exact classifyLineLF_rstrip_strLit l h
  | imp o => exact classifyLineLF_rstrip_imp l o h
  | stmt => exact classifyLineLF_rstrip_stmt l h
  | impC o => exact absurd (classifyLineLF_props l _ h).2 (by simp [isLFKind])
  | stmtC => exact absurd (classifyLineLF_props l _ h).2 (by simp [isLFKind])

end RPI

namespace RPI

/-! ## Support lemmas for the whole-pipeline computation -/

theorem joinSrc_map_region {β : Type} (ct : CodeType) (X : List (PyStr × β)) :
    joinSrc (X.map (fun lk => ⟨ct, lk.1 ++ ['\n']⟩)) = joinLines (X.map Prod.fst) := by
  unfold joinSrc joinLines
  rw [List.map_map, List.map_map]
  rfl

theorem sepSpec_import_single (q : CodePartition) (oq : ImportObj)
    (hq : q.code_type = .IMPORT) (hp : parseImport q.src = some oq) :
    ∀ p ∈ sepSpec miniApi q,
      p.code_type = .IMPORT ∧ ∃ o, parseImport p.src = some o ∧ o.names.length = 1 := by
  intro p hmem
  unfold sepSpec at hmem
  rw [if_pos hq] at hmem
  have hobj : miniApi.import_obj_from_str q.src = some oq := hp
  rw [hobj] at hmem
  have hmem2 : p ∈ (if miniApi.has_multiple_imports oq = true then
      (miniApi.split_imports oq).map (fun o2 => (⟨.IMPORT, miniApi.to_text o2⟩ : CodePartition))
    else [q]) := hmem
  have hvalid := parseImport_valid q.src oq hp
  by_cases hm : miniApi.has_multiple_imports oq = true
  · rw [if_pos hm] at hmem2
    obtain ⟨o2, ho2, rfl⟩ := List.mem_map.1 hmem2
    have ho2n : o2 ∈ oq.names.map (fun n => (⟨[n]⟩ : ImportObj)) := ho2
    obtain ⟨n, hn, rfl⟩ := List.mem_map.1 ho2n
    refine ⟨rfl, ⟨[n]⟩, ?_, rfl⟩
    exact parseImport_render [n] (by simp)
      (fun m hm2 => by rcases List.mem_singleton.1 hm2 with rfl; exact hvalid.2 _ hn)
  · rw [if_neg hm] at hmem2
    rcases List.mem_singleton.1 hmem2 with rfl
    refine ⟨hq, oq, hp, ?_⟩
    have hlen : ¬ (1 < oq.names.length) := by
      intro hlt
      exact hm (by simpa [miniApi] using hlt)
    have hpos : 0 < oq.names.length := List.length_pos.2 hvalid.1
    omega

theorem sepSpec_import_ne_nil (q : CodePartition) (oq : ImportObj)
    (hq : q.code_type = .IMPORT) (hp : parseImport q.src = some oq) :
    sepSpec miniApi q ≠ [] := by
  unfold sepSpec
  rw [if_pos hq]
  have hobj : miniApi.import_obj_from_str q.src = some oq := hp
  rw [hobj]
  show (if miniApi.has_multiple_imports oq = true then
      (miniApi.split_imports oq).map (fun o2 => (⟨.IMPORT, miniApi.to_text o2⟩ : CodePartition))
    else [q]) ≠ []
  have hvalid := parseImport_valid q.src oq hp
  by_cases hm : miniApi.has_multiple_imports oq = true
  · rw [if_pos hm]
    intro hcon
    rw [List.map_eq_nil_iff] at hcon
    have : oq.names = [] := by
      have h2 : oq.names.map (fun n => (⟨[n]⟩ : ImportObj)) = [] := hcon
      exact List.map_eq_nil_iff.1 h2
    exact hvalid.1 this
  · rw [if_neg hm]
    exact List.cons_ne_nil _ _

theorem dictInsert_ne_nil {J : Type} [DecidableEq J] (d : List (J × CodePartition))
    (k : J) (v : CodePartition) : dictInsert d k v ≠ [] := by
  unfold dictInsert
  by_cases hk : d.any (fun kv => decide (kv.1 = k)) = true
  · rw [if_pos hk]
    intro hcon
    rw [List.map_eq_nil_iff] at hcon
    rw [hcon] at hk
    exact Bool.noConfusion hk
  · rw [if_neg hk]
    simp

theorem dictOfPairs_ne_nil {J : Type} [DecidableEq J]
    (pairs : List (J × CodePartition)) (h : pairs ≠ []) : dictOfPairs pairs ≠ [] := by
  have haux : ∀ (ps : List (J × CodePartition)) (d : List (J × CodePartition)), d ≠ [] →
      ps.foldl (fun d2 kv => dictInsert d2 kv.1 kv.2) d ≠ [] := by
    intro ps
    induction ps with
    | nil => intro d hd; exact hd
    | cons kv rest ih =>
      intro d _
      exact ih (dictInsert d kv.1 kv.2) (dictInsert_ne_nil d kv.1 kv.2)
  cases pairs with
  | nil => exact absurd rfl h
  | cons kv rest =>
    exact haux rest (dictInsert [] kv.1 kv.2) (dictInsert_ne_nil [] kv.1 kv.2)

theorem filterMap_isSome_nil_iff {α β : Type} (f : α → Option β) (l : List α)
    (h : ∀ x ∈ l, (f x).isSome = true) : (l.filterMap f = [] ↔ l = []) := by
  constructor
  · intro hfm
    cases l with
    | nil => rfl
    | cons a rest =>
      exfalso
      have ha := h a (List.mem_cons_self a rest)
      cases hf : f a with
      | none => rw [hf] at ha; cases ha
      | some b =>
        rw [List.filterMap_cons, hf] at hfm
        cases hfm
  · intro hl
    rw [hl]
    rfl

theorem filterMap_dictGet_parse (d : List (ImportObj × CodePartition))
    (hd : ∀ kv ∈ d, parseImport kv.2.src = some kv.1) :
    ∀ bl : List ImportObj, (∀ o ∈ bl, (dictGet d o).isSome = true) →
    (bl.filterMap (dictGet d)).map (fun p => parseImport p.src) = bl.map some := by
  intro bl
  induction bl with
  | nil => intro _; rfl
  | cons o rest ih =>
    intro h
    have ho := h o (List.mem_cons_self o rest)
    cases hg : dictGet d o with
    | none => rw [hg] at ho; cases ho
    | some p =>
      rw [List.filterMap_cons, hg, List.map_cons, List.map_cons]
      have hmem := dictGet_mem d o p hg
      have hp : parseImport p.src = some o := hd (o, p) hmem
      rw [hp, ih (fun o2 ho2 => h o2 (List.mem_cons_of_mem _ ho2))]

theorem minisort_blocks_found (d : List (ImportObj × CodePartition)) :
    ∀ bl ∈ miniSort (d.map Prod.fst), ∀ o ∈ bl, (dictGet d o).isSome = true := by
  intro bl hbl o ho
  unfold miniSort at hbl
  by_cases hk : d.map Prod.fst = []
  · rw [if_pos hk] at hbl
    cases hbl
  · rw [if_neg hk] at hbl
    rcases List.mem_singleton.1 hbl with rfl
    have hmem : o ∈ d.map Prod.fst :=
      (List.perm_insertionSort impLe (d.map Prod.fst)).mem_iff.1 ho
    exact dictGet_isSome_of_mem_keys d o hmem

theorem strictChain_insertionSort (keys : List ImportObj) (hnd : keys.Nodup) :
    strictChain (keys.insertionSort impLe) = true := by
  have hTot : IsTotal ImportObj impLe := ⟨fun a b => strLeB_total _ _⟩
  have hTr : IsTrans ImportObj impLe := ⟨fun a b c => strLeB_trans _ _ _⟩
  have hsorted : List.Sorted impLe (keys.insertionSort impLe) :=
    @List.sorted_insertionSort ImportObj impLe _ hTot hTr keys
  have hnd2 : (keys.insertionSort impLe).Nodup :=
    ((List.perm_insertionSort impLe keys).nodup_iff).2 hnd
  apply strictChain_of_pairwise
  exact hsorted.and hnd2

end RPI

namespace RPI

/-! ## The import bucket through the three passes -/

theorem takeWhile_append_of_all {α : Type} (p : α → Bool) :
    ∀ (a b : List α), (∀ x ∈ a, p x = true) →
    (a ++ b).takeWhile p = a ++ b.takeWhile p := by
  intro a
  induction a with
  | nil => intro b _; rfl
  | cons x rest ih =>
    intro b h
    rw [List.cons_append, List.takeWhile_cons_of_pos (h x (List.mem_cons_self x rest)),
      ih b (fun y hy => h y (List.mem_cons_of_mem _ hy)), List.cons_append]

theorem dropWhile_append_of_all {α : Type} (p : α → Bool) :
    ∀ (a b : List α), (∀ x ∈ a, p x = true) →
    (a ++ b).dropWhile p = b.dropWhile p := by
  intro a
  induction a with
  | nil => intro b _; rfl
  | cons x rest ih =>
    intro b h
    rw [List.cons_append, List.dropWhile_cons_of_pos (h x (List.mem_cons_self x rest)),
      ih b (fun y hy => h y (List.mem_cons_of_mem _ hy))]

theorem sepFlat_mem_single (ps : List CodePartition)
    (h : ∀ q ∈ ps, q.code_type = CodeType.IMPORT ∧ ∃ o, parseImport q.src = some o) :
    ∀ p ∈ (ps.map (sepSpec miniApi)).flatten,
      p.code_type = CodeType.IMPORT ∧
      ∃ o, parseImport p.src = some o ∧ o.names.length = 1 := by
  intro p hp
  obtain ⟨l, hl, hpl⟩ := List.mem_flatten.1 hp
  obtain ⟨q, hq, rfl⟩ := List.mem_map.1 hl
  obtain ⟨hqt, oq, hoq⟩ := h q hq
  exact sepSpec_import_single q oq hqt hoq p hpl

theorem sepFlat_ne_nil (ps : List CodePartition)
    (h : ∀ q ∈ ps, q.code_type = CodeType.IMPORT ∧ ∃ o, parseImport q.src = some o)
    (hne : ps ≠ []) : (ps.map (sepSpec miniApi)).flatten ≠ [] := by
  cases ps with
  | nil => exact absurd rfl hne
  | cons q rest =>
    obtain ⟨hqt, oq, hoq⟩ := h q (List.mem_cons_self q rest)
    rw [List.map_cons, List.flatten_cons]
    intro hcon
    exact sepSpec_import_ne_nil q oq hqt hoq (List.append_eq_nil.1 hcon).1

theorem dedupSpec_props (ps : List CodePartition)
    (h : ∀ q ∈ ps, q.code_type = CodeType.IMPORT ∧
         ∃ o, parseImport q.src = some o ∧ o.names.length = 1) :
    (∀ p ∈ dedupSpec miniApi [] ps, p.code_type = CodeType.IMPORT ∧
        ∃ o, parseImport p.src = some o ∧ o.names.length = 1) ∧
    (dedupSpec miniApi [] ps = [] ↔ ps = []) := by
  refine ⟨fun p hp => h p (dedupSpec_subset miniApi ps [] p hp), ?_, fun hp => by rw [hp]; rfl⟩
  intro hd
  cases ps with
  | nil => rfl
  | cons q rest =>
    obtain ⟨hqt, oq, hoq, _⟩ := h q (List.mem_cons_self q rest)
    exfalso
    have e1 : dedupSpec miniApi [] (q :: rest)
        = q :: dedupSpec miniApi [oq] rest := by
      conv_lhs => unfold dedupSpec
      rw [if_pos hqt]
      have hobj : miniApi.import_obj_from_str q.src = some oq := hoq
      rw [hobj]
      show (if oq ∈ ([] : List ImportObj) then dedupSpec miniApi [] rest
            else q :: dedupSpec miniApi (oq :: []) rest)
          = q :: dedupSpec miniApi [oq] rest
      rw [if_neg (List.not_mem_nil oq)]
    rw [e1] at hd
    cases hd

theorem pairsOf_mem (ps : List CodePartition) :
    ∀ kv ∈ pairsOf miniApi ps, kv.2 ∈ ps ∧ kv.2.code_type = CodeType.IMPORT ∧
      parseImport kv.2.src = some kv.1 := by
  intro kv hkv
  unfold pairsOf at hkv
  obtain ⟨p, hp, hmap⟩ := List.mem_filterMap.1 hkv
  have hpf := List.mem_filter.1 hp
  cases hobj : miniApi.import_obj_from_str p.src with
  | none => rw [hobj] at hmap; cases hmap
  | some o =>
    rw [hobj] at hmap
    injection hmap with h2
    rw [← h2]
    exact ⟨hpf.1, of_decide_eq_true hpf.2, hobj⟩

theorem pairsOf_src_props (ps : List CodePartition)
    (h : ∀ q ∈ ps, q.code_type = CodeType.IMPORT ∧
         ∃ o, parseImport q.src = some o ∧ o.names.length = 1) :
    (∀ kv ∈ pairsOf miniApi ps,
        parseImport kv.2.src = some kv.1 ∧ kv.1.names.length = 1) ∧
    (pairsOf miniApi ps = [] ↔ ps = []) := by
  constructor
  · intro kv hkv
    obtain ⟨hmem, _, hparse⟩ := pairsOf_mem ps kv hkv
    obtain ⟨_, o, ho, hlen⟩ := h kv.2 hmem
    refine ⟨hparse, ?_⟩
    rw [ho] at hparse
    injection hparse with h2
    rw [← h2]
    exact hlen
  · have hfe : ps.filter (fun p => p.code_type = CodeType.IMPORT) = ps :=
      List.filter_eq_self.2 (fun q hq => decide_eq_true (h q hq).1)
    have hiff := filterMap_isSome_nil_iff
      (fun p => (miniApi.import_obj_from_str p.src).map (fun o => (o, p))) ps ?hs
    case hs =>
      intro q hq
      obtain ⟨_, o, ho, _⟩ := h q hq
      have hobj : miniApi.import_obj_from_str q.src = some o := ho
      show ((miniApi.import_obj_from_str q.src).map (fun o2 => (o2, q))).isSome = true
      rw [hobj]
      rfl
    unfold pairsOf
    rw [hfe]
    exact hiff

theorem sortedImports_props (ps : List CodePartition)
    (h : ∀ q ∈ ps, q.code_type = CodeType.IMPORT ∧
         ∃ o, parseImport q.src = some o ∧ o.names.length = 1) :
    (∀ p ∈ sortedImports ps, p ∈ ps) ∧
    (∃ keys : List ImportObj,
      (sortedImports ps).map (fun p => parseImport p.src) = keys.map some ∧
      strictChain keys = true ∧ ∀ o ∈ keys, o.names.length = 1) ∧
    (sortedImports ps = [] ↔ ps = []) := by
  have hsrc := pairsOf_src_props ps h
  have hdmem : ∀ kv ∈ dictOfPairs (pairsOf miniApi ps), kv ∈ pairsOf miniApi ps :=
    dictOfPairs_mem (pairsOf miniApi ps)
  have hdparse : ∀ kv ∈ dictOfPairs (pairsOf miniApi ps),
      parseImport kv.2.src = some kv.1 :=
    fun kv hkv => (hsrc.1 kv (hdmem kv hkv)).1
  have hnd : ((dictOfPairs (pairsOf miniApi ps)).map Prod.fst).Nodup :=
    dictOfPairs_keys_nodup (pairsOf miniApi ps)
  have hperm := List.perm_insertionSort impLe
    ((dictOfPairs (pairsOf miniApi ps)).map Prod.fst)
  have hKsome : ∀ o ∈ ((dictOfPairs (pairsOf miniApi ps)).map Prod.fst).insertionSort impLe,
      (dictGet (dictOfPairs (pairsOf miniApi ps)) o).isSome = true :=
    fun o ho => dictGet_isSome_of_mem_keys _ o (hperm.mem_iff.1 ho)
  refine ⟨?_, ⟨((dictOfPairs (pairsOf miniApi ps)).map Prod.fst).insertionSort impLe,
      ?_, ?_, ?_⟩, ?_⟩
  · intro p hp
    obtain ⟨o, _, hg⟩ := List.mem_filterMap.1 hp
    have hd := dictGet_mem _ o p hg
    exact (pairsOf_mem ps (o, p) (hdmem _ hd)).1
  · exact filterMap_dictGet_parse _ hdparse _ hKsome
  · exact strictChain_insertionSort _ hnd
  · intro o ho
    obtain ⟨kv, hkv, hfst⟩ := List.mem_map.1 (hperm.mem_iff.1 ho)
    have hh := (hsrc.1 kv (hdmem kv hkv)).2
    rw [← hfst]
    exact hh
  · have h1 : sortedImports ps = []
        ↔ ((dictOfPairs (pairsOf miniApi ps)).map Prod.fst).insertionSort impLe = [] :=
      filterMap_isSome_nil_iff _ _ hKsome
    rw [h1]
    constructor
    · intro hK
      have hlen := hperm.length_eq
      rw [hK] at hlen
      have hkeys : (dictOfPairs (pairsOf miniApi ps)).map Prod.fst = [] :=
        List.eq_nil_of_length_eq_zero hlen.symm
      have hd : dictOfPairs (pairsOf miniApi ps) = [] := List.map_eq_nil_iff.1 hkeys
      have hpairs : pairsOf miniApi ps = [] := by
        by_contra hne
        exact dictOfPairs_ne_nil _ hne hd
      exact hsrc.2.1 hpairs
    · intro hps
      have hpairs : pairsOf miniApi ps = [] := hsrc.2.2 hps
      rw [hpairs]
      rfl

theorem impLK_parse (lks : List (PyStr × LineKind))
    (hWF : ∀ lk ∈ lks, classifyLineLF lk.1 = some lk.2) :
    ∀ lo ∈ impLK false lks, parseImport (lo.1 ++ ['\n']) = some lo.2 := by
  intro lo hlo
  rcases impLK_mem lks false lo hlo with hm | hm
  · exact classify_imp_parse lo.1 lo.2 (hWF _ hm)
  · have hk := (classifyLineLF_props _ _ (hWF _ hm)).2
    simp [isLFKind] at hk

theorem impBase_props (lks : List (PyStr × LineKind))
    (hWF : ∀ lk ∈ lks, classifyLineLF lk.1 = some lk.2) :
    ∀ q ∈ (impLK false lks).map
        (fun lo => (⟨CodeType.IMPORT, lo.1 ++ ['\n']⟩ : CodePartition)),
      q.code_type = CodeType.IMPORT ∧ ∃ o, parseImport q.src = some o := by
  intro q hq
  obtain ⟨lo, hlo, rfl⟩ := List.mem_map.1 hq
  exact ⟨rfl, lo.2, impLK_parse lks hWF lo hlo⟩

theorem impPartsOf_props (lks : List (PyStr × LineKind))
    (hWF : ∀ lk ∈ lks, classifyLineLF lk.1 = some lk.2) :
    (∀ p ∈ impPartsOf lks, p.code_type = CodeType.IMPORT ∧
        ∃ o, parseImport p.src = some o ∧ o.names.length = 1) ∧
    (impPartsOf lks = [] ↔ impLK false lks = []) := by
  have hsep := sepFlat_mem_single _ (impBase_props lks hWF)
  have hded := dedupSpec_props _ hsep
  refine ⟨hded.1, ?_⟩
  have h2 : impPartsOf lks = []
      ↔ (((impLK false lks).map
          (fun lo => (⟨CodeType.IMPORT, lo.1 ++ ['\n']⟩ : CodePartition))).map
         (sepSpec miniApi)).flatten = [] := hded.2
  rw [h2]
  constructor
  · intro hfl
    by_contra hne
    refine sepFlat_ne_nil _ (impBase_props lks hWF) ?_ hfl
    intro hmap
    exact hne (List.map_eq_nil_iff.1 hmap)
  · intro h0
    rw [h0]
    rfl

theorem blocksWithSeps_miniSort (K : List ImportObj)
    (g : ImportObj → Option CodePartition) :
    blocksWithSeps ((miniSort K).map (fun bl => bl.filterMap g))
      = (K.insertionSort impLe).filterMap g := by
  unfold miniSort
  by_cases hk : K = []
  · rw [if_pos hk, hk]
    rfl
  · rw [if_neg hk]
    rfl

theorem joinSrc_eq_joinLines_dropLast (ps : List CodePartition)
    (h : ∀ p ∈ ps, ∃ l, p.src = l ++ ['\n']) :
    joinSrc ps = joinLines (ps.map (fun p => p.src.dropLast)) := by
  induction ps with
  | nil => rfl
  | cons p rest ih =>
    obtain ⟨l, hl⟩ := h p (List.mem_cons_self p rest)
    rw [joinSrc_cons, List.map_cons, joinLines_cons,
      ih (fun q hq => h q (List.mem_cons_of_mem _ hq)), hl, List.dropLast_concat,
      List.append_assoc]
    rfl

theorem stripTrail_shape (ls : List PyStr) :
    stripTrail ls = [] ∨ ∃ a b, stripTrail ls = a ++ [b] ∧ b ≠ [] := by
  unfold stripTrail
  rcases stripTrailAux_spec ls.reverse with ⟨h1, _⟩ | ⟨a, b, t, _, _, h3, h4⟩
  · rw [h1]
    exact Or.inl rfl
  · rw [h4]
    exact Or.inr ⟨t.reverse, pyRstrip b, by rw [List.reverse_cons], h3⟩

theorem fix_file_contents_eq {J : Type} [DecidableEq J]
    (astF : PyStr → Option (List Nat)) (tokF : PyStr → Option (List Tok))
    (api : AspyApi J) (s : PyStr) (p0 p1 p2 p3 : List CodePartition)
    (h0 : partition_source astF tokF s = .ok p0)
    (h1 : separate_comma_imports api p0 = .ok p1)
    (h2 : remove_duplicated_imports api p1 = .ok p2)
    (h3 : apply_import_sorting api p2 = .ok p3) :
    fix_file_contents astF tokF api s = .ok (joinSrc p3) := by
  unfold fix_file_contents
  simp only [h0, h1, h2, h3]

end RPI

namespace RPI

/-! ## The sorting pass and the code tail, in model terms -/

theorem isSwallowKind_cases (k : LineKind) (h : isSwallowKind k = true) :
    k = LineKind.stmt ∨ k = LineKind.strLit := by
  cases k
  case stmt => exact Or.inl rfl
  case strLit => exact Or.inr rfl
  all_goals exact Bool.noConfusion h

theorem codeLK_false_head_kind (lks : List (PyStr × LineKind))
    (hLF : ∀ x ∈ lks, isLFKind x.2 = true) (x : PyStr × LineKind)
    (rest : List (PyStr × LineKind)) (hc : codeLK false lks = x :: rest) :
    x.2 = LineKind.stmt ∨ x.2 = LineKind.comment ∨ x.2 = LineKind.strLit := by
  rcases codeLK_shape_false lks hLF with ⟨_, hcase⟩ | ⟨_, cmt, sw, heq, hcmt, hsw⟩
  · rcases hcase with hnil | ⟨h, t, he, hk⟩
    · rw [hc] at hnil; cases hnil
    · rw [hc] at he
      injection he with e1 _
      exact Or.inl (by rw [e1]; exact hk)
  · cases cmt with
    | nil =>
      rcases hsw with hnil | ⟨h, t, he, hk⟩
      · rw [heq, hnil] at hc
        cases hc
      · rw [heq, he] at hc
        simp only [List.nil_append] at hc
        injection hc with e1 _
        rcases isSwallowKind_cases h.2 hk with h2 | h2
        · exact Or.inl (by rw [← e1]; exact h2)
        · exact Or.inr (Or.inr (by rw [← e1]; exact h2))
    | cons c0 cmt2 =>
      rw [heq] at hc
      simp only [List.cons_append] at hc
      injection hc with e1 _
      exact Or.inr (Or.inl (by rw [← e1]; exact hcmt c0 (List.mem_cons_self _ _)))

theorem codeLK_true_head_kind (lks : List (PyStr × LineKind))
    (hLF : ∀ x ∈ lks, isLFKind x.2 = true) (x : PyStr × LineKind)
    (rest : List (PyStr × LineKind)) (hc : codeLK true lks = x :: rest) :
    x.2 = LineKind.stmt ∨ x.2 = LineKind.comment ∨ x.2 = LineKind.strLit := by
  obtain ⟨cmt, sw, heq, hcmt, hsw⟩ := codeLK_shape_true lks hLF
  cases cmt with
  | nil =>
    rcases hsw with hnil | ⟨h, t, he, hk⟩
    · rw [heq, hnil] at hc
      cases hc
    · rw [heq, he] at hc
      simp only [List.nil_append] at hc
      injection hc with e1 _
      rcases isSwallowKind_cases h.2 hk with h2 | h2
      · exact Or.inl (by rw [← e1]; exact h2)
      · exact Or.inr (Or.inr (by rw [← e1]; exact h2))
  | cons c0 cmt2 =>
    rw [heq] at hc
    simp only [List.cons_append] at hc
    injection hc with e1 _
    exact Or.inr (Or.inl (by rw [← e1]; exact hcmt c0 (List.mem_cons_self _ _)))

theorem lstripNl_joinLines_code (lks : List (PyStr × LineKind))
    (hWF : ∀ lk ∈ lks, classifyLineLF lk.1 = some lk.2)
    (hnl : ∀ lk ∈ lks, ¬ '\n' ∈ lk.1)
    (hLF : ∀ x ∈ lks, isLFKind x.2 = true) :
    lstripNl (joinLines ((codeLK false lks).map Prod.fst))
      = joinLines ((codeLK false lks).map Prod.fst) := by
  cases hc : codeLK false lks with
  | nil => rfl
  | cons x rest =>
    have hx : x ∈ lks := codeLK_subset lks false x (by rw [hc]; exact List.mem_cons_self _ _)
    have hkind := codeLK_false_head_kind lks hLF x rest hc
    have hkb : x.2 ≠ LineKind.blank := by
      rcases hkind with h | h | h <;> rw [h] <;> intro hcon <;> cases hcon
    have hne : x.1 ≠ [] := classify_nonblank_ne_nil x.1 x.2 (hWF x hx) hkb
    cases hx1 : x.1 with
    | nil => exact absurd hx1 hne
    | cons c y =>
      have hcN : c ≠ '\n' := by
        intro hcon
        exact hnl x hx (by rw [hx1, hcon]; exact List.mem_cons_self _ _)
      rw [List.map_cons, joinLines_cons, hx1]
      exact lstripNl_of_head c y _ hcN

theorem restsrc_cases (ls : List PyStr) :
    ((joinLines (stripTrail ls)).dropLast = [] ∧ stripTrail ls = []) ∨
    ((joinLines (stripTrail ls)).dropLast ≠ [] ∧
     (joinLines (stripTrail ls)).dropLast ++ ['\n'] = joinLines (stripTrail ls)) := by
  rcases stripTrail_shape ls with h | ⟨a, b, hab, hb⟩
  · rw [h]
    exact Or.inl ⟨rfl, rfl⟩
  · rw [hab, joinLines_append, joinLines_singleton, ← List.append_assoc,
      List.dropLast_concat]
    refine Or.inr ⟨?_, rfl⟩
    intro hcon
    exact hb (List.append_eq_nil.1 hcon).2

theorem apply_sorting_model (lks : List (PyStr × LineKind)) (P2 : List CodePartition)
    (hfilter : P2.filter (fun p => p.code_type = CodeType.IMPORT) = impPartsOf lks)
    (hall : ∀ p ∈ impPartsOf lks, p.code_type = CodeType.IMPORT ∧
        ∃ o, parseImport p.src = some o ∧ o.names.length = 1) :
    apply_import_sorting miniApi P2 = .ok (
      P2.filter (fun p => p.code_type = CodeType.PRE_IMPORT_CODE)
      ++ sortedImports (impPartsOf lks)
      ++ (if pyRstrip (lstripNl (joinSrc (P2.filter
            (fun p => p.code_type = CodeType.CODE)))) ≠ [] then
            [⟨CodeType.NON_CODE, ['\n', '\n']⟩,
             ⟨CodeType.CODE, pyRstrip (lstripNl (joinSrc (P2.filter
                (fun p => p.code_type = CodeType.CODE)))) ++ ['\n']⟩]
          else [])) := by
  have h1 : ∀ p ∈ P2.filter (fun p => p.code_type = CodeType.IMPORT),
      (miniApi.import_obj_from_str p.src).isSome = true := by
    intro p hp
    rw [hfilter] at hp
    obtain ⟨_, o, ho, _⟩ := hall p hp
    show (parseImport p.src).isSome = true
    rw [ho]
    rfl
  have h2 : ∀ bl ∈ miniApi.sortBlocks ((dictOfPairs (pairsOf miniApi P2)).map Prod.fst),
      ∀ o ∈ bl, (dictGet (dictOfPairs (pairsOf miniApi P2)) o).isSome = true :=
    minisort_blocks_found _
  have hs := apply_import_sorting_struct miniApi P2 h1 h2
  rw [hs]
  have hpe : pairsOf miniApi P2 = pairsOf miniApi (impPartsOf lks) := by
    have hfe : (impPartsOf lks).filter (fun p => p.code_type = CodeType.IMPORT)
        = impPartsOf lks :=
      List.filter_eq_self.2 (fun p hp => decide_eq_true (hall p hp).1)
    unfold pairsOf
    rw [hfilter, hfe]
  have hmid : blocksWithSeps
      ((miniApi.sortBlocks ((dictOfPairs (pairsOf miniApi P2)).map Prod.fst)).map
        (fun bl => bl.filterMap (dictGet (dictOfPairs (pairsOf miniApi P2)))))
      = sortedImports (impPartsOf lks) := by
    have hb := blocksWithSeps_miniSort ((dictOfPairs (pairsOf miniApi P2)).map Prod.fst)
      (dictGet (dictOfPairs (pairsOf miniApi P2)))
    rw [show miniApi.sortBlocks = miniSort from rfl, hb, hpe]
    rfl
  rw [hmid]

end RPI

namespace RPI

/-! ## The whole transformation on a classified source -/

set_option maxHeartbeats 2000000 in
theorem fixModel_on_lines (lks : List (PyStr × LineKind))
    (hWF : ∀ lk ∈ lks, classifyLineLF lk.1 = some lk.2)
    (hnl : ∀ lk ∈ lks, ¬ '\n' ∈ lk.1) :
    fixModel (joinLines (lks.map Prod.fst)) = .ok (joinLines (outLinesOf lks)) := by
  have hLF : ∀ lk ∈ lks, isLFKind lk.2 = true :=
    fun lk hm => (classifyLineLF_props _ _ (hWF lk hm)).2
  have hpart := partition_model_ok lks hWF hnl
  have hbase := impBase_props lks hWF
  have hprops := impPartsOf_props lks hWF
  have hPimp := filter_imp_partitionLines lks false
  have h1hyp : ∀ p ∈ partitionLines false lks, p.code_type = CodeType.IMPORT →
      (miniApi.import_obj_from_str p.src).isSome = true := by
    intro p hp ht
    have hmem : p ∈ (partitionLines false lks).filter
        (fun p => p.code_type = CodeType.IMPORT) :=
      List.mem_filter.2 ⟨hp, decide_eq_true ht⟩
    rw [hPimp] at hmem
    obtain ⟨_, o, ho⟩ := hbase p hmem
    show (parseImport p.src).isSome = true
    rw [ho]
    rfl
  have h1 := separate_comma_ok miniApi _ h1hyp
  have hP1imp := sepFlat_filter_import miniApi (partitionLines false lks)
  rw [hPimp] at hP1imp
  have hP1props := sepFlat_mem_single _ hbase
  have h2hyp : ∀ p ∈ ((partitionLines false lks).map (sepSpec miniApi)).flatten,
      p.code_type = CodeType.IMPORT →
      (miniApi.import_obj_from_str p.src).isSome = true := by
    intro p hp ht
    have hmem : p ∈ (((partitionLines false lks).map (sepSpec miniApi)).flatten).filter
        (fun p => p.code_type = CodeType.IMPORT) :=
      List.mem_filter.2 ⟨hp, decide_eq_true ht⟩
    rw [hP1imp] at hmem
    obtain ⟨_, o, ho, _⟩ := hP1props p hmem
    show (parseImport p.src).isSome = true
    rw [ho]
    rfl
  have h2 : remove_duplicated_imports miniApi
      (((partitionLines false lks).map (sepSpec miniApi)).flatten)
      = .ok (dedupSpec miniApi []
          (((partitionLines false lks).map (sepSpec miniApi)).flatten)) :=
    removeDupAux_spec miniApi _ [] h2hyp
  have hfilter : (dedupSpec miniApi []
        (((partitionLines false lks).map (sepSpec miniApi)).flatten)).filter
      (fun p => p.code_type = CodeType.IMPORT) = impPartsOf lks := by
    have hd := dedupSpec_filter_import miniApi
      (((partitionLines false lks).map (sepSpec miniApi)).flatten) []
    rw [hP1imp] at hd
    exact hd
  have h3 := apply_sorting_model lks _ hfilter hprops.1
  have hfc := fix_file_contents_eq miniAstF miniTokF miniApi _ _ _ _ _ hpart h1 h2 h3
  unfold fixModel
  rw [hfc]
  congr 1
  have hpreB : (dedupSpec miniApi []
        (((partitionLines false lks).map (sepSpec miniApi)).flatten)).filter
      (fun p => p.code_type = CodeType.PRE_IMPORT_CODE)
      = (preLK lks).map
          (fun lk => (⟨CodeType.PRE_IMPORT_CODE, lk.1 ++ ['\n']⟩ : CodePartition)) := by
    rw [dedupSpec_filter_ne_import miniApi CodeType.PRE_IMPORT_CODE (by decide)
        (((partitionLines false lks).map (sepSpec miniApi)).flatten) [],
      sepFlat_filter_ne_import miniApi CodeType.PRE_IMPORT_CODE (by decide)
        (partitionLines false lks),
      filter_pre_partitionLines]
  have hcodeB : joinSrc ((dedupSpec miniApi []
        (((partitionLines false lks).map (sepSpec miniApi)).flatten)).filter
      (fun p => p.code_type = CodeType.CODE))
      = joinLines ((codeLK false lks).map Prod.fst) := by
    rw [dedupSpec_filter_ne_import miniApi CodeType.CODE (by decide)
        (((partitionLines false lks).map (sepSpec miniApi)).flatten) [],
      sepFlat_filter_ne_import miniApi CodeType.CODE (by decide)
        (partitionLines false lks)]
    exact joinSrc_filter_code lks false
  have hrest : pyRstrip (lstripNl (joinSrc ((dedupSpec miniApi []
        (((partitionLines false lks).map (sepSpec miniApi)).flatten)).filter
      (fun p => p.code_type = CodeType.CODE))))
      = (joinLines (stripTrail ((codeLK false lks).map Prod.fst))).dropLast := by
    rw [hcodeB, lstripNl_joinLines_code lks hWF hnl hLF, pyRstrip_joinLines]
  have hSI := sortedImports_props (impPartsOf lks) hprops.1
  have hBsrc : ∀ p ∈ sortedImports (impPartsOf lks), ∃ l, p.src = l ++ ['\n'] := by
    intro p hp
    obtain ⟨_, o, ho, _⟩ := hprops.1 p (hSI.1 p hp)
    obtain ⟨b, hsrc, _⟩ := (parseImport_eq_some p.src o).1 ho
    exact ⟨("import ".toList) ++ b, hsrc⟩
  have hBjoin := joinSrc_eq_joinLines_dropLast _ hBsrc
  rw [joinSrc_append, joinSrc_append, hpreB, joinSrc_map_region, hBjoin]
  unfold outLinesOf
  rw [joinLines_append, joinLines_append]
  congr 1
  rcases restsrc_cases ((codeLK false lks).map Prod.fst) with ⟨hz, hst⟩ | ⟨hnz, happ⟩
  · rw [if_neg (fun hcon => hcon (hrest.trans hz)), if_pos hst]
    rfl
  · have hcond : pyRstrip (lstripNl (joinSrc ((dedupSpec miniApi []
          (((partitionLines false lks).map (sepSpec miniApi)).flatten)).filter
        (fun p => p.code_type = CodeType.CODE)))) ≠ [] := by
      rw [hrest]
      exact hnz
    have hstne : stripTrail ((codeLK false lks).map Prod.fst) ≠ [] := by
      intro hcon
      rw [hcon] at hnz
      exact hnz rfl
    have hsrc2 : pyRstrip (lstripNl (joinSrc ((dedupSpec miniApi []
          (((partitionLines false lks).map (sepSpec miniApi)).flatten)).filter
        (fun p => p.code_type = CodeType.CODE)))) ++ ['\n']
        = joinLines (stripTrail ((codeLK false lks).map Prod.fst)) := by
      rw [hrest]
      exact happ
    rw [if_pos hcond, if_neg hstne, hsrc2]
    simp [joinSrc, joinLines_cons]

end RPI

namespace RPI

/-! ## Structural lemmas toward the canonical form of the output -/

theorem preLK_kinds : ∀ lks : List (PyStr × LineKind), ∀ x ∈ preLK lks,
    isPreKind x.2 = true := by
  intro lks
  induction lks with
  | nil => intro x h; cases h
  | cons lk rest ih =>
    intro x h
    obtain ⟨l, k⟩ := lk
    cases k <;> simp only [preLK] at h
    case blank => exact ih x h
    case comment =>
      rcases List.mem_cons.1 h with rfl | h2
      · rfl
      · exact ih x h2
    case strLit =>
      rcases List.mem_cons.1 h with rfl | h2
      · rfl
      · exact ih x h2
    all_goals cases h

theorem isSingleImp_imp (k : LineKind) (h : isSingleImp k = true) :
    ∃ o, k = LineKind.imp o ∧ o.names.length = 1 := by
  cases k
  case imp o => exact ⟨o, rfl, of_decide_eq_true h⟩
  all_goals exact Bool.noConfusion h

theorem classifyWordLine_ne_blank (l : PyStr)
    (h : classifyWordLine l = some LineKind.blank) : False := by
  rcases classifyWordLine_kinds l _ h with ⟨o, ho⟩ | hs
  · cases ho
  · cases hs

theorem classifyLF_blank (l : PyStr) (h : classifyLF l = some LineKind.blank) :
    isBlankLine l = true := by
  unfold classifyLF at h
  split at h
  · assumption
  · split at h
    · cases h
    · split at h
      · injection h with h2
        cases h2
      · split at h
        · cases h
        · split at h
          · split at h
            · injection h with h2
              cases h2
            · cases h
          · split at h
            · exact (classifyWordLine_ne_blank l h).elim
            · cases h

theorem classify_blank_rstrip (l : PyStr)
    (h : classifyLineLF l = some LineKind.blank) : pyRstrip l = [] := by
  unfold classifyLineLF at h
  split at h
  · cases h
  · have hb := classifyLF_blank l h
    rw [pyRstrip_eq_nil_iff]
    intro c hc
    have h2 := List.all_eq_true.1 hb c hc
    rw [of_decide_eq_true h2]
    decide

theorem head_ne_nl (l : PyStr) (hne : l ≠ []) (h : ¬ '\n' ∈ l) :
    ¬ l.head! = '\n' := by
  cases l with
  | nil => exact absurd rfl hne
  | cons d r =>
    rw [List.head!_cons]
    intro hcon
    apply h
    rw [← hcon]
    exact List.mem_cons_self _ _

theorem concat_inj2 {α : Type} (a b : List α) (x y : α) (h : a ++ [x] = b ++ [y]) :
    a = b ∧ x = y := by
  have h1 := congrArg List.getLast? h
  rw [List.getLast?_concat, List.getLast?_concat] at h1
  injection h1 with hx
  refine ⟨?_, hx⟩
  rw [hx] at h
  exact List.append_cancel_right h

theorem prefix_split {α : Type} (a b c d : List α) (h : a ++ b = c ++ d) :
    a <+: c ∨ ∃ sp, a = c ++ sp ∧ sp ≠ [] ∧ sp <+: d := by
  by_cases hl : a.length ≤ c.length
  · left
    have ha : a = (c ++ d).take a.length := by
      rw [← h, List.take_left]
    rw [List.take_append_eq_append_take, Nat.sub_eq_zero_of_le hl, List.take_zero,
      List.append_nil] at ha
    rw [ha]
    exact List.take_prefix _ _
  · right
    push_neg at hl
    have ha : a = (c ++ d).take a.length := by
      rw [← h, List.take_left]
    rw [List.take_append_eq_append_take, List.take_of_length_le (le_of_lt hl)] at ha
    refine ⟨d.take (a.length - c.length), ha, ?_, List.take_prefix _ _⟩
    intro hcon
    rcases List.take_eq_nil_iff.1 hcon with h0 | h0
    · omega
    · rw [h0, List.take_nil, List.append_nil] at ha
      rw [ha] at hl
      exact absurd hl (lt_irrefl _)

theorem stripTrailPAux_spec (rl : List (PyStr × LineKind)) :
    (stripTrailPAux rl = [] ∧ ∀ x ∈ rl, pyRstrip x.1 = []) ∨
    (∃ a b t, rl = a ++ b :: t ∧ (∀ x ∈ a, pyRstrip x.1 = []) ∧ pyRstrip b.1 ≠ [] ∧
      stripTrailPAux rl = (pyRstrip b.1, b.2) :: t) := by
  induction rl with
  | nil => exact Or.inl ⟨rfl, by intro x h; cases h⟩
  | cons x rest ih =>
    obtain ⟨l, k⟩ := x
    by_cases hl : pyRstrip l = []
    · rcases ih with ⟨h1, h2⟩ | ⟨a, b, t, h1, h2, h3, h4⟩
      · refine Or.inl ⟨?_, ?_⟩
        · simp only [stripTrailPAux, if_pos hl]
          exact h1
        · intro y hy
          rcases List.mem_cons.1 hy with rfl | hy
          · exact hl
          · exact h2 y hy
      · refine Or.inr ⟨(l, k) :: a, b, t, by rw [h1]; rfl, ?_, h3, ?_⟩
        · intro y hy
          rcases List.mem_cons.1 hy with rfl | hy
          · exact hl
          · exact h2 y hy
        · simp only [stripTrailPAux, if_pos hl]
          exact h4
    · refine Or.inr ⟨[], (l, k), rest, rfl, ?_, hl, ?_⟩
      · intro y hy
        cases hy
      · simp only [stripTrailPAux, if_neg hl]

theorem stripTrailP_shape (ls : List (PyStr × LineKind)) :
    stripTrailP ls = [] ∨
    ∃ q e w, ls = q ++ [e] ++ w ∧ (∀ x ∈ w, pyRstrip x.1 = []) ∧ pyRstrip e.1 ≠ [] ∧
      stripTrailP ls = q ++ [(pyRstrip e.1, e.2)] := by
  unfold stripTrailP
  rcases stripTrailPAux_spec ls.reverse with ⟨h1, _⟩ | ⟨a, b, t, h1, h2, h3, h4⟩
  · rw [h1]
    exact Or.inl rfl
  · right
    refine ⟨t.reverse, b, a.reverse, ?_, ?_, h3, ?_⟩
    · have h5 := congrArg List.reverse h1
      rw [List.reverse_reverse] at h5
      rw [h5, List.reverse_append, List.reverse_cons]
    · intro x hx
      exact h2 x (List.mem_reverse.1 hx)
    · rw [h4, List.reverse_cons]

theorem stripTrailPAux_fst : ∀ rl : List (PyStr × LineKind),
    (stripTrailPAux rl).map Prod.fst = stripTrailAux (rl.map Prod.fst) := by
  intro rl
  induction rl with
  | nil => rfl
  | cons x rest ih =>
    obtain ⟨l, k⟩ := x
    by_cases hl : pyRstrip l = []
    · simp only [stripTrailPAux, stripTrailAux, List.map_cons, if_pos hl]
      exact ih
    · simp only [stripTrailPAux, stripTrailAux, List.map_cons, if_neg hl]

theorem stripTrailP_fst (ls : List (PyStr × LineKind)) :
    (stripTrailP ls).map Prod.fst = stripTrail (ls.map Prod.fst) := by
  unfold stripTrailP stripTrail
  rw [List.map_reverse, stripTrailPAux_fst, List.map_reverse]

theorem kinds_of_parse_map : ∀ (rs : List CodePartition) (keys : List ImportObj),
    rs.map (fun p => parseImport p.src) = keys.map some →
    rs.map (fun p => kindOf p.src.dropLast) = keys.map LineKind.imp := by
  intro rs
  induction rs with
  | nil =>
    intro keys h
    cases keys with
    | nil => rfl
    | cons k t => cases h
  | cons p rest ih =>
    intro keys h
    cases keys with
    | nil => cases h
    | cons k t =>
      rw [List.map_cons, List.map_cons] at h
      injection h with h1 h2
      rw [List.map_cons, List.map_cons, ih t h2]
      have hcl := (classify_of_parse p.src k h1).2.2
      have hko : kindOf p.src.dropLast = LineKind.imp k := by
        unfold kindOf
        rw [hcl]
        rfl
      rw [hko]

end RPI

namespace RPI

/-! ## Establishing `codeCanon` of a code-section line list -/

theorem codeCanon_intro_false (l0 : PyStr) (k0 : LineKind)
    (rest : List (PyStr × LineKind)) (ll : PyStr) (kl : LineKind)
    (hlast : ((l0, k0) :: rest).getLast? = some (ll, kl))
    (hllne : ll ≠ []) (hllws : isPyWs (ll.getLast!) = false)
    (hk0 : k0 = LineKind.stmt)
    (hl0 : l0 ≠ []) (hhead : ¬ l0.head! = '\n') :
    codeCanon false ((l0, k0) :: rest) = true := by
  simp only [codeCanon]
  rw [hlast]
  simp [hllne, hllws, hk0, hl0, hhead]

theorem codeCanon_intro_true (l0 : PyStr) (k0 : LineKind)
    (rest : List (PyStr × LineKind)) (ll : PyStr) (kl : LineKind)
    (hlast : ((l0, k0) :: rest).getLast? = some (ll, kl))
    (hllne : ll ≠ []) (hllws : isPyWs (ll.getLast!) = false)
    (hk0 : k0 = LineKind.comment ∨ isSwallowKind k0 = true)
    (hmid : ((l0, k0) :: rest).drop
        (((l0, k0) :: rest).takeWhile
          (fun lk => decide (lk.2 = LineKind.comment))).length = []
      ∨ ∃ yl yk t, ((l0, k0) :: rest).drop
          (((l0, k0) :: rest).takeWhile
            (fun lk => decide (lk.2 = LineKind.comment))).length = (yl, yk) :: t
          ∧ isSwallowKind yk = true)
    (hl0 : l0 ≠ []) (hhead : ¬ l0.head! = '\n') :
    codeCanon true ((l0, k0) :: rest) = true := by
  simp only [codeCanon]
  rw [hlast]
  simp only [Bool.and_eq_true]
  refine ⟨⟨⟨⟨decide_eq_true hllne, ?_⟩, ?_⟩, decide_eq_true hl0⟩, ?_⟩
  · simp [hllws]
  · rw [if_pos trivial, Bool.and_eq_true]
    constructor
    · rcases hk0 with h | h
      · simp [h]
      · simp [h]
    · rcases hmid with h | ⟨yl, yk, t, h, hsw⟩
      · rw [h]
      · rw [h]
        exact hsw
  · simp [hhead]

end RPI

namespace RPI

theorem codeCanon_false_of_split (stP : List (PyStr × LineKind))
    (hclP : ∀ x ∈ stP, classifyLineLF x.1 = some x.2)
    (hnlP : ∀ x ∈ stP, ¬ '\n' ∈ x.1)
    (hne : stP ≠ [])
    (hhead : ∀ y t, stP = y :: t → y.2 = LineKind.stmt)
    (ll : PyStr) (kl : LineKind) (hlast : stP.getLast? = some (ll, kl))
    (hllne : ll ≠ []) (hllws : isPyWs (ll.getLast!) = false) :
    codeCanon false stP = true := by
  obtain ⟨x0, t0, hx⟩ : ∃ x0 t0, stP = x0 :: t0 := by
    cases stP with
    | nil => exact absurd rfl hne
    | cons a b => exact ⟨a, b, rfl⟩
  obtain ⟨l0, k0⟩ := x0
  subst hx
  have hk0 : k0 = LineKind.stmt := hhead (l0, k0) t0 rfl
  have hx0cl := hclP (l0, k0) (List.mem_cons_self _ _)
  have hx0ne : l0 ≠ [] := by
    refine classify_nonblank_ne_nil l0 k0 hx0cl ?_
    rw [hk0]
    intro hcon
    cases hcon
  exact codeCanon_intro_false l0 k0 t0 ll kl hlast hllne hllws hk0 hx0ne
    (head_ne_nl l0 hx0ne (hnlP (l0, k0) (List.mem_cons_self _ _)))

theorem codeCanon_true_of_split (stP : List (PyStr × LineKind))
    (hclP : ∀ x ∈ stP, classifyLineLF x.1 = some x.2)
    (hnlP : ∀ x ∈ stP, ¬ '\n' ∈ x.1)
    (hne : stP ≠ [])
    (cmt2 sw2 : List (PyStr × LineKind)) (hsplit : stP = cmt2 ++ sw2)
    (hcmt2 : ∀ x ∈ cmt2, x.2 = LineKind.comment)
    (hsw2 : sw2 = [] ∨ ∃ yl yk t, sw2 = (yl, yk) :: t ∧ isSwallowKind yk = true)
    (ll : PyStr) (kl : LineKind) (hlast : stP.getLast? = some (ll, kl))
    (hllne : ll ≠ []) (hllws : isPyWs (ll.getLast!) = false) :
    codeCanon true stP = true := by
  obtain ⟨x0, t0, hx⟩ : ∃ x0 t0, stP = x0 :: t0 := by
    cases stP with
    | nil => exact absurd rfl hne
    | cons a b => exact ⟨a, b, rfl⟩
  obtain ⟨l0, k0⟩ := x0
  subst hx
  have hx0cl := hclP (l0, k0) (List.mem_cons_self _ _)
  -- head kind from the split
  have hk0 : k0 = LineKind.comment ∨ isSwallowKind k0 = true := by
    cases cmt2 with
    | nil =>
      rw [List.nil_append] at hsplit
      rcases hsw2 with h | ⟨yl, yk, t, h, hsw⟩
      · rw [h] at hsplit
        cases hsplit
      · rw [h] at hsplit
        injection hsplit with h1 _
        right
        rw [show k0 = ((l0, k0) : PyStr × LineKind).2 from rfl, h1]
        exact hsw
    | cons c cs =>
      left
      rw [List.cons_append] at hsplit
      injection hsplit with h1 _
      rw [show k0 = ((l0, k0) : PyStr × LineKind).2 from rfl, h1]
      exact hcmt2 c (List.mem_cons_self _ _)
  have hx0b : k0 ≠ LineKind.blank := by
    rcases hk0 with h | h
    · rw [h]; intro hcon; cases hcon
    · rcases isSwallowKind_cases k0 h with h2 | h2 <;> rw [h2] <;> intro hcon <;> cases hcon
  have hx0ne : l0 ≠ [] := classify_nonblank_ne_nil l0 k0 hx0cl hx0b
  -- the comment run and its stop
  have htw : ((l0, k0) :: t0).takeWhile (fun lk => decide (lk.2 = LineKind.comment))
      = cmt2 := by
    rw [hsplit, takeWhile_append_of_all _ cmt2 sw2
      (fun x hx2 => decide_eq_true (hcmt2 x hx2))]
    have h2 : sw2.takeWhile (fun lk => decide (lk.2 = LineKind.comment)) = [] := by
      rcases hsw2 with h | ⟨yl, yk, t, h, hsw⟩
      · rw [h]
        rfl
      · rw [h]
        refine List.takeWhile_cons_of_neg ?_
        intro hcon
        have h3 := of_decide_eq_true hcon
        rcases isSwallowKind_cases yk hsw with h4 | h4 <;> rw [h4] at h3 <;> cases h3
    rw [h2, List.append_nil]
  have hdrop : ((l0, k0) :: t0).drop
      (((l0, k0) :: t0).takeWhile (fun lk => decide (lk.2 = LineKind.comment))).length
      = sw2 := by
    rw [htw, hsplit, List.drop_left]
  refine codeCanon_intro_true l0 k0 t0 ll kl hlast hllne hllws hk0 ?_ hx0ne
    (head_ne_nl l0 hx0ne (hnlP (l0, k0) (List.mem_cons_self _ _)))
  rcases hsw2 with h | ⟨yl, yk, t, h, hsw⟩
  · exact Or.inl (by rw [hdrop, h])
  · exact Or.inr ⟨yl, yk, t, by rw [hdrop, h], hsw⟩

end RPI

namespace RPI

theorem stripTrailP_facts (K : List (PyStr × LineKind))
    (hcl : ∀ x ∈ K, classifyLineLF x.1 = some x.2)
    (hnl : ∀ x ∈ K, ¬ '\n' ∈ x.1)
    (q : List (PyStr × LineKind)) (e : PyStr × LineKind) (w : List (PyStr × LineKind))
    (hK : K = q ++ [e] ++ w) (he : pyRstrip e.1 ≠ []) :
    (∀ x ∈ q ++ [(pyRstrip e.1, e.2)], classifyLineLF x.1 = some x.2) ∧
    (∀ x ∈ q ++ [(pyRstrip e.1, e.2)], ¬ '\n' ∈ x.1) ∧
    classifyLineLF (pyRstrip e.1) = some e.2 ∧
    isPyWs ((pyRstrip e.1).getLast!) = false := by
  have heK : e ∈ K := by
    rw [hK]
    exact List.mem_append_left _ (List.mem_append_right _ (List.mem_cons_self _ _))
  have hecl := hcl e heK
  have heb : e.2 ≠ LineKind.blank := by
    intro hb
    apply he
    apply classify_blank_rstrip
    rw [hb] at hecl
    exact hecl
  obtain ⟨_, hrcl⟩ := classifyLineLF_rstrip e.1 e.2 hecl heb
  have hqK : ∀ x ∈ q, x ∈ K := by
    intro x hx
    rw [hK]
    exact List.mem_append_left _ (List.mem_append_left _ hx)
  obtain ⟨c, hc, hcw⟩ := pyRstrip_getLast e.1 he
  refine ⟨?_, ?_, hrcl, ?_⟩
  · intro x hx
    rcases List.mem_append.1 hx with h | h
    · exact hcl x (hqK x h)
    · rcases List.mem_singleton.1 h with rfl
      exact hrcl
  · intro x hx
    rcases List.mem_append.1 hx with h | h
    · exact hnl x (hqK x h)
    · rcases List.mem_singleton.1 h with rfl
      intro hcon
      exact hnl e heK (pyRstrip_mem e.1 '\n' hcon)
  · rw [List.getLast!_of_getLast? hc]
    exact hcw

theorem stripTrailP_codeCanon_true (K : List (PyStr × LineKind))
    (hcl : ∀ x ∈ K, classifyLineLF x.1 = some x.2)
    (hnl : ∀ x ∈ K, ¬ '\n' ∈ x.1)
    (cmt sw : List (PyStr × LineKind)) (heq : K = cmt ++ sw)
    (hcmt : ∀ x ∈ cmt, x.2 = LineKind.comment)
    (hsw : sw = [] ∨ ∃ y t, sw = y :: t ∧ isSwallowKind y.2 = true) :
    stripTrailP K = [] ∨ codeCanon true (stripTrailP K) = true := by
  rcases stripTrailP_shape K with h0 | ⟨q, e, w, hK, hw, he, hst⟩
  · exact Or.inl h0
  right
  obtain ⟨hclP, hnlP, hrcl, hllws⟩ := stripTrailP_facts K hcl hnl q e w hK he
  rw [hst]
  have hne : q ++ [(pyRstrip e.1, e.2)] ≠ [] := by simp
  have hsplit0 : (q ++ [e]) ++ w = cmt ++ sw := by
    rw [← hK]
    exact heq
  rcases prefix_split (q ++ [e]) w cmt sw hsplit0 with hpre | ⟨sp, hqe, hspne, hsp⟩
  · have hsub := hpre.subset
    refine codeCanon_true_of_split _ hclP hnlP hne (q ++ [(pyRstrip e.1, e.2)]) []
      (by rw [List.append_nil]) ?_ (Or.inl rfl) _ _ (List.getLast?_concat q) he hllws
    intro x hx
    rcases List.mem_append.1 hx with h | h
    · exact hcmt x (hsub (List.mem_append_left _ h))
    · rcases List.mem_singleton.1 h with rfl
      exact hcmt e (hsub (List.mem_append_right _ (List.mem_cons_self _ _)))
  · rcases hsw with hswnil | ⟨y, t, hswe, hysw⟩
    · exfalso
      rw [hswnil] at hsp
      obtain ⟨z, hz⟩ := hsp
      cases sp with
      | nil => exact hspne rfl
      | cons a b => simp at hz
    · obtain ⟨z, hz⟩ := hsp
      cases sp with
      | nil => exact absurd rfl hspne
      | cons s0 sp2 =>
        rw [hswe] at hz
        have hz2 : s0 :: (sp2 ++ z) = y :: t := hz
        injection hz2 with hz3 _
        rcases List.eq_nil_or_concat sp2 with hsp2 | ⟨z2, zl, hsp2⟩
        · subst hsp2
          obtain ⟨hq, he2⟩ := concat_inj2 q cmt e s0 hqe
          refine codeCanon_true_of_split _ hclP hnlP hne cmt [(pyRstrip e.1, e.2)]
            (by rw [hq]) hcmt ?_ _ _ (List.getLast?_concat q) he hllws
          refine Or.inr ⟨pyRstrip e.1, e.2, [], rfl, ?_⟩
          rw [he2, hz3]
          exact hysw
        · rw [List.concat_eq_append] at hsp2
          subst hsp2
          have hqe2 : q ++ [e] = (cmt ++ s0 :: z2) ++ [zl] := by
            rw [hqe, List.append_assoc, List.cons_append]
          obtain ⟨hq, _⟩ := concat_inj2 q (cmt ++ s0 :: z2) e zl hqe2
          refine codeCanon_true_of_split _ hclP hnlP hne cmt
            (s0 :: (z2 ++ [(pyRstrip e.1, e.2)])) ?_ hcmt ?_ _ _
            (List.getLast?_concat q) he hllws
          · rw [hq, List.append_assoc, List.cons_append]
          · refine Or.inr ⟨s0.1, s0.2, z2 ++ [(pyRstrip e.1, e.2)], ?_, ?_⟩
            · rw [Prod.mk.eta]
            · rw [hz3]
              exact hysw

theorem stripTrailP_codeCanon_false (K : List (PyStr × LineKind))
    (hcl : ∀ x ∈ K, classifyLineLF x.1 = some x.2)
    (hnl : ∀ x ∈ K, ¬ '\n' ∈ x.1)
    (hshape : K = [] ∨ ∃ y t, K = y :: t ∧ y.2 = LineKind.stmt) :
    stripTrailP K = [] ∨ codeCanon false (stripTrailP K) = true := by
  rcases stripTrailP_shape K with h0 | ⟨q, e, w, hK, hw, he, hst⟩
  · exact Or.inl h0
  right
  obtain ⟨hclP, hnlP, hrcl, hllws⟩ := stripTrailP_facts K hcl hnl q e w hK he
  rw [hst]
  rcases hshape with hKnil | ⟨y, t, hKe, hyk⟩
  · rw [hKnil] at hK
    exact absurd hK.symm (by simp)
  · refine codeCanon_false_of_split _ hclP hnlP (by simp) ?_ _ _
      (List.getLast?_concat q) he hllws
    intro y2 t2 hyt
    cases q with
    | nil =>
      rw [hKe] at hK
      have hK2 : y :: t = e :: w := hK
      injection hK2 with h1 _
      have hyt2 : [(pyRstrip e.1, e.2)] = y2 :: t2 := hyt
      injection hyt2 with h2 _
      rw [← h2]
      show e.2 = LineKind.stmt
      rw [← h1]
      exact hyk
    | cons c q2 =>
      rw [hKe] at hK
      have hK2 : y :: t = c :: (q2 ++ [e] ++ w) := hK
      injection hK2 with h1 _
      have hyt3 : c :: (q2 ++ [(pyRstrip e.1, e.2)]) = y2 :: t2 := hyt
      injection hyt3 with h2 _
      rw [← h2, ← h1]
      exact hyk

end RPI

namespace RPI

theorem canonLines_unfold (lks2 : List (PyStr × LineKind)) :
    canonLines lks2 =
      (strictChain
        (((lks2.drop (lks2.takeWhile (fun lk => isPreKind lk.2)).length).takeWhile
            (fun lk => isSingleImp lk.2)).map (fun lk => objOf lk.2)) &&
       (match (lks2.drop (lks2.takeWhile (fun lk => isPreKind lk.2)).length).drop
           ((lks2.drop (lks2.takeWhile (fun lk => isPreKind lk.2)).length).takeWhile
             (fun lk => isSingleImp lk.2)).length with
        | [] => true
        | ([], LineKind.blank) :: ([], LineKind.blank) :: code =>
          codeCanon (!((lks2.drop (lks2.takeWhile
              (fun lk => isPreKind lk.2)).length).takeWhile
            (fun lk => isSingleImp lk.2)).isEmpty) code
        | _ => false)) := rfl

theorem canonLines_intro (pre imps rest2 : List (PyStr × LineKind))
    (hpre : ∀ x ∈ pre, isPreKind x.2 = true)
    (himps : ∀ x ∈ imps, isSingleImp x.2 = true)
    (hchain : strictChain (imps.map (fun lk => objOf lk.2)) = true)
    (hrest : rest2 = [] ∨
      ∃ code, rest2 = ([], LineKind.blank) :: ([], LineKind.blank) :: code
        ∧ codeCanon (!imps.isEmpty) code = true) :
    canonLines (pre ++ (imps ++ rest2)) = true := by
  have hstop : ∀ k : LineKind, isSingleImp k = true → isPreKind k = false := by
    intro k hk
    obtain ⟨o, rfl, _⟩ := isSingleImp_imp k hk
    rfl
  have htw1 : (pre ++ (imps ++ rest2)).takeWhile (fun lk => isPreKind lk.2) = pre := by
    rw [takeWhile_append_of_all _ pre _ hpre]
    have h2 : (imps ++ rest2).takeWhile (fun lk => isPreKind lk.2) = [] := by
      cases imps with
      | cons y t =>
        refine List.takeWhile_cons_of_neg ?_
        rw [hstop y.2 (himps y (List.mem_cons_self _ _))]
        intro hcon
        cases hcon
      | nil =>
        rw [List.nil_append]
        rcases hrest with h | ⟨code, h, _⟩
        · rw [h]
          rfl
        · rw [h]
          refine List.takeWhile_cons_of_neg ?_
          intro hcon
          exact Bool.noConfusion hcon
    rw [h2, List.append_nil]
  have hd1 : (pre ++ (imps ++ rest2)).drop pre.length = imps ++ rest2 :=
    List.drop_left pre _
  have htw2 : (imps ++ rest2).takeWhile (fun lk => isSingleImp lk.2) = imps := by
    rw [takeWhile_append_of_all _ imps rest2 himps]
    have h2 : rest2.takeWhile (fun lk => isSingleImp lk.2) = [] := by
      rcases hrest with h | ⟨code, h, _⟩
      · rw [h]
        rfl
      · rw [h]
        refine List.takeWhile_cons_of_neg ?_
        intro hcon
        exact Bool.noConfusion hcon
    rw [h2, List.append_nil]
  have hd2 : (imps ++ rest2).drop imps.length = rest2 := List.drop_left imps rest2
  rw [canonLines_unfold, htw1, hd1, htw2, hd2, hchain]
  rcases hrest with h | ⟨code, h, hcode⟩
  · rw [h]
    rfl
  · rw [h]
    show (true && codeCanon (!imps.isEmpty) code) = true
    rw [hcode]
    rfl

theorem fixModel_ok_shape (s t : PyStr) (h : fixModel s = .ok t) :
    ∃ lks, classAll s = some lks ∧
      (∀ lk ∈ lks, classifyLineLF lk.1 = some lk.2) ∧
      (∀ lk ∈ lks, ¬ '\n' ∈ lk.1) ∧
      t = joinLines (outLinesOf lks) := by
  cases hc : classAll s with
  | none =>
    exfalso
    have hast : miniAstF s = none := by
      unfold miniAstF
      rw [hc]
      rfl
    unfold fixModel fix_file_contents partition_source at h
    simp only [hast] at h
    exact Except.noConfusion h
  | some lks =>
    obtain ⟨hjoin, hWF, hnl⟩ := classAll_inv s lks hc
    have hm := fixModel_on_lines lks hWF hnl
    rw [← hjoin] at hm
    rw [h] at hm
    injection hm with h2
    exact ⟨lks, rfl, hWF, hnl, h2⟩

end RPI

namespace RPI

theorem stripTrailP_classify (K : List (PyStr × LineKind))
    (hcl : ∀ x ∈ K, classifyLineLF x.1 = some x.2) :
    ∀ x ∈ stripTrailP K, classifyLineLF x.1 = some x.2 := by
  rcases stripTrailP_shape K with h0 | ⟨q, e, w, hK, hw, he, hst⟩
  · rw [h0]
    intro x hx
    cases hx
  · rw [hst]
    intro x hx
    rcases List.mem_append.1 hx with h | h
    · refine hcl x ?_
      rw [hK]
      exact List.mem_append_left _ (List.mem_append_left _ h)
    · rcases List.mem_singleton.1 h with rfl
      have heK : e ∈ K := by
        rw [hK]
        exact List.mem_append_left _ (List.mem_append_right _ (List.mem_cons_self _ _))
      have hecl := hcl e heK
      have heb : e.2 ≠ LineKind.blank := by
        intro hb
        apply he
        apply classify_blank_rstrip
        rw [hb] at hecl
        exact hecl
      exact (classifyLineLF_rstrip e.1 e.2 hecl heb).2

theorem stripTrailP_no_nl (K : List (PyStr × LineKind))
    (hnlK : ∀ x ∈ K, ¬ '\n' ∈ x.1) :
    ∀ x ∈ stripTrailP K, ¬ '\n' ∈ x.1 := by
  rcases stripTrailP_shape K with h0 | ⟨q, e, w, hK, hw, he, hst⟩
  · rw [h0]
    intro x hx
    cases hx
  · rw [hst]
    intro x hx
    rcases List.mem_append.1 hx with h | h
    · refine hnlK x ?_
      rw [hK]
      exact List.mem_append_left _ (List.mem_append_left _ h)
    · rcases List.mem_singleton.1 h with rfl
      intro hcon
      refine hnlK e ?_ (pyRstrip_mem e.1 '\n' hcon)
      rw [hK]
      exact List.mem_append_left _ (List.mem_append_right _ (List.mem_cons_self _ _))

end RPI

namespace RPI

set_option maxHeartbeats 2000000 in
theorem outLines_canonical (lks : List (PyStr × LineKind))
    (hWF : ∀ lk ∈ lks, classifyLineLF lk.1 = some lk.2)
    (hnl : ∀ lk ∈ lks, ¬ '\n' ∈ lk.1) :
    canonicalSrc (joinLines (outLinesOf lks)) = true := by
  have hprops := impPartsOf_props lks hWF
  obtain ⟨hsub, ⟨keys, hmap, hchain, hk1⟩, hnil⟩ :=
    sortedImports_props (impPartsOf lks) hprops.1
  have hLF : ∀ x ∈ lks, isLFKind x.2 = true :=
    fun x hm => (classifyLineLF_props _ _ (hWF x hm)).2
  have hclK : ∀ x ∈ codeLK false lks, classifyLineLF x.1 = some x.2 :=
    fun x hx => hWF x (codeLK_subset lks false x hx)
  have hnlK : ∀ x ∈ codeLK false lks, ¬ '\n' ∈ x.1 :=
    fun x hx => hnl x (codeLK_subset lks false x hx)
  have hstcl := stripTrailP_classify (codeLK false lks) hclK
  have hstnl := stripTrailP_no_nl (codeLK false lks) hnlK
  have hrs : ∀ p ∈ sortedImports (impPartsOf lks),
      ∃ o, parseImport p.src = some o ∧ o.names.length = 1 :=
    fun p hp => (hprops.1 p (hsub p hp)).2
  have hsome : ∀ l ∈ outLinesOf lks, ∃ k, classifyLineLF l = some k := by
    intro l hl
    unfold outLinesOf at hl
    rcases List.mem_append.1 hl with h1 | h2
    · rcases List.mem_append.1 h1 with ha | hb
      · obtain ⟨x, hx, rfl⟩ := List.mem_map.1 ha
        exact ⟨x.2, hWF x (preLK_subset lks x hx)⟩
      · obtain ⟨p, hp, rfl⟩ := List.mem_map.1 hb
        obtain ⟨o, ho, _⟩ := hrs p hp
        exact ⟨LineKind.imp o, (classify_of_parse p.src o ho).2.2⟩
    · by_cases hstop : stripTrail ((codeLK false lks).map Prod.fst) = []
      · rw [if_pos hstop] at h2
        cases h2
      · rw [if_neg hstop] at h2
        rcases List.mem_cons.1 h2 with rfl | h3
        · exact ⟨LineKind.blank, by decide⟩
        rcases List.mem_cons.1 h3 with rfl | h4
        · exact ⟨LineKind.blank, by decide⟩
        · rw [← stripTrailP_fst] at h4
          obtain ⟨x, hx, rfl⟩ := List.mem_map.1 h4
          exact ⟨x.2, hstcl x hx⟩
  have hlnl : ∀ l ∈ outLinesOf lks, ¬ '\n' ∈ l := by
    intro l hl
    unfold outLinesOf at hl
    rcases List.mem_append.1 hl with h1 | h2
    · rcases List.mem_append.1 h1 with ha | hb
      · obtain ⟨x, hx, rfl⟩ := List.mem_map.1 ha
        exact hnl x (preLK_subset lks x hx)
      · obtain ⟨p, hp, rfl⟩ := List.mem_map.1 hb
        obtain ⟨o, ho, _⟩ := hrs p hp
        exact (classify_of_parse p.src o ho).2.1
    · by_cases hstop : stripTrail ((codeLK false lks).map Prod.fst) = []
      · rw [if_pos hstop] at h2
        cases h2
      · rw [if_neg hstop] at h2
        rcases List.mem_cons.1 h2 with rfl | h3
        · intro hcon
          cases hcon
        rcases List.mem_cons.1 h3 with rfl | h4
        · intro hcon
          cases hcon
        · rw [← stripTrailP_fst] at h4
          obtain ⟨x, hx, rfl⟩ := List.mem_map.1 h4
          exact hstnl x hx
  have hcl2 : ∀ lk ∈ (outLinesOf lks).map (fun l => (l, kindOf l)),
      classifyLineLF lk.1 = some lk.2 := by
    intro lk hlk
    obtain ⟨l, hl, rfl⟩ := List.mem_map.1 hlk
    obtain ⟨k, hk⟩ := hsome l hl
    show classifyLineLF l = some (kindOf l)
    unfold kindOf
    rw [hk]
    rfl
  have hnl2 : ∀ lk ∈ (outLinesOf lks).map (fun l => (l, kindOf l)), ¬ '\n' ∈ lk.1 := by
    intro lk hlk
    obtain ⟨l, hl, rfl⟩ := List.mem_map.1 hlk
    exact hlnl l hl
  have hfst : ((outLinesOf lks).map (fun l => (l, kindOf l))).map Prod.fst
      = outLinesOf lks := by
    rw [List.map_map,
      show (Prod.fst ∘ fun l : PyStr => (l, kindOf l)) = id from rfl, List.map_id]
  have hclassAll : classAll (joinLines (outLinesOf lks))
      = some ((outLinesOf lks).map (fun l => (l, kindOf l))) := by
    have h3 := classAll_of_lines _ hcl2 hnl2
    rw [hfst] at h3
    exact h3
  unfold canonicalSrc
  rw [hclassAll]
  have hstpair : (stripTrail ((codeLK false lks).map Prod.fst)).map
      (fun l => (l, kindOf l)) = stripTrailP (codeLK false lks) := by
    rw [← stripTrailP_fst, List.map_map]
    have h2 : ∀ x ∈ stripTrailP (codeLK false lks),
        ((fun l : PyStr => (l, kindOf l)) ∘ Prod.fst) x = id x := by
      intro x hx
      show (x.1, kindOf x.1) = x
      have hc := hstcl x hx
      unfold kindOf
      rw [hc]
      exact Prod.mk.eta
    rw [List.map_congr_left h2, List.map_id]
  have hsegs : (outLinesOf lks).map (fun l => (l, kindOf l))
      = preLK lks ++ ((sortedImports (impPartsOf lks)).map
          (fun p => (p.src.dropLast, kindOf p.src.dropLast))
        ++ (if stripTrail ((codeLK false lks).map Prod.fst) = [] then []
            else ([], LineKind.blank) :: ([], LineKind.blank)
              :: stripTrailP (codeLK false lks))) := by
    unfold outLinesOf
    rw [List.map_append, List.map_append, List.append_assoc]
    congr 1
    · rw [List.map_map]
      have h2 : ∀ x ∈ preLK lks,
          ((fun l : PyStr => (l, kindOf l)) ∘ Prod.fst) x = id x := by
        intro x hx
        show (x.1, kindOf x.1) = x
        have hc := hWF x (preLK_subset lks x hx)
        unfold kindOf
        rw [hc]
        exact Prod.mk.eta
      rw [List.map_congr_left h2, List.map_id]
    congr 1
    · rw [List.map_map]
      rfl
    · by_cases hstop : stripTrail ((codeLK false lks).map Prod.fst) = []
      · rw [if_pos hstop, if_pos hstop]
        rfl
      · rw [if_neg hstop, if_neg hstop, List.map_cons, List.map_cons, hstpair]
        rfl
  rw [hsegs]
  refine canonLines_intro (preLK lks) _ _ (preLK_kinds lks) ?_ ?_ ?_
  · intro x hx
    obtain ⟨p, hp, rfl⟩ := List.mem_map.1 hx
    obtain ⟨o, ho, hlen⟩ := hrs p hp
    have hcl3 := (classify_of_parse p.src o ho).2.2
    show isSingleImp (kindOf p.src.dropLast) = true
    unfold kindOf
    rw [hcl3]
    exact decide_eq_true hlen
  · have h1 : ((sortedImports (impPartsOf lks)).map
        (fun p => (p.src.dropLast, kindOf p.src.dropLast))).map
          (fun lk => objOf lk.2) = keys := by
      rw [List.map_map,
        show ((fun lk : PyStr × LineKind => objOf lk.2)
            ∘ fun p : CodePartition => (p.src.dropLast, kindOf p.src.dropLast))
          = (objOf ∘ fun p : CodePartition => kindOf p.src.dropLast) from rfl,
        ← List.map_map, kinds_of_parse_map (sortedImports (impPartsOf lks)) keys hmap,
        List.map_map, show (objOf ∘ LineKind.imp) = id from rfl, List.map_id]
    rw [h1]
    exact hchain
  · by_cases hstop : stripTrail ((codeLK false lks).map Prod.fst) = []
    · rw [if_pos hstop]
      exact Or.inl rfl
    · rw [if_neg hstop]
      right
      refine ⟨stripTrailP (codeLK false lks), rfl, ?_⟩
      have hstPne : stripTrailP (codeLK false lks) ≠ [] := by
        intro hcon
        apply hstop
        rw [← stripTrailP_fst, hcon]
        rfl
      cases hrs0 : sortedImports (impPartsOf lks) with
      | nil =>
        have himpnil : impLK false lks = [] := hprops.2.1 (hnil.1 hrs0)
        rcases codeLK_shape_false lks hLF with ⟨_, hcase⟩ | ⟨hne2, _⟩
        · show codeCanon false (stripTrailP (codeLK false lks)) = true
          rcases stripTrailP_codeCanon_false (codeLK false lks) hclK hnlK hcase
            with hz | hok
          · exact absurd hz hstPne
          · exact hok
        · exact absurd himpnil hne2
      | cons p ps =>
        have himpne : impLK false lks ≠ [] := by
          intro hcon
          have h5 : sortedImports (impPartsOf lks) = [] := hnil.2 (hprops.2.2 hcon)
          rw [hrs0] at h5
          cases h5
        rcases codeLK_shape_false lks hLF with ⟨himpnil, _⟩ | ⟨_, cmt, sw, heq2, hcmt2, hsw2⟩
        · exact absurd himpnil himpne
        · show codeCanon true (stripTrailP (codeLK false lks)) = true
          rcases stripTrailP_codeCanon_true (codeLK false lks) hclK hnlK
            cmt sw heq2 hcmt2 hsw2 with hz | hok
          · exact absurd hz hstPne
          · exact hok

end RPI

namespace RPI

/-! ## Eliminating the canonical form -/

theorem takeWhile_drop_len {α : Type} (p : α → Bool) :
    ∀ l : List α, l = l.takeWhile p ++ l.drop (l.takeWhile p).length := by
  intro l
  induction l with
  | nil => rfl
  | cons a t ih =>
    by_cases hp : p a = true
    · rw [List.takeWhile_cons_of_pos hp]
      simp only [List.length_cons, List.drop_succ_cons, List.cons_append]
      exact congrArg (List.cons a) ih
    · rw [List.takeWhile_cons_of_neg hp]
      rfl

theorem codeCanon_elim (seen : Bool) (code : List (PyStr × LineKind))
    (h : codeCanon seen code = true) :
    ∃ l0 k0 t0, code = (l0, k0) :: t0 ∧ l0 ≠ [] ∧
      (∃ ll kl, code.getLast? = some (ll, kl) ∧ ll ≠ [] ∧
        isPyWs (ll.getLast!) = false) ∧
      (seen = false → k0 = LineKind.stmt) ∧
      (seen = true → (k0 = LineKind.comment ∨ isSwallowKind k0 = true) ∧
        (code.drop (code.takeWhile
            (fun lk => decide (lk.2 = LineKind.comment))).length = []
         ∨ ∃ yl yk t, code.drop (code.takeWhile
             (fun lk => decide (lk.2 = LineKind.comment))).length = (yl, yk) :: t
           ∧ isSwallowKind yk = true)) := by
  cases code with
  | nil => exact Bool.noConfusion h
  | cons x t0 =>
    obtain ⟨l0, k0⟩ := x
    simp only [codeCanon] at h
    cases hlast : ((l0, k0) :: t0).getLast? with
    | none =>
      rw [hlast] at h
      exact Bool.noConfusion h
    | some lkpair =>
      obtain ⟨ll, kl⟩ := lkpair
      rw [hlast] at h
      simp only [Bool.and_eq_true] at h
      obtain ⟨⟨⟨⟨hM1, hM2⟩, hB⟩, hC⟩, hD⟩ := h
      rw [Bool.not_eq_true'] at hM2
      refine ⟨l0, k0, t0, rfl, of_decide_eq_true hC,
        ⟨ll, kl, rfl, of_decide_eq_true hM1, hM2⟩, ?_, ?_⟩
      · intro hs
        subst hs
        simp only [if_neg (by decide : ¬ (false = true))] at hB
        exact of_decide_eq_true hB
      · intro hs
        subst hs
        rw [if_pos rfl] at hB
        rw [Bool.and_eq_true] at hB
        obtain ⟨hB1, hB2⟩ := hB
        constructor
        · rcases Bool.or_eq_true_iff.1 hB1 with h1 | h1
          · exact Or.inl (of_decide_eq_true h1)
          · exact Or.inr h1
        · cases hdrop : ((l0, k0) :: t0).drop
            (((l0, k0) :: t0).takeWhile
              (fun lk => decide (lk.2 = LineKind.comment))).length with
          | nil => exact Or.inl rfl
          | cons y ts =>
            obtain ⟨yl, yk⟩ := y
            rw [hdrop] at hB2
            have hB3 : isSwallowKind yk = true := hB2
            exact Or.inr ⟨yl, yk, ts, rfl, hB3⟩

theorem canonLines_elim (lks : List (PyStr × LineKind)) (h : canonLines lks = true) :
    ∃ pre imps rest2, lks = pre ++ (imps ++ rest2) ∧
      (∀ x ∈ pre, isPreKind x.2 = true) ∧
      (∀ x ∈ imps, isSingleImp x.2 = true) ∧
      strictChain (imps.map (fun lk => objOf lk.2)) = true ∧
      (rest2 = [] ∨
        ∃ code, rest2 = ([], LineKind.blank) :: ([], LineKind.blank) :: code
          ∧ codeCanon (!imps.isEmpty) code = true) := by
  rw [canonLines_unfold, Bool.and_eq_true] at h
  obtain ⟨hchain, hmatch⟩ := h
  refine ⟨lks.takeWhile (fun lk => isPreKind lk.2),
    (lks.drop (lks.takeWhile (fun lk => isPreKind lk.2)).length).takeWhile
      (fun lk => isSingleImp lk.2),
    (lks.drop (lks.takeWhile (fun lk => isPreKind lk.2)).length).drop
      ((lks.drop (lks.takeWhile (fun lk => isPreKind lk.2)).length).takeWhile
        (fun lk => isSingleImp lk.2)).length, ?_, ?_, ?_, hchain, ?_⟩
  · conv_lhs => rw [takeWhile_drop_len (fun lk : PyStr × LineKind => isPreKind lk.2) lks]
    congr 1
    exact takeWhile_drop_len (fun lk : PyStr × LineKind => isSingleImp lk.2) _
  · intro x hx
    exact @List.mem_takeWhile_imp _ (fun lk : PyStr × LineKind => isPreKind lk.2) _ x hx
  · intro x hx
    exact @List.mem_takeWhile_imp _ (fun lk : PyStr × LineKind => isSingleImp lk.2) _ x hx
  · cases hdrop : (lks.drop (lks.takeWhile (fun lk => isPreKind lk.2)).length).drop
        ((lks.drop (lks.takeWhile (fun lk => isPreKind lk.2)).length).takeWhile
          (fun lk => isSingleImp lk.2)).length with
    | nil => exact Or.inl rfl
    | cons y t =>
      rw [hdrop] at hmatch
      obtain ⟨y1, y2⟩ := y
      cases y1 with
      | nil =>
        cases y2
        case blank =>
          cases t with
          | nil => exact Bool.noConfusion hmatch
          | cons z t2 =>
            obtain ⟨z1, z2⟩ := z
            cases z1 with
            | nil =>
              cases z2
              case blank => exact Or.inr ⟨t2, rfl, hmatch⟩
              all_goals exact Bool.noConfusion hmatch
            | cons c z1t => exact Bool.noConfusion hmatch
        all_goals exact Bool.noConfusion hmatch
      | cons c y1t => exact Bool.noConfusion hmatch

end RPI

namespace RPI

/-! ## The selectors on a source already in canonical form -/

theorem preLK_append_pre : ∀ (pre rest : List (PyStr × LineKind)),
    (∀ x ∈ pre, isPreKind x.2 = true) → preLK (pre ++ rest) = pre ++ preLK rest := by
  intro pre
  induction pre with
  | nil => intro rest _; rfl
  | cons x t ih =>
    intro rest h
    obtain ⟨l, k⟩ := x
    have hk := h (l, k) (List.mem_cons_self _ _)
    have ht := fun y hy => h y (List.mem_cons_of_mem _ hy)
    cases k
    case comment =>
      show (l, LineKind.comment) :: preLK (t ++ rest)
          = (l, LineKind.comment) :: (t ++ preLK rest)
      rw [ih rest ht]
    case strLit =>
      show (l, LineKind.strLit) :: preLK (t ++ rest)
          = (l, LineKind.strLit) :: (t ++ preLK rest)
      rw [ih rest ht]
    all_goals exact Bool.noConfusion hk

theorem impLK_append_pre : ∀ (pre rest : List (PyStr × LineKind)),
    (∀ x ∈ pre, isPreKind x.2 = true) →
    impLK false (pre ++ rest) = impLK false rest := by
  intro pre
  induction pre with
  | nil => intro rest _; rfl
  | cons x t ih =>
    intro rest h
    obtain ⟨l, k⟩ := x
    have hk := h (l, k) (List.mem_cons_self _ _)
    have ht := fun y hy => h y (List.mem_cons_of_mem _ hy)
    cases k
    case comment => exact ih rest ht
    case strLit =>
      show (if false then [] else impLK false (t ++ rest)) = impLK false rest
      rw [if_neg (by decide : ¬ (false = true))]
      exact ih rest ht
    all_goals exact Bool.noConfusion hk

theorem codeLK_append_pre : ∀ (pre rest : List (PyStr × LineKind)),
    (∀ x ∈ pre, isPreKind x.2 = true) →
    codeLK false (pre ++ rest) = codeLK false rest := by
  intro pre
  induction pre with
  | nil => intro rest _; rfl
  | cons x t ih =>
    intro rest h
    obtain ⟨l, k⟩ := x
    have hk := h (l, k) (List.mem_cons_self _ _)
    have ht := fun y hy => h y (List.mem_cons_of_mem _ hy)
    cases k
    case comment =>
      show (if false then (l, LineKind.comment) :: codeLK false (t ++ rest)
            else codeLK false (t ++ rest)) = codeLK false rest
      rw [if_neg (by decide : ¬ (false = true))]
      exact ih rest ht
    case strLit =>
      show (if false then (l, LineKind.strLit) :: (t ++ rest)
            else codeLK false (t ++ rest)) = codeLK false rest
      rw [if_neg (by decide : ¬ (false = true))]
      exact ih rest ht
    all_goals exact Bool.noConfusion hk

theorem impLK_append_imps : ∀ (imps rest : List (PyStr × LineKind)) (seen : Bool),
    (∀ x ∈ imps, isSingleImp x.2 = true) →
    impLK seen (imps ++ rest)
      = imps.map (fun lk => (lk.1, objOf lk.2))
        ++ impLK (if imps.isEmpty then seen else true) rest := by
  intro imps
  induction imps with
  | nil => intro rest seen _; rfl
  | cons x t ih =>
    intro rest seen h
    obtain ⟨l, k⟩ := x
    obtain ⟨o, rfl, _⟩ := isSingleImp_imp k (h (l, k) (List.mem_cons_self _ _))
    have ht := fun y hy => h y (List.mem_cons_of_mem _ hy)
    show (l, o) :: impLK true (t ++ rest) = _
    rw [ih rest true ht]
    cases t with
    | nil => rfl
    | cons z t2 => rfl

theorem codeLK_append_imps : ∀ (imps rest : List (PyStr × LineKind)) (seen : Bool),
    (∀ x ∈ imps, isSingleImp x.2 = true) →
    codeLK seen (imps ++ rest)
      = codeLK (if imps.isEmpty then seen else true) rest := by
  intro imps
  induction imps with
  | nil => intro rest seen _; rfl
  | cons x t ih =>
    intro rest seen h
    obtain ⟨l, k⟩ := x
    obtain ⟨o, rfl, _⟩ := isSingleImp_imp k (h (l, k) (List.mem_cons_self _ _))
    have ht := fun y hy => h y (List.mem_cons_of_mem _ hy)
    show codeLK true (t ++ rest) = _
    rw [ih rest true ht]
    cases t with
    | nil => rfl
    | cons z t2 => rfl

theorem impLK_true_comments : ∀ (cmts rest : List (PyStr × LineKind)),
    (∀ x ∈ cmts, x.2 = LineKind.comment) →
    impLK true (cmts ++ rest) = impLK true rest := by
  intro cmts
  induction cmts with
  | nil => intro rest _; rfl
  | cons x t ih =>
    intro rest h
    obtain ⟨l, k⟩ := x
    have hk := h (l, k) (List.mem_cons_self _ _)
    have ht := fun y hy => h y (List.mem_cons_of_mem _ hy)
    cases k
    case comment => exact ih rest ht
    all_goals exact absurd hk (by intro hcon; cases hcon)

theorem codeLK_true_comments : ∀ (cmts rest : List (PyStr × LineKind)),
    (∀ x ∈ cmts, x.2 = LineKind.comment) →
    codeLK true (cmts ++ rest) = cmts ++ codeLK true rest := by
  intro cmts
  induction cmts with
  | nil => intro rest _; rfl
  | cons x t ih =>
    intro rest h
    obtain ⟨l, k⟩ := x
    have hk := h (l, k) (List.mem_cons_self _ _)
    have ht := fun y hy => h y (List.mem_cons_of_mem _ hy)
    cases k
    case comment =>
      show (if true then (l, LineKind.comment) :: codeLK true (t ++ rest)
            else codeLK true (t ++ rest))
          = (l, LineKind.comment) :: (t ++ codeLK true rest)
      rw [if_pos rfl, ih rest ht]
    all_goals exact absurd hk (by intro hcon; cases hcon)

theorem impLK_true_swallow (after : List (PyStr × LineKind))
    (h : after = [] ∨ ∃ yl yk t, after = (yl, yk) :: t ∧ isSwallowKind yk = true) :
    impLK true after = [] := by
  rcases h with rfl | ⟨yl, yk, t, rfl, hsw⟩
  · rfl
  · rcases isSwallowKind_cases yk hsw with rfl | rfl
    · rfl
    · show (if true then [] else impLK false t) = []
      rfl

theorem codeLK_true_swallow (after : List (PyStr × LineKind))
    (h : after = [] ∨ ∃ yl yk t, after = (yl, yk) :: t ∧ isSwallowKind yk = true) :
    codeLK true after = after := by
  rcases h with rfl | ⟨yl, yk, t, rfl, hsw⟩
  · rfl
  · rcases isSwallowKind_cases yk hsw with rfl | rfl
    · rfl
    · show (if true then (yl, LineKind.strLit) :: t else codeLK false t)
          = (yl, LineKind.strLit) :: t
      rfl

end RPI

namespace RPI

/-! ## The three passes are the identity on a canonical import run -/

theorem sepFlat_singles : ∀ ps : List CodePartition,
    (∀ q ∈ ps, q.code_type = CodeType.IMPORT ∧
      ∃ o, parseImport q.src = some o ∧ o.names.length = 1) →
    (ps.map (sepSpec miniApi)).flatten = ps := by
  intro ps
  induction ps with
  | nil => intro _; rfl
  | cons q t ih =>
    intro h
    obtain ⟨hq, o, ho, hlen⟩ := h q (List.mem_cons_self _ _)
    have ht := fun y hy => h y (List.mem_cons_of_mem _ hy)
    have hsep : sepSpec miniApi q = [q] := by
      unfold sepSpec
      rw [if_pos hq]
      have hobj : miniApi.import_obj_from_str q.src = some o := ho
      rw [hobj]
      show (if miniApi.has_multiple_imports o = true then
          (miniApi.split_imports o).map
            (fun o2 => (⟨CodeType.IMPORT, miniApi.to_text o2⟩ : CodePartition))
        else [q]) = [q]
      have hm : ¬ miniApi.has_multiple_imports o = true := by
        show ¬ decide (1 < o.names.length) = true
        rw [hlen]
        decide
      rw [if_neg hm]
    rw [List.map_cons, List.flatten_cons, hsep, ih ht]
    rfl

theorem dedupSpec_nodup : ∀ (ps : List CodePartition) (os : List ImportObj)
    (seen : List ImportObj),
    ps.map (fun q => parseImport q.src) = os.map some →
    (∀ q ∈ ps, q.code_type = CodeType.IMPORT) →
    os.Nodup → (∀ o ∈ os, o ∉ seen) →
    dedupSpec miniApi seen ps = ps := by
  intro ps
  induction ps with
  | nil => intro os seen _ _ _ _; rfl
  | cons q t ih =>
    intro os seen hmap htype hnd hdis
    cases os with
    | nil => cases hmap
    | cons o ot =>
      rw [List.map_cons, List.map_cons] at hmap
      injection hmap with h1 h2
      rw [List.nodup_cons] at hnd
      have e1 : dedupSpec miniApi seen (q :: t)
          = q :: dedupSpec miniApi (o :: seen) t := by
        conv_lhs => unfold dedupSpec
        rw [if_pos (htype q (List.mem_cons_self _ _))]
        have hobj : miniApi.import_obj_from_str q.src = some o := h1
        rw [hobj]
        show (if o ∈ seen then dedupSpec miniApi seen t
              else q :: dedupSpec miniApi (o :: seen) t)
            = q :: dedupSpec miniApi (o :: seen) t
        rw [if_neg (hdis o (List.mem_cons_self _ _))]
      have hdis2 : ∀ o2 ∈ ot, o2 ∉ o :: seen := by
        intro o2 ho2 hcon
        rcases List.mem_cons.1 hcon with rfl | hcon2
        · exact hnd.1 ho2
        · exact hdis o2 (List.mem_cons_of_mem _ ho2) hcon2
      rw [e1, ih ot (o :: seen) h2
        (fun y hy => htype y (List.mem_cons_of_mem _ hy)) hnd.2 hdis2]

theorem pairsOf_zip : ∀ (ps : List CodePartition) (os : List ImportObj),
    ps.map (fun q => parseImport q.src) = os.map some →
    (∀ q ∈ ps, q.code_type = CodeType.IMPORT) →
    pairsOf miniApi ps = os.zip ps := by
  intro ps
  induction ps with
  | nil =>
    intro os hmap _
    cases os with
    | nil => rfl
    | cons o ot => cases hmap
  | cons q t ih =>
    intro os hmap htype
    cases os with
    | nil => cases hmap
    | cons o ot =>
      rw [List.map_cons, List.map_cons] at hmap
      injection hmap with h1 h2
      have hobj : miniApi.import_obj_from_str q.src = some o := h1
      have htq := htype q (List.mem_cons_self _ _)
      have ihh := ih ot h2 (fun y hy => htype y (List.mem_cons_of_mem _ hy))
      unfold pairsOf at ihh ⊢
      have hfil : List.filter (fun p => decide (p.code_type = CodeType.IMPORT)) (q :: t)
          = q :: List.filter (fun p => decide (p.code_type = CodeType.IMPORT)) t := by
        simp [List.filter_cons, htq]
      rw [hfil, List.filterMap_cons]
      simp only [hobj, Option.map_some']
      rw [ihh]
      rfl

theorem filterMap_dictGet_zip : ∀ (os : List ImportObj) (ps : List CodePartition),
    os.length = ps.length → os.Nodup →
    os.filterMap (dictGet (os.zip ps)) = ps := by
  intro os
  induction os with
  | nil =>
    intro ps hlen _
    cases ps with
    | nil => rfl
    | cons p t => cases hlen
  | cons o ot ih =>
    intro ps hlen hnd
    cases ps with
    | nil => cases hlen
    | cons p pt =>
      rw [List.nodup_cons] at hnd
      have hlen2 : ot.length = pt.length := by simpa using hlen
      have hget : dictGet ((o, p) :: ot.zip pt) o = some p := by
        unfold dictGet
        rw [List.find?_cons_of_pos _ (by simp)]
        rfl
      have hcongr : ∀ o2 ∈ ot, dictGet ((o, p) :: ot.zip pt) o2
          = dictGet (ot.zip pt) o2 := by
        intro o2 ho2
        unfold dictGet
        rw [List.find?_cons_of_neg]
        intro hcon
        have h3 := of_decide_eq_true hcon
        apply hnd.1
        rw [show o = (o, p).1 from rfl, h3]
        exact ho2
      rw [List.zip_cons_cons]
      simp only [List.filterMap_cons, hget]
      rw [List.filterMap_congr hcongr, ih pt hlen2 hnd.2]

theorem os_render_valid (os : List ImportObj) (ps : List CodePartition)
    (hmap : ps.map (fun q => parseImport q.src) = os.map some) :
    ∀ o ∈ os, parseImport (renderImport o.names) = some o := by
  intro o ho
  have h1 : some o ∈ ps.map (fun q => parseImport q.src) := by
    rw [hmap]
    exact List.mem_map_of_mem some ho
  obtain ⟨q, _, hq⟩ := List.mem_map.1 h1
  obtain ⟨hne, hvalid⟩ := parseImport_valid q.src o hq
  exact parseImport_render o.names hne hvalid

theorem sortedImports_id (os : List ImportObj) (ps : List CodePartition)
    (hmap : ps.map (fun q => parseImport q.src) = os.map some)
    (htype : ∀ q ∈ ps, q.code_type = CodeType.IMPORT)
    (hnd : os.Nodup) (hsorted : List.Pairwise impLe os) :
    sortedImports ps = ps := by
  have hlen : os.length = ps.length := by
    have h2 := congrArg List.length hmap
    simpa using h2.symm
  have hpz := pairsOf_zip ps os hmap htype
  unfold sortedImports
  rw [hpz]
  have hfst : (os.zip ps).map Prod.fst = os := List.map_fst_zip os ps (le_of_eq hlen)
  have hs2 : List.Sorted impLe os := hsorted
  rw [dictOfPairs_eq_self _ (by rw [hfst]; exact hnd), hfst,
    List.Sorted.insertionSort_eq hs2]
  exact filterMap_dictGet_zip os ps hlen hnd

theorem imps_parse_map (imps : List (PyStr × LineKind))
    (h1 : ∀ x ∈ imps, classifyLineLF x.1 = some x.2)
    (h2 : ∀ x ∈ imps, isSingleImp x.2 = true) :
    (imps.map (fun lk => (⟨CodeType.IMPORT, lk.1 ++ ['\n']⟩ : CodePartition))).map
        (fun q => parseImport q.src)
      = (imps.map (fun lk => objOf lk.2)).map some := by
  rw [List.map_map, List.map_map]
  apply List.map_congr_left
  intro x hx
  obtain ⟨o, ho, _⟩ := isSingleImp_imp x.2 (h2 x hx)
  have hcl := h1 x hx
  rw [ho] at hcl
  have hp := classify_imp_parse x.1 o hcl
  show parseImport (x.1 ++ ['\n']) = some (objOf x.2)
  rw [ho, hp]
  rfl

end RPI

namespace RPI

theorem stripTrail_canonical (code : List (PyStr × LineKind))
    (h : ∃ ll kl, code.getLast? = some (ll, kl) ∧ ll ≠ [] ∧
      isPyWs (ll.getLast!) = false) :
    stripTrail (code.map Prod.fst) = code.map Prod.fst := by
  obtain ⟨ll, kl, hlast, hllne, hllws⟩ := h
  rcases List.eq_nil_or_concat code with rfl | ⟨cinit, clast, hconcat⟩
  · rfl
  · rw [List.concat_eq_append] at hconcat
    subst hconcat
    rw [List.getLast?_concat] at hlast
    injection hlast with h1
    subst h1
    rw [List.map_append]
    show stripTrail (cinit.map Prod.fst ++ [ll]) = cinit.map Prod.fst ++ [ll]
    have hr : pyRstrip ll = ll := by
      cases hll : ll.getLast? with
      | none => exact absurd (List.getLast?_eq_none_iff.1 hll) hllne
      | some c =>
        refine pyRstrip_eq_self ll c hll ?_
        rw [List.getLast!_of_getLast? hll] at hllws
        exact hllws
    rw [stripTrail_concat,
      if_neg (show ¬ pyRstrip ll = [] from by rw [hr]; exact hllne), hr]

set_option maxHeartbeats 2000000 in
theorem canonical_out_eq (lks : List (PyStr × LineKind))
    (hWF : ∀ lk ∈ lks, classifyLineLF lk.1 = some lk.2)
    (hcanon : canonLines lks = true) :
    outLinesOf lks = lks.map Prod.fst := by
  obtain ⟨pre, imps, rest2, hsplit, hpre, himps, hchain, hrest⟩ :=
    canonLines_elim lks hcanon
  subst hsplit
  have hclimps : ∀ x ∈ imps, classifyLineLF x.1 = some x.2 := by
    intro x hx
    exact hWF x (List.mem_append_right _ (List.mem_append_left _ hx))
  have hpreLK : preLK (pre ++ (imps ++ rest2)) = pre := by
    rw [preLK_append_pre pre _ hpre]
    have hz : preLK (imps ++ rest2) = [] := by
      cases himpse : imps with
      | cons y yt =>
        rcases y with ⟨yl, yk⟩
        obtain ⟨o, ho, _⟩ := isSingleImp_imp yk
          (himps (yl, yk) (by rw [himpse]; exact List.mem_cons_self _ _))
        subst ho
        rfl
      | nil =>
        rcases hrest with rfl | ⟨code, rfl, hcode⟩
        · rfl
        · rw [himpse] at hcode
          have hc := codeCanon_elim false code (by exact hcode)
          obtain ⟨l0, k0, t0, rfl, _, _, hk0f, _⟩ := hc
          rw [hk0f rfl]
          rfl
    rw [hz, List.append_nil]
  have himpLK : impLK false (pre ++ (imps ++ rest2))
      = imps.map (fun lk => (lk.1, objOf lk.2)) := by
    rw [impLK_append_pre pre _ hpre, impLK_append_imps imps rest2 false himps]
    have hz : impLK (if imps.isEmpty then false else true) rest2 = [] := by
      rcases hrest with rfl | ⟨code, rfl, hcode⟩
      · cases imps <;> rfl
      · cases himpse : imps with
        | nil =>
          rw [himpse] at hcode
          have hc := codeCanon_elim false code (by exact hcode)
          obtain ⟨l0, k0, t0, rfl, _, _, hk0f, _⟩ := hc
          rw [hk0f rfl]
          rfl
        | cons y yt =>
          rw [himpse] at hcode
          have hc := codeCanon_elim true code (by exact hcode)
          obtain ⟨l0, k0, t0, _, _, _, _, hk0t⟩ := hc
          obtain ⟨_, hdropor⟩ := hk0t rfl
          show impLK true code = []
          conv_lhs => rw [takeWhile_drop_len
            (fun lk : PyStr × LineKind => decide (lk.2 = LineKind.comment)) code]
          rw [impLK_true_comments _ _ (fun x hx => of_decide_eq_true
            (@List.mem_takeWhile_imp _
              (fun lk : PyStr × LineKind => decide (lk.2 = LineKind.comment)) _ x hx))]
          exact impLK_true_swallow _ hdropor
    rw [hz, List.append_nil]
  have hcodeLK0 : codeLK false (pre ++ (imps ++ rest2))
      = codeLK (if imps.isEmpty then false else true) rest2 := by
    rw [codeLK_append_pre pre _ hpre, codeLK_append_imps imps rest2 false himps]
  have hI0 : (impLK false (pre ++ (imps ++ rest2))).map
      (fun lo => (⟨CodeType.IMPORT, lo.1 ++ ['\n']⟩ : CodePartition))
      = imps.map (fun lk => (⟨CodeType.IMPORT, lk.1 ++ ['\n']⟩ : CodePartition)) := by
    rw [himpLK, List.map_map]
    rfl
  have hmapI0 := imps_parse_map imps hclimps himps
  have htypeI0 : ∀ q ∈ imps.map
      (fun lk => (⟨CodeType.IMPORT, lk.1 ++ ['\n']⟩ : CodePartition)),
      q.code_type = CodeType.IMPORT := by
    intro q hq
    obtain ⟨x, _, rfl⟩ := List.mem_map.1 hq
    rfl
  have hvalidos := os_render_valid (imps.map (fun lk => objOf lk.2)) _ hmapI0
  obtain ⟨hsorted, hnd⟩ := strictChain_sorted_nodup _ hvalidos hchain
  have hsingleI0 : ∀ q ∈ imps.map
      (fun lk => (⟨CodeType.IMPORT, lk.1 ++ ['\n']⟩ : CodePartition)),
      q.code_type = CodeType.IMPORT ∧
      ∃ o, parseImport q.src = some o ∧ o.names.length = 1 := by
    intro q hq
    obtain ⟨x, hx, rfl⟩ := List.mem_map.1 hq
    obtain ⟨o, ho, hlen⟩ := isSingleImp_imp x.2 (himps x hx)
    have hcl := hclimps x hx
    rw [ho] at hcl
    exact ⟨rfl, o, classify_imp_parse x.1 o hcl, hlen⟩
  have hImpParts : impPartsOf (pre ++ (imps ++ rest2))
      = imps.map (fun lk => (⟨CodeType.IMPORT, lk.1 ++ ['\n']⟩ : CodePartition)) := by
    unfold impPartsOf
    rw [hI0, sepFlat_singles _ hsingleI0]
    exact dedupSpec_nodup _ (imps.map (fun lk => objOf lk.2)) [] hmapI0 htypeI0 hnd
      (fun o ho => List.not_mem_nil o)
  have hSort : sortedImports (imps.map
      (fun lk => (⟨CodeType.IMPORT, lk.1 ++ ['\n']⟩ : CodePartition)))
      = imps.map (fun lk => (⟨CodeType.IMPORT, lk.1 ++ ['\n']⟩ : CodePartition)) :=
    sortedImports_id (imps.map (fun lk => objOf lk.2)) _ hmapI0 htypeI0 hnd hsorted
  have hIlines : ((imps.map
      (fun lk => (⟨CodeType.IMPORT, lk.1 ++ ['\n']⟩ : CodePartition))).map
        (fun p => p.src.dropLast)) = imps.map Prod.fst := by
    rw [List.map_map]
    apply List.map_congr_left
    intro x _
    show ((⟨CodeType.IMPORT, x.1 ++ ['\n']⟩ : CodePartition).src).dropLast = x.1
    exact List.dropLast_concat
  unfold outLinesOf
  rw [hpreLK, hImpParts, hSort, hIlines, hcodeLK0, List.map_append, List.map_append]
  rcases hrest with rfl | ⟨code, rfl, hcode⟩
  · have hcz : codeLK (if imps.isEmpty then false else true) ([] : List (PyStr × LineKind))
        = [] := by
      cases imps <;> rfl
    rw [hcz]
    rw [if_pos (show stripTrail (List.map Prod.fst ([] : List (PyStr × LineKind)))
        = [] from rfl)]
    simp
  · have hcval : codeLK (if imps.isEmpty then false else true)
        (([], LineKind.blank) :: ([], LineKind.blank) :: code) = code := by
      cases himpse : imps with
      | nil =>
        rw [himpse] at hcode
        have hc := codeCanon_elim false code (by exact hcode)
        obtain ⟨l0, k0, t0, rfl, _, _, hk0f, _⟩ := hc
        rw [hk0f rfl]
        rfl
      | cons y yt =>
        rw [himpse] at hcode
        have hc := codeCanon_elim true code (by exact hcode)
        obtain ⟨l0, k0, t0, _, _, _, _, hk0t⟩ := hc
        obtain ⟨_, hdropor⟩ := hk0t rfl
        show codeLK true code = code
        conv_lhs => rw [takeWhile_drop_len
          (fun lk : PyStr × LineKind => decide (lk.2 = LineKind.comment)) code]
        rw [codeLK_true_comments _ _ (fun x hx => of_decide_eq_true
          (@List.mem_takeWhile_imp _
            (fun lk : PyStr × LineKind => decide (lk.2 = LineKind.comment)) _ x hx)),
          codeLK_true_swallow _ hdropor]
        exact (takeWhile_drop_len
          (fun lk : PyStr × LineKind => decide (lk.2 = LineKind.comment)) code).symm
    rw [hcval]
    have hcfacts := codeCanon_elim (!imps.isEmpty) code hcode
    obtain ⟨l0, k0, t0, hcshape, _, hlastf, _, _⟩ := hcfacts
    have hstripId := stripTrail_canonical code hlastf
    have hne2 : stripTrail (code.map Prod.fst) ≠ [] := by
      rw [hstripId, hcshape]
      simp
    rw [if_neg hne2, hstripId, List.append_assoc]
    rfl

end RPI

namespace RPI

/-- A source in the code's canonical form is a fixed point of the whole
transformation. -/
theorem canonical_fixpoint (s : PyStr) (h : canonicalSrc s = true) :
    fixModel s = .ok s := by
  unfold canonicalSrc at h
  cases hc : classAll s with
  | none =>
    rw [hc] at h
    exact Bool.noConfusion h
  | some lks =>
    rw [hc] at h
    have h2 : canonLines lks = true := h
    obtain ⟨hjoin, hWF, hnl⟩ := classAll_inv s lks hc
    have hm := fixModel_on_lines lks hWF hnl
    rw [canonical_out_eq lks hWF h2] at hm
    rw [← hjoin] at hm
    exact hm

/-- C2 (counterexample): the parseable source `"x = 1\n"` contains no
top-level import statement, yet the transformation is not a no-op on it —
the reassembly prepends the two-newline region, returning `"\n\nx = 1\n"`. -/
theorem claim2_cex_no_import_source_changed :
    fixModel ("x = 1\n").toList = .ok (("\n\nx = 1\n").toList) ∧
    ("\n\nx = 1\n").toList ≠ ("x = 1\n").toList := by
  decide

/-- C2 (amended): the transformation is a no-op exactly on sources in the
code's canonical form — a header of comment and string lines, then a
strictly sorted, duplicate-free run of single-name import statements, then
either nothing or exactly two blank lines followed by a code section that
starts with its region-opening line and carries no trailing whitespace.
For every source `S` with `canonicalSrc S`, `fix_file_contents S`
returns `S` unchanged.  (Import-free parseable sources are NOT all fixed
points: the pipeline re-separates the code section with two blank lines.) -/
theorem claim2_canonical_noop (s : PyStr) (h : canonicalSrc s = true) :
    fixModel s = .ok s :=
  canonical_fixpoint s h

theorem claim2_witness :
    canonicalSrc ("import a\n").toList = true ∧
    fixModel ("import a\n").toList = .ok (("import a\n").toList) :=
  ⟨by decide, claim2_canonical_noop _ (by decide)⟩

/-- C5: the whole transformation is idempotent — whenever
`fix_file_contents` succeeds on `S` with output `T`, running it again on
`T` succeeds and returns `T` itself (the output is always in the
canonical form, and canonical sources are fixed points). -/
theorem claim5_idempotent (s t : PyStr) (h : fixModel s = .ok t) :
    fixModel t = .ok t := by
  obtain ⟨lks, _, hWF, hnl, rfl⟩ := fixModel_ok_shape s t h
  exact canonical_fixpoint _ (outLines_canonical lks hWF hnl)

theorem claim5_witness :
    fixModel ("import b\nimport a\n").toList = .ok (("import a\nimport b\n").toList) ∧
    fixModel ("import a\nimport b\n").toList = .ok (("import a\nimport b\n").toList) :=
  ⟨by decide, claim5_idempotent (("import b\nimport a\n").toList)
    (("import a\nimport b\n").toList) (by decide)⟩

end RPI
